import Mathlib

/-!
# Verification of the limit-order matching engine (`src/sandbox/order_matcher.py`)

Shallow embedding of the `Engine` class and its helpers.  Modelling choices:

* Prices and quantities are Python numbers used only with `min`, subtraction and
  comparisons; they are embedded as `Int` (exact arithmetic).
* `heapq` binary heaps are observed by the code only through `heap[0]`
  (minimum), `heappop` (remove minimum) and `heappush`; a heap of
  `(key, sequence)` tuples is therefore embedded as a list kept sorted in the
  lexicographic tuple order, where push is ordered insertion and pop removes the
  head.  Tuple entries compared by `heapq` are always distinct in reachable
  states (sequences are unique), and identical entries are interchangeable, so
  the sorted-list view is observationally equivalent to the binary heap.
* Python dicts `_by_seq` / `_by_id` are embedded as association lists with
  update-in-place insertion (`insertA`) and key deletion (`eraseA`).
* `datetime.now()` is embedded as an abstract tick counter `clock` stored in the
  engine; each read returns the current tick and advances it.
* In Python the two dicts alias one mutable `Order` object, so a quantity
  decrement through the alias updates both dicts at the record's own
  sequence/id keys; the embedding applies the update to both association lists
  explicitly, which coincides with the aliasing semantics on every state where
  a registered key maps to a record carrying that key (true of all reachable
  states).
* The `while` loops of `_match_buy` / `_match_sell` are embedded with an
  explicit fuel argument; `add_order` runs them with fuel `quantity.toNat`,
  which is sufficient because every iteration that continues strictly decreases
  the taker's integer quantity by at least 1 (lemmas `matchBuyF_fuel` /
  `matchSellF_fuel` prove the result is unchanged by giving more fuel).
-/

namespace OrderMatcher

/-- `Order` dataclass from the source: one order's mutable state. -/
structure Order where
  id : Nat
  side : String
  price : Int
  quantity : Int
  time : Nat
  sequence : Nat
deriving DecidableEq, Repr

/-- One trade record, as the dict appended by `Engine._record_trade`. -/
structure Trade where
  time : Nat
  price : Int
  quantity : Int
  taker_side : String
  maker_order_id : Nat
  taker_order_id : Nat
deriving DecidableEq, Repr

/-- A priority-queue entry `(priority_key, sequence)`. -/
abbrev Entry := Int × Nat

/-- Lexicographic order on heap entries, as `heapq` compares Python tuples. -/
def eLe (a b : Entry) : Prop := a.1 < b.1 ∨ (a.1 = b.1 ∧ a.2 ≤ b.2)

instance : DecidableRel eLe := fun a b => by
  unfold eLe; infer_instance

/-- `heapq.heappush`: insertion keeping the list sorted by `eLe`. -/
def heapPush (e : Entry) : List Entry → List Entry
  | [] => [e]
  | x :: xs => if eLe e x then e :: x :: xs else x :: heapPush e xs

/-- Python dict lookup `m.get(k)` on an association list. -/
def lookupA (m : List (Nat × Order)) (k : Nat) : Option Order :=
  match m with
  | [] => none
  | (k1, v) :: rest => if k1 = k then some v else lookupA rest k

/-- Python dict assignment `m[k] = v`: update in place, else append. -/
def insertA (k : Nat) (v : Order) : List (Nat × Order) → List (Nat × Order)
  | [] => [(k, v)]
  | (k1, v1) :: rest => if k1 = k then (k, v) :: rest else (k1, v1) :: insertA k v rest

/-- Python dict deletion `m.pop(k, None)`: drop the binding of `k`. -/
def eraseA (k : Nat) : List (Nat × Order) → List (Nat × Order)
  | [] => []
  | (k1, v1) :: rest => if k1 = k then rest else (k1, v1) :: eraseA k rest

/-- The `Engine` state: both heaps, both counters, trade log, both registry
dicts, and the abstract wall clock. -/
structure Engine where
  bids : List Entry
  asks : List Entry
  seqCounter : Nat
  nextOrderId : Nat
  trades : List Trade
  bySeq : List (Nat × Order)
  byId : List (Nat × Order)
  clock : Nat
deriving DecidableEq, Repr

/-- `Engine.__init__`: empty book, `count()` from 0, `count(1)` from 1. -/
def Engine.empty : Engine :=
  { bids := [], asks := [], seqCounter := 0, nextOrderId := 1,
    trades := [], bySeq := [], byId := [], clock := 0 }

/-- `Engine._push`: bids keyed by `-price`, asks by `price`, tie-broken by
the order's (original) sequence number. -/
def Engine.push (eng : Engine) (o : Order) : Engine :=
  if o.side = "buy" then { eng with bids := heapPush (-o.price, o.sequence) eng.bids }
  else { eng with asks := heapPush (o.price, o.sequence) eng.asks }

/-- The loop of `Engine._peek_top`: drop tombstoned entries from the top of the
heap until a live one is found; return the shrunk heap and the live order. -/
def peekLoop (m : List (Nat × Order)) : List Entry → List Entry × Option Order
  | [] => ([], none)
  | (k, s) :: rest =>
    match lookupA m s with
    | none => peekLoop m rest
    | some o => if o.quantity ≤ 0 then peekLoop m rest else ((k, s) :: rest, some o)

/-- The loop of `Engine._pop_top`: pop until a live entry is found, consuming
it; return the shrunk heap and the live order. -/
def popLoop (m : List (Nat × Order)) : List Entry → List Entry × Option Order
  | [] => ([], none)
  | (_, s) :: rest =>
    match lookupA m s with
    | none => popLoop m rest
    | some o => if 0 < o.quantity then (rest, some o) else popLoop m rest

/-- `Engine._peek_top`. -/
def Engine.peek_top (eng : Engine) (side : String) : Engine × Option Order :=
  if side = "buy" then
    let r := peekLoop eng.bySeq eng.bids
    ({ eng with bids := r.1 }, r.2)
  else
    let r := peekLoop eng.bySeq eng.asks
    ({ eng with asks := r.1 }, r.2)

/-- `Engine._pop_top`. -/
def Engine.pop_top (eng : Engine) (side : String) : Engine × Option Order :=
  if side = "buy" then
    let r := popLoop eng.bySeq eng.bids
    ({ eng with bids := r.1 }, r.2)
  else
    let r := popLoop eng.bySeq eng.asks
    ({ eng with asks := r.1 }, r.2)

/-- `Engine.best_bid`. -/
def Engine.best_bid (eng : Engine) : Engine × Option (Int × Int) :=
  let r := eng.peek_top "buy"
  (r.1, r.2.map fun o => (o.price, o.quantity))

/-- `Engine.best_ask`. -/
def Engine.best_ask (eng : Engine) : Engine × Option (Int × Int) :=
  let r := eng.peek_top "sell"
  (r.1, r.2.map fun o => (o.price, o.quantity))

/-- `Engine._record_trade`: append the trade dict (timestamped by the abstract
clock) to the trade log. -/
def Engine.record_trade (eng : Engine) (price quantity : Int) (taker_side : String)
    (maker_id taker_id : Nat) : Engine :=
  { eng with
    trades := eng.trades ++
      [{ time := eng.clock, price := price, quantity := quantity,
         taker_side := taker_side, maker_order_id := maker_id,
         taker_order_id := taker_id }],
    clock := eng.clock + 1 }

/-- `Engine._cleanup`: decrement both quantities by the fill; a maker with
remaining quantity is re-pushed (with its original sequence number) and its
registry record updated through the alias, a fully filled maker is popped from
both registry dicts.  Returns the updated taker and engine. -/
def Engine.cleanup (eng : Engine) (taker maker : Order) (quantity : Int) :
    Order × Engine :=
  let taker1 := { taker with quantity := taker.quantity - quantity }
  let maker1 := { maker with quantity := maker.quantity - quantity }
  if 0 < maker1.quantity then
    let eng1 := { eng with bySeq := insertA maker.sequence maker1 eng.bySeq,
                           byId := insertA maker.id maker1 eng.byId }
    (taker1, eng1.push maker1)
  else
    (taker1, { eng with bySeq := eraseA maker.sequence eng.bySeq,
                        byId := eraseA maker.id eng.byId })

/-- `Engine._match_buy`, with explicit fuel for the `while` loop. -/
def matchBuyF (eng : Engine) (taker : Order) : Nat → Order × Engine
  | 0 => (taker, eng)
  | fuel + 1 =>
    if 0 < taker.quantity ∧ eng.asks ≠ [] then
      match eng.peek_top "sell" with
      | (eng1, none) => (taker, eng1)
      | (eng1, some best) =>
        if taker.price < best.price then (taker, eng1)
        else
          match eng1.pop_top "sell" with
          | (eng2, none) => (taker, eng2)
          | (eng2, some maker) =>
            let quantity := min taker.quantity maker.quantity
            let eng3 := eng2.record_trade maker.price quantity "buy" maker.id taker.id
            let tc := eng3.cleanup taker maker quantity
            matchBuyF tc.2 tc.1 fuel
    else (taker, eng)

/-- `Engine._match_sell`, with explicit fuel for the `while` loop. -/
def matchSellF (eng : Engine) (taker : Order) : Nat → Order × Engine
  | 0 => (taker, eng)
  | fuel + 1 =>
    if 0 < taker.quantity ∧ eng.bids ≠ [] then
      match eng.peek_top "buy" with
      | (eng1, none) => (taker, eng1)
      | (eng1, some best) =>
        if best.price < taker.price then (taker, eng1)
        else
          match eng1.pop_top "buy" with
          | (eng2, none) => (taker, eng2)
          | (eng2, some maker) =>
            let quantity := min taker.quantity maker.quantity
            let eng3 := eng2.record_trade maker.price quantity "sell" maker.id taker.id
            let tc := eng3.cleanup taker maker quantity
            matchSellF tc.2 tc.1 fuel
    else (taker, eng)

/-- `Engine.add_order`: reject non-positive quantity, allocate sequence and id,
construct the taker record, match against the opposite book, and register and
push any remainder (returning its id) or return 0. -/
def Engine.add_order (eng : Engine) (side : String) (price quantity : Int) :
    Engine × Nat :=
  if quantity ≤ 0 then (eng, 0)
  else
    let taker : Order :=
      { id := eng.nextOrderId, side := side, price := price, quantity := quantity,
        time := eng.clock, sequence := eng.seqCounter }
    let eng0 := { eng with seqCounter := eng.seqCounter + 1,
                           nextOrderId := eng.nextOrderId + 1,
                           clock := eng.clock + 1 }
    let res := if side = "buy" then matchBuyF eng0 taker quantity.toNat
               else matchSellF eng0 taker quantity.toNat
    if 0 < res.1.quantity then
      let eng2 := { res.2 with bySeq := insertA taker.sequence res.1 (res.2).bySeq,
                               byId := insertA taker.id res.1 (res.2).byId }
      (eng2.push res.1, taker.id)
    else (res.2, 0)

/-- One external call on the engine: `add_order`, `best_bid` or `best_ask`. -/
inductive Call where
  | add (side : String) (price quantity : Int)
  | bid
  | ask
deriving DecidableEq, Repr

/-- Apply one external call, keeping the resulting engine state. -/
def applyCall (eng : Engine) : Call → Engine
  | .add side price quantity => (eng.add_order side price quantity).1
  | .bid => eng.best_bid.1
  | .ask => eng.best_ask.1

/-- Run a sequence of external calls from the freshly constructed engine. -/
def runCalls (cs : List Call) : Engine :=
  cs.foldl applyCall Engine.empty

/-- Engine states reachable through the public interface. -/
def Reach (eng : Engine) : Prop := ∃ cs, runCalls cs = eng

/-- Run a sequence of external calls, also collecting the value returned by
each `add_order` call (reads contribute nothing). -/
def runReturns (cs : List Call) : Engine × List Nat :=
  cs.foldl
    (fun p c =>
      match c with
      | .add side price quantity =>
        let r := p.1.add_order side price quantity
        (r.1, p.2 ++ [r.2])
      | .bid => (p.1.best_bid.1, p.2)
      | .ask => (p.1.best_ask.1, p.2))
    (Engine.empty, [])

/-! ## Derived definitions used only to state and prove properties -/

/-- A tombstoned heap entry: its sequence does not resolve to a live,
positive-quantity order in the registry. -/
def staleE (m : List (Nat × Order)) (en : Entry) : Prop :=
  ∀ o, lookupA m en.2 = some o → o.quantity ≤ 0

/-- Total quantity of a list of trades. -/
def sumQ (tl : List Trade) : Int := (tl.map Trade.quantity).sum

/-- The taker record constructed by `add_order` (for a positive quantity). -/
def addTaker (eng : Engine) (side : String) (price q : Int) : Order :=
  { id := eng.nextOrderId, side := side, price := price, quantity := q,
    time := eng.clock, sequence := eng.seqCounter }

/-- The engine right after `add_order` allocates the sequence, the id and reads
the clock. -/
def addAlloc (eng : Engine) : Engine :=
  { eng with seqCounter := eng.seqCounter + 1,
             nextOrderId := eng.nextOrderId + 1,
             clock := eng.clock + 1 }

/-- The (taker, engine) pair produced by the matching phase of `add_order`. -/
def addRes (eng : Engine) (side : String) (price q : Int) : Order × Engine :=
  if side = "buy" then matchBuyF (addAlloc eng) (addTaker eng side price q) q.toNat
  else matchSellF (addAlloc eng) (addTaker eng side price q) q.toNat

/-- Total quantity of the trades in which order id `i` participates, as maker
or as taker. -/
def fillsOf (tl : List Trade) (i : Nat) : Int :=
  sumQ (tl.filter fun t => t.maker_order_id = i ∨ t.taker_order_id = i)

/-- Remaining quantity of order id `i`: its registered quantity if it is
resting, 0 if it is absent from the registry. -/
def restingQty (eng : Engine) (i : Nat) : Int :=
  match lookupA eng.byId i with
  | some o => o.quantity
  | none => 0

/-- The submitted quantities of the accepted `add_order` calls (those with
positive quantity), in call order; the engine hands out order id `i` to the
`i`-th such call (ids start at 1). -/
def createdList (cs : List Call) : List Int :=
  cs.filterMap fun c =>
    match c with
    | .add _ _ q => if 0 < q then some q else none
    | _ => none

/-- The quantity submitted by the `add_order` call that created order id `i`,
if any call in `cs` did. -/
def createdQty (cs : List Call) (i : Nat) : Option Int :=
  if i = 0 then none else (createdList cs)[i - 1]?

/-- Normalize an order's side to the two values the engine distinguishes:
`"buy"` and everything else (treated as `"sell"`). -/
def sideNormOrder (o : Order) : Order :=
  if o.side = "buy" then o else { o with side := "sell" }

/-- Normalize every registered order's side field. -/
def normReg (m : List (Nat × Order)) : List (Nat × Order) :=
  m.map fun pr => (pr.1, sideNormOrder pr.2)

/-- State invariant of the engine, preserved by every public call (proved
below) and holding in every reachable state:
registry coherence (both dicts key each record by its own sequence/id, hold
the same live records, with positive quantity and allocator-issued keys),
sortedness of both heaps, key/side correctness and sequence bounds for heap
entries that resolve to a live order, presence of a heap entry for every
registered order, and allocator bounds for the ids in the trade log. -/
def Inv (e : Engine) : Prop :=
  (∀ pr ∈ e.bySeq, pr.2.sequence = pr.1 ∧ 0 < pr.2.quantity ∧
    pr.1 < e.seqCounter ∧ pr.2.id < e.nextOrderId ∧
    lookupA e.byId pr.2.id = some pr.2) ∧
  (∀ pr ∈ e.byId, pr.2.id = pr.1 ∧ lookupA e.bySeq pr.2.sequence = some pr.2) ∧
  (e.bySeq.map Prod.fst).Nodup ∧ (e.byId.map Prod.fst).Nodup ∧
  e.asks.Pairwise eLe ∧ e.bids.Pairwise eLe ∧
  (∀ en ∈ e.asks, en.2 < e.seqCounter ∧
    ∀ o, lookupA e.bySeq en.2 = some o → en.1 = o.price ∧ ¬ o.side = "buy") ∧
  (∀ en ∈ e.bids, en.2 < e.seqCounter ∧
    ∀ o, lookupA e.bySeq en.2 = some o → en.1 = -o.price ∧ o.side = "buy") ∧
  (∀ pr ∈ e.bySeq,
    (¬ pr.2.side = "buy" → (pr.2.price, pr.1) ∈ e.asks) ∧
    (pr.2.side = "buy" → (-pr.2.price, pr.1) ∈ e.bids)) ∧
  (∀ t ∈ e.trades, t.maker_order_id < e.nextOrderId ∧
    t.taker_order_id < e.nextOrderId) ∧
  1 ≤ e.nextOrderId

/-! ## Association-list lemmas -/

theorem lookupA_mem {m : List (Nat × Order)} {k : Nat} {o : Order}
    (h : lookupA m k = some o) : (k, o) ∈ m := by
  induction m with
  | nil => simp [lookupA] at h
  | cons p rest ih =>
    obtain ⟨k1, v⟩ := p
    by_cases hk : k1 = k
    · subst hk
      simp only [lookupA, if_true, eq_self_iff_true] at h
      simp at h
      exact List.mem_cons.mpr (Or.inl (by rw [h]))
    · simp only [lookupA, if_neg hk] at h
      exact List.mem_cons_of_mem _ (ih h)

theorem mem_lookupA {m : List (Nat × Order)} {k : Nat} {o : Order}
    (hnd : (m.map Prod.fst).Nodup) (h : (k, o) ∈ m) : lookupA m k = some o := by
  induction m with
  | nil => simp at h
  | cons p rest ih =>
    obtain ⟨k1, v⟩ := p
    simp only [List.map_cons, List.nodup_cons] at hnd
    rcases List.mem_cons.mp h with h1 | h1
    · cases h1
      simp [lookupA]
    · have hk : k1 ≠ k := by
        intro he
        subst he
        exact hnd.1 (List.mem_map.mpr ⟨(k1, o), h1, rfl⟩)
      simp only [lookupA, if_neg hk]
      exact ih hnd.2 h1

theorem lookupA_insertA_self (m : List (Nat × Order)) (k : Nat) (v : Order) :
    lookupA (insertA k v m) k = some v := by
  induction m with
  | nil => simp [insertA, lookupA]
  | cons p rest ih =>
    obtain ⟨k1, v1⟩ := p
    by_cases hk : k1 = k
    · simp [insertA, hk, lookupA]
    · simp [insertA, hk, lookupA, ih]

theorem lookupA_insertA_ne {j k : Nat} (m : List (Nat × Order)) (v : Order)
    (h : j ≠ k) : lookupA (insertA k v m) j = lookupA m j := by
  induction m with
  | nil => simp [insertA, lookupA, Ne.symm h]
  | cons p rest ih =>
    obtain ⟨k1, v1⟩ := p
    by_cases hk : k1 = k
    · subst hk
      simp [insertA, lookupA, Ne.symm h]
    · simp [insertA, hk, lookupA, ih]

theorem mem_insertA {m : List (Nat × Order)} {k : Nat} {v : Order} {p : Nat × Order}
    (h : p ∈ insertA k v m) : p = (k, v) ∨ p ∈ m := by
  induction m with
  | nil => simpa [insertA] using h
  | cons q rest ih =>
    obtain ⟨k1, v1⟩ := q
    by_cases hk : k1 = k
    · simp only [insertA, if_pos hk] at h
      rcases List.mem_cons.mp h with h1 | h1
      · exact Or.inl h1
      · exact Or.inr (List.mem_cons_of_mem _ h1)
    · simp only [insertA, if_neg hk] at h
      rcases List.mem_cons.mp h with h1 | h1
      · exact Or.inr (by simp [h1])
      · rcases ih h1 with h2 | h2
        · exact Or.inl h2
        · exact Or.inr (List.mem_cons_of_mem _ h2)

theorem keys_insertA_nodup {m : List (Nat × Order)} (k : Nat) (v : Order)
    (hnd : (m.map Prod.fst).Nodup) : ((insertA k v m).map Prod.fst).Nodup := by
  induction m with
  | nil => simp [insertA]
  | cons p rest ih =>
    obtain ⟨k1, v1⟩ := p
    simp only [List.map_cons, List.nodup_cons] at hnd
    by_cases hk : k1 = k
    · subst hk
      rw [show insertA k1 v ((k1, v1) :: rest) = (k1, v) :: rest by simp [insertA],
        List.map_cons, List.nodup_cons]
      exact hnd
    · rw [show insertA k v ((k1, v1) :: rest) = (k1, v1) :: insertA k v rest by
          simp [insertA, hk],
        List.map_cons, List.nodup_cons]
      refine ⟨fun hmem => ?_, ih hnd.2⟩
      rcases List.mem_map.mp hmem with ⟨q, hq, hq1⟩
      rcases mem_insertA hq with h1 | h1
      · subst h1
        exact hk hq1.symm
      · exact hnd.1 (List.mem_map.mpr ⟨q, h1, hq1⟩)

theorem eraseA_sublist (k : Nat) (m : List (Nat × Order)) :
    (eraseA k m).Sublist m := by
  induction m with
  | nil => simp [eraseA]
  | cons p rest ih =>
    obtain ⟨k1, v1⟩ := p
    by_cases hk : k1 = k
    · rw [show eraseA k ((k1, v1) :: rest) = rest by simp [eraseA, hk]]
      exact List.Sublist.cons _ (List.Sublist.refl rest)
    · rw [show eraseA k ((k1, v1) :: rest) = (k1, v1) :: eraseA k rest by
          simp [eraseA, hk]]
      exact List.Sublist.cons₂ _ ih

theorem keys_eraseA_nodup {m : List (Nat × Order)} (k : Nat)
    (hnd : (m.map Prod.fst).Nodup) : ((eraseA k m).map Prod.fst).Nodup :=
  hnd.sublist (List.Sublist.map Prod.fst (eraseA_sublist k m))

theorem lookupA_eraseA_self {m : List (Nat × Order)} (k : Nat)
    (hnd : (m.map Prod.fst).Nodup) : lookupA (eraseA k m) k = none := by
  induction m with
  | nil => simp [eraseA, lookupA]
  | cons p rest ih =>
    obtain ⟨k1, v1⟩ := p
    simp only [List.map_cons, List.nodup_cons] at hnd
    by_cases hk : k1 = k
    · subst hk
      simp only [eraseA, if_pos rfl]
      cases hr : lookupA rest k1 with
      | none => exact hr
      | some o => exact absurd (List.mem_map.mpr ⟨(k1, o), lookupA_mem hr, rfl⟩) hnd.1
    · simp only [eraseA, if_neg hk, lookupA, if_neg hk]
      exact ih hnd.2

theorem lookupA_eraseA_ne {j k : Nat} (m : List (Nat × Order))
    (h : j ≠ k) : lookupA (eraseA k m) j = lookupA m j := by
  induction m with
  | nil => simp [eraseA]
  | cons p rest ih =>
    obtain ⟨k1, v1⟩ := p
    by_cases hk : k1 = k
    · subst hk
      simp [eraseA, lookupA, Ne.symm h]
    · simp [eraseA, hk, lookupA, ih]

theorem mem_eraseA_ne {m : List (Nat × Order)} {k : Nat} {p : Nat × Order}
    (hnd : (m.map Prod.fst).Nodup) (h : p ∈ eraseA k m) : p.1 ≠ k ∧ p ∈ m := by
  refine ⟨fun he => ?_, (eraseA_sublist k m).mem h⟩
  subst he
  have := mem_lookupA (keys_eraseA_nodup p.1 hnd) (by simpa using h)
  rw [lookupA_eraseA_self p.1 hnd] at this
  exact Option.noConfusion this

theorem mem_insertA_nodup {m : List (Nat × Order)} {k : Nat} {v : Order}
    {p : Nat × Order} (hnd : (m.map Prod.fst).Nodup) (h : p ∈ insertA k v m) :
    p = (k, v) ∨ (p ∈ m ∧ p.1 ≠ k) := by
  induction m with
  | nil =>
    simp only [insertA, List.mem_singleton] at h
    exact Or.inl h
  | cons q rest ih =>
    obtain ⟨k1, v1⟩ := q
    simp only [List.map_cons, List.nodup_cons] at hnd
    by_cases hk : k1 = k
    · subst hk
      rw [show insertA k1 v ((k1, v1) :: rest) = (k1, v) :: rest by
        simp [insertA]] at h
      rcases List.mem_cons.mp h with h1 | h1
      · exact Or.inl h1
      · refine Or.inr ⟨List.mem_cons_of_mem _ h1, fun he => ?_⟩
        exact hnd.1 (List.mem_map.mpr ⟨p, h1, he⟩)
    · rw [show insertA k v ((k1, v1) :: rest) = (k1, v1) :: insertA k v rest by
        simp [insertA, hk]] at h
      rcases List.mem_cons.mp h with h1 | h1
      · refine Or.inr ⟨by simp [h1], ?_⟩
        rw [h1]
        exact hk
      · rcases ih hnd.2 h1 with h2 | h2
        · exact Or.inl h2
        · exact Or.inr ⟨List.mem_cons_of_mem _ h2.1, h2.2⟩

/-! ## Heap (sorted-list) lemmas -/

theorem eLe_total (a b : Entry) : eLe a b ∨ eLe b a := by
  unfold eLe
  omega

theorem mem_heapPush {e a : Entry} {l : List Entry} :
    a ∈ heapPush e l ↔ a = e ∨ a ∈ l := by
  induction l with
  | nil => simp [heapPush]
  | cons x xs ih =>
    by_cases h : eLe e x
    · simp [heapPush, h]
    · simp only [heapPush, if_neg h, List.mem_cons, ih]
      tauto

theorem heapPush_sorted {e : Entry} {l : List Entry}
    (hs : l.Pairwise eLe) : (heapPush e l).Pairwise eLe := by
  induction l with
  | nil => simp [heapPush]
  | cons x xs ih =>
    rcases List.pairwise_cons.mp hs with ⟨hx, hxs⟩
    by_cases h : eLe e x
    · rw [show heapPush e (x :: xs) = e :: x :: xs by simp [heapPush, h]]
      refine List.pairwise_cons.mpr ⟨?_, hs⟩
      intro a ha
      rcases List.mem_cons.mp ha with h1 | h1
      · subst h1; exact h
      · have h3 := hx a h1
        unfold eLe at *
        omega
    · rw [show heapPush e (x :: xs) = x :: heapPush e xs by simp [heapPush, h]]
      refine List.pairwise_cons.mpr ⟨?_, ih hxs⟩
      intro a ha
      rcases mem_heapPush.mp ha with h1 | h1
      · rw [h1]
        rcases eLe_total e x with h2 | h2
        · exact absurd h2 h
        · exact h2
      · exact hx a h1

/-! ## Peek / pop loop characterization -/

theorem peekLoop_drop (m : List (Nat × Order)) (h : List Entry) :
    ∃ dropped, h = dropped ++ (peekLoop m h).1 ∧ ∀ en ∈ dropped, staleE m en := by
  induction h with
  | nil => exact ⟨[], by simp [peekLoop]⟩
  | cons e rest ih =>
    obtain ⟨k, s⟩ := e
    cases hl : lookupA m s with
    | none =>
      obtain ⟨dr, hdr, hst⟩ := ih
      refine ⟨(k, s) :: dr, ?_, ?_⟩
      · simp only [peekLoop, hl]
        simpa using hdr
      · intro en hen
        rcases List.mem_cons.mp hen with h1 | h1
        · subst h1
          intro o ho
          rw [show ((k, s) : Entry).2 = s from rfl, hl] at ho
          exact Option.noConfusion ho
        · exact hst en h1
    | some o =>
      by_cases hq : o.quantity ≤ 0
      · obtain ⟨dr, hdr, hst⟩ := ih
        refine ⟨(k, s) :: dr, ?_, ?_⟩
        · simp only [peekLoop, hl, if_pos hq]
          simpa using hdr
        · intro en hen
          rcases List.mem_cons.mp hen with h1 | h1
          · subst h1
            intro o1 ho1
            rw [show ((k, s) : Entry).2 = s from rfl, hl] at ho1
            cases ho1
            exact hq
          · exact hst en h1
      · refine ⟨[], ?_, by simp⟩
        simp [peekLoop, hl, if_neg hq]

theorem peekLoop_some {m : List (Nat × Order)} {h h2 : List Entry} {o : Order}
    (he : peekLoop m h = (h2, some o)) :
    ∃ k s rest, h2 = (k, s) :: rest ∧ lookupA m s = some o ∧ 0 < o.quantity := by
  induction h with
  | nil => simp [peekLoop] at he
  | cons e rest ih =>
    obtain ⟨k, s⟩ := e
    cases hl : lookupA m s with
    | none =>
      simp only [peekLoop, hl] at he
      exact ih he
    | some o1 =>
      by_cases hq : o1.quantity ≤ 0
      · simp only [peekLoop, hl, if_pos hq] at he
        exact ih he
      · simp only [peekLoop, hl, if_neg hq, Prod.mk.injEq, Option.some.injEq] at he
        exact ⟨k, s, rest, he.1.symm, by rw [hl, he.2], by cases he.2; omega⟩

theorem peekLoop_none {m : List (Nat × Order)} {h h2 : List Entry}
    (he : peekLoop m h = (h2, none)) : h2 = [] := by
  induction h with
  | nil =>
    simp only [peekLoop, Prod.mk.injEq] at he
    exact he.1.symm
  | cons e rest ih =>
    obtain ⟨k, s⟩ := e
    cases hl : lookupA m s with
    | none =>
      simp only [peekLoop, hl] at he
      exact ih he
    | some o1 =>
      by_cases hq : o1.quantity ≤ 0
      · simp only [peekLoop, hl, if_pos hq] at he
        exact ih he
      · simp [peekLoop, hl, if_neg hq] at he

theorem peekLoop_idem (m : List (Nat × Order)) (h : List Entry) :
    peekLoop m (peekLoop m h).1 = peekLoop m h := by
  cases he : peekLoop m h with
  | mk h2 r =>
    cases r with
    | none =>
      have := peekLoop_none he
      subst this
      simp [peekLoop]
    | some o =>
      obtain ⟨k, s, rest, hh2, hl, hq⟩ := peekLoop_some he
      subst hh2
      simp [peekLoop, hl, if_neg (by omega : ¬ o.quantity ≤ 0)]

theorem popLoop_after_peek {m : List (Nat × Order)} {h h2 : List Entry} {o : Order}
    (he : peekLoop m h = (h2, some o)) :
    popLoop m h2 = (h2.tail, some o) := by
  obtain ⟨k, s, rest, hh2, hl, hq⟩ := peekLoop_some he
  subst hh2
  simp [popLoop, hl, if_pos hq]

/-! ## Engine-level read lemmas -/

theorem peek_top_buy (eng : Engine) :
    eng.peek_top "buy" =
      ({ eng with bids := (peekLoop eng.bySeq eng.bids).1 },
        (peekLoop eng.bySeq eng.bids).2) := by
  simp [Engine.peek_top]

theorem peek_top_sell (eng : Engine) :
    eng.peek_top "sell" =
      ({ eng with asks := (peekLoop eng.bySeq eng.asks).1 },
        (peekLoop eng.bySeq eng.asks).2) := by
  simp [Engine.peek_top]

theorem peek_top_idem (eng : Engine) (side : String) :
    ((eng.peek_top side).1).peek_top side = eng.peek_top side := by
  unfold Engine.peek_top
  by_cases hs : side = "buy"
  · simp [hs, peekLoop_idem]
  · simp [hs, peekLoop_idem]

theorem pop_top_buy (eng : Engine) :
    eng.pop_top "buy" =
      ({ eng with bids := (popLoop eng.bySeq eng.bids).1 },
        (popLoop eng.bySeq eng.bids).2) := by
  simp [Engine.pop_top]

theorem pop_top_sell (eng : Engine) :
    eng.pop_top "sell" =
      ({ eng with asks := (popLoop eng.bySeq eng.asks).1 },
        (popLoop eng.bySeq eng.asks).2) := by
  simp [Engine.pop_top]

/-! ## Frame lemmas for the primitive mutators -/

theorem push_bySeq (eng : Engine) (o : Order) : (eng.push o).bySeq = eng.bySeq := by
  unfold Engine.push; by_cases h : o.side = "buy" <;> simp [h]

theorem push_byId (eng : Engine) (o : Order) : (eng.push o).byId = eng.byId := by
  unfold Engine.push; by_cases h : o.side = "buy" <;> simp [h]

theorem push_trades (eng : Engine) (o : Order) : (eng.push o).trades = eng.trades := by
  unfold Engine.push; by_cases h : o.side = "buy" <;> simp [h]

theorem push_seqCounter (eng : Engine) (o : Order) :
    (eng.push o).seqCounter = eng.seqCounter := by
  unfold Engine.push; by_cases h : o.side = "buy" <;> simp [h]

theorem push_nextOrderId (eng : Engine) (o : Order) :
    (eng.push o).nextOrderId = eng.nextOrderId := by
  unfold Engine.push; by_cases h : o.side = "buy" <;> simp [h]

theorem push_clock (eng : Engine) (o : Order) : (eng.push o).clock = eng.clock := by
  unfold Engine.push; by_cases h : o.side = "buy" <;> simp [h]

theorem push_buy (eng : Engine) {o : Order} (h : o.side = "buy") :
    eng.push o = { eng with bids := heapPush (-o.price, o.sequence) eng.bids } := by
  simp [Engine.push, h]

theorem push_nonbuy (eng : Engine) {o : Order} (h : ¬ o.side = "buy") :
    eng.push o = { eng with asks := heapPush (o.price, o.sequence) eng.asks } := by
  simp [Engine.push, h]

theorem push_asks_of_buy (eng : Engine) {o : Order} (h : o.side = "buy") :
    (eng.push o).asks = eng.asks := by
  simp [Engine.push, h]

theorem push_bids_of_nonbuy (eng : Engine) {o : Order} (h : ¬ o.side = "buy") :
    (eng.push o).bids = eng.bids := by
  simp [Engine.push, h]

theorem cleanup_fst (eng : Engine) (taker maker : Order) (q : Int) :
    (eng.cleanup taker maker q).1 = { taker with quantity := taker.quantity - q } := by
  unfold Engine.cleanup
  by_cases h : 0 < maker.quantity - q <;> simp [h]

theorem cleanup_trades (eng : Engine) (taker maker : Order) (q : Int) :
    ((eng.cleanup taker maker q).2).trades = eng.trades := by
  unfold Engine.cleanup
  by_cases h : 0 < maker.quantity - q <;> simp [h, push_trades]

theorem cleanup_seqCounter (eng : Engine) (taker maker : Order) (q : Int) :
    ((eng.cleanup taker maker q).2).seqCounter = eng.seqCounter := by
  unfold Engine.cleanup
  by_cases h : 0 < maker.quantity - q <;> simp [h, push_seqCounter]

theorem cleanup_nextOrderId (eng : Engine) (taker maker : Order) (q : Int) :
    ((eng.cleanup taker maker q).2).nextOrderId = eng.nextOrderId := by
  unfold Engine.cleanup
  by_cases h : 0 < maker.quantity - q <;> simp [h, push_nextOrderId]

theorem cleanup_bySeq (eng : Engine) (taker maker : Order) (q : Int) :
    ((eng.cleanup taker maker q).2).bySeq =
      if 0 < maker.quantity - q then
        insertA maker.sequence { maker with quantity := maker.quantity - q } eng.bySeq
      else eraseA maker.sequence eng.bySeq := by
  unfold Engine.cleanup
  by_cases h : 0 < maker.quantity - q <;> simp [h, push_bySeq]

theorem cleanup_byId (eng : Engine) (taker maker : Order) (q : Int) :
    ((eng.cleanup taker maker q).2).byId =
      if 0 < maker.quantity - q then
        insertA maker.id { maker with quantity := maker.quantity - q } eng.byId
      else eraseA maker.id eng.byId := by
  unfold Engine.cleanup
  by_cases h : 0 < maker.quantity - q <;> simp [h, push_byId]

theorem cleanup_asks_of_nonbuy (eng : Engine) (taker : Order) {maker : Order}
    (hm : ¬ maker.side = "buy") (q : Int) :
    ((eng.cleanup taker maker q).2).asks =
      if 0 < maker.quantity - q then
        heapPush (maker.price, maker.sequence) eng.asks
      else eng.asks := by
  unfold Engine.cleanup
  by_cases h : 0 < maker.quantity - q <;> simp [h, Engine.push, hm]

theorem cleanup_bids_of_nonbuy (eng : Engine) (taker : Order) {maker : Order}
    (hm : ¬ maker.side = "buy") (q : Int) :
    ((eng.cleanup taker maker q).2).bids = eng.bids := by
  unfold Engine.cleanup
  by_cases h : 0 < maker.quantity - q <;> simp [h, Engine.push, hm]

theorem cleanup_bids_of_buy (eng : Engine) (taker : Order) {maker : Order}
    (hm : maker.side = "buy") (q : Int) :
    ((eng.cleanup taker maker q).2).bids =
      if 0 < maker.quantity - q then
        heapPush (-maker.price, maker.sequence) eng.bids
      else eng.bids := by
  unfold Engine.cleanup
  by_cases h : 0 < maker.quantity - q <;> simp [h, Engine.push, hm]

theorem cleanup_asks_of_buy (eng : Engine) (taker : Order) {maker : Order}
    (hm : maker.side = "buy") (q : Int) :
    ((eng.cleanup taker maker q).2).asks = eng.asks := by
  unfold Engine.cleanup
  by_cases h : 0 < maker.quantity - q <;> simp [h, Engine.push, hm]

theorem cleanup_clock (eng : Engine) (taker maker : Order) (q : Int) :
    ((eng.cleanup taker maker q).2).clock = eng.clock := by
  unfold Engine.cleanup
  by_cases h : 0 < maker.quantity - q <;> simp [h, push_clock]

/-! ## Rewriting lemmas for one iteration of the matching loops -/

theorem matchBuyF_stop {eng : Engine} {taker : Order} (fuel : Nat)
    (hc : ¬ (0 < taker.quantity ∧ eng.asks ≠ [])) :
    matchBuyF eng taker (fuel + 1) = (taker, eng) := by
  simp [matchBuyF, hc]

theorem matchBuyF_break_none {eng : Engine} {taker : Order} {L : List Entry} (fuel : Nat)
    (hc : 0 < taker.quantity ∧ eng.asks ≠ [])
    (hpk : peekLoop eng.bySeq eng.asks = (L, none)) :
    matchBuyF eng taker (fuel + 1) = (taker, { eng with asks := L }) := by
  rw [matchBuyF, if_pos hc, peek_top_sell, hpk]

theorem matchBuyF_break_price {eng : Engine} {taker : Order} {L : List Entry}
    {best : Order} (fuel : Nat)
    (hc : 0 < taker.quantity ∧ eng.asks ≠ [])
    (hpk : peekLoop eng.bySeq eng.asks = (L, some best))
    (hbp : taker.price < best.price) :
    matchBuyF eng taker (fuel + 1) = (taker, { eng with asks := L }) := by
  rw [matchBuyF, if_pos hc, peek_top_sell, hpk]
  simp [hbp]

theorem matchBuyF_step {eng : Engine} {taker : Order} {L : List Entry}
    {best : Order} (fuel : Nat)
    (hc : 0 < taker.quantity ∧ eng.asks ≠ [])
    (hpk : peekLoop eng.bySeq eng.asks = (L, some best))
    (hbp : ¬ taker.price < best.price) :
    matchBuyF eng taker (fuel + 1) =
      matchBuyF
        ((({ eng with asks := L.tail }).record_trade best.price
            (min taker.quantity best.quantity) "buy" best.id taker.id).cleanup
            taker best (min taker.quantity best.quantity)).2
        ((({ eng with asks := L.tail }).record_trade best.price
            (min taker.quantity best.quantity) "buy" best.id taker.id).cleanup
            taker best (min taker.quantity best.quantity)).1
        fuel := by
  rw [matchBuyF, if_pos hc, peek_top_sell, hpk]
  have hpop : popLoop eng.bySeq L = (L.tail, some best) := popLoop_after_peek hpk
  simp only [if_neg hbp, pop_top_sell]
  rw [show ({ eng with asks := L } : Engine).bySeq = eng.bySeq from rfl, hpop]

theorem matchSellF_stop {eng : Engine} {taker : Order} (fuel : Nat)
    (hc : ¬ (0 < taker.quantity ∧ eng.bids ≠ [])) :
    matchSellF eng taker (fuel + 1) = (taker, eng) := by
  simp [matchSellF, hc]

theorem matchSellF_break_none {eng : Engine} {taker : Order} {L : List Entry} (fuel : Nat)
    (hc : 0 < taker.quantity ∧ eng.bids ≠ [])
    (hpk : peekLoop eng.bySeq eng.bids = (L, none)) :
    matchSellF eng taker (fuel + 1) = (taker, { eng with bids := L }) := by
  rw [matchSellF, if_pos hc, peek_top_buy, hpk]

theorem matchSellF_break_price {eng : Engine} {taker : Order} {L : List Entry}
    {best : Order} (fuel : Nat)
    (hc : 0 < taker.quantity ∧ eng.bids ≠ [])
    (hpk : peekLoop eng.bySeq eng.bids = (L, some best))
    (hbp : best.price < taker.price) :
    matchSellF eng taker (fuel + 1) = (taker, { eng with bids := L }) := by
  rw [matchSellF, if_pos hc, peek_top_buy, hpk]
  simp [hbp]

theorem matchSellF_step {eng : Engine} {taker : Order} {L : List Entry}
    {best : Order} (fuel : Nat)
    (hc : 0 < taker.quantity ∧ eng.bids ≠ [])
    (hpk : peekLoop eng.bySeq eng.bids = (L, some best))
    (hbp : ¬ best.price < taker.price) :
    matchSellF eng taker (fuel + 1) =
      matchSellF
        ((({ eng with bids := L.tail }).record_trade best.price
            (min taker.quantity best.quantity) "sell" best.id taker.id).cleanup
            taker best (min taker.quantity best.quantity)).2
        ((({ eng with bids := L.tail }).record_trade best.price
            (min taker.quantity best.quantity) "sell" best.id taker.id).cleanup
            taker best (min taker.quantity best.quantity)).1
        fuel := by
  rw [matchSellF, if_pos hc, peek_top_buy, hpk]
  have hpop : popLoop eng.bySeq L = (L.tail, some best) := popLoop_after_peek hpk
  simp only [if_neg hbp, pop_top_buy]
  rw [show ({ eng with bids := L } : Engine).bySeq = eng.bySeq from rfl, hpop]

/-! ## General properties of the matching loops (no reachability needed) -/

theorem sumQ_nil : sumQ [] = 0 := rfl

theorem sumQ_cons (t : Trade) (tl : List Trade) :
    sumQ (t :: tl) = t.quantity + sumQ tl := by simp [sumQ]

theorem sumQ_append (a b : List Trade) : sumQ (a ++ b) = sumQ a + sumQ b := by
  simp [sumQ]

/-- Orders registered after a cleanup step trace back to an order registered
before it, with the same identity fields and no larger quantity. -/
theorem trace_step {m : List (Nat × Order)} {s : Nat} {best : Order} {q : Int}
    (hl : lookupA m s = some best) (hq : 0 ≤ q) {pr : Nat × Order}
    (h : pr ∈ (if 0 < best.quantity - q then
        insertA best.sequence { best with quantity := best.quantity - q } m
      else eraseA best.sequence m)) :
    ∃ pr0 ∈ m, pr0.2.id = pr.2.id ∧ pr0.2.price = pr.2.price ∧
      pr0.2.side = pr.2.side ∧ pr0.2.sequence = pr.2.sequence ∧
      pr.2.quantity ≤ pr0.2.quantity := by
  by_cases hb : 0 < best.quantity - q
  · rw [if_pos hb] at h
    rcases mem_insertA h with h1 | h1
    · refine ⟨(s, best), lookupA_mem hl, ?_⟩
      rw [h1]
      refine ⟨rfl, rfl, rfl, rfl, ?_⟩
      simp only []
      omega
    · exact ⟨pr, h1, rfl, rfl, rfl, rfl, le_refl _⟩
  · rw [if_neg hb] at h
    exact ⟨pr, (eraseA_sublist _ _).mem h, rfl, rfl, rfl, rfl, le_refl _⟩

/-- Master lemma for `_match_buy`, proved for any state: the trade log grows by
a list `new` of trades, each with the taker's id, taker side `"buy"`, a price
that is some pre-state maker's price and crosses the taker's limit, and positive
quantity; the taker's quantity decreases by exactly the total traded quantity
and its other fields are unchanged; the counters are unchanged; and every
registered order after the loop traces back to a pre-state registered order
with the same identity fields and no larger quantity. -/
theorem matchBuyF_general (fuel : Nat) : ∀ (eng : Engine) (taker : Order),
    ∃ new,
      (matchBuyF eng taker fuel).2.trades = eng.trades ++ new ∧
      taker.quantity = sumQ new + (matchBuyF eng taker fuel).1.quantity ∧
      (0 ≤ taker.quantity → 0 ≤ (matchBuyF eng taker fuel).1.quantity) ∧
      (∀ t ∈ new, t.taker_order_id = taker.id ∧ t.taker_side = "buy" ∧
        t.price ≤ taker.price ∧ 0 < t.quantity ∧
        ∃ pr ∈ eng.bySeq, pr.2.id = t.maker_order_id ∧ pr.2.price = t.price) ∧
      (matchBuyF eng taker fuel).1.id = taker.id ∧
      (matchBuyF eng taker fuel).1.side = taker.side ∧
      (matchBuyF eng taker fuel).1.price = taker.price ∧
      (matchBuyF eng taker fuel).1.sequence = taker.sequence ∧
      (matchBuyF eng taker fuel).1.time = taker.time ∧
      (matchBuyF eng taker fuel).2.seqCounter = eng.seqCounter ∧
      (matchBuyF eng taker fuel).2.nextOrderId = eng.nextOrderId ∧
      (∀ pr ∈ (matchBuyF eng taker fuel).2.bySeq, ∃ pr0 ∈ eng.bySeq,
        pr0.2.id = pr.2.id ∧ pr0.2.price = pr.2.price ∧ pr0.2.side = pr.2.side ∧
        pr0.2.sequence = pr.2.sequence ∧ pr.2.quantity ≤ pr0.2.quantity) := by
  induction fuel with
  | zero =>
    intro eng taker
    rw [show matchBuyF eng taker 0 = (taker, eng) from rfl]
    exact ⟨[], by simp, by simp [sumQ_nil], fun h => h, by simp, rfl, rfl, rfl,
      rfl, rfl, rfl, rfl, fun pr hpr => ⟨pr, hpr, rfl, rfl, rfl, rfl, le_refl _⟩⟩
  | succ fuel ih =>
    intro eng taker
    by_cases hc : 0 < taker.quantity ∧ eng.asks ≠ []
    · cases hpkp : peekLoop eng.bySeq eng.asks with
      | mk L r =>
        cases r with
        | none =>
          rw [matchBuyF_break_none fuel hc hpkp]
          exact ⟨[], by simp, by simp [sumQ_nil], fun h => h, by simp, rfl, rfl,
            rfl, rfl, rfl, rfl, rfl,
            fun pr hpr => ⟨pr, hpr, rfl, rfl, rfl, rfl, le_refl _⟩⟩
        | some best =>
          by_cases hbp : taker.price < best.price
          · rw [matchBuyF_break_price fuel hc hpkp hbp]
            exact ⟨[], by simp, by simp [sumQ_nil], fun h => h, by simp, rfl, rfl,
              rfl, rfl, rfl, rfl, rfl,
              fun pr hpr => ⟨pr, hpr, rfl, rfl, rfl, rfl, le_refl _⟩⟩
          · rw [matchBuyF_step fuel hc hpkp hbp]
            obtain ⟨k, s, rest, hL, hls, hbq⟩ := peekLoop_some hpkp
            set fill := min taker.quantity best.quantity with hfill
            set C := (({ eng with asks := L.tail }).record_trade best.price fill
              "buy" best.id taker.id) with hC
            set tc := C.cleanup taker best fill with htc
            have hfill_pos : 0 < fill := lt_min hc.1 hbq
            have htc1 : tc.1 = { taker with quantity := taker.quantity - fill } :=
              cleanup_fst C taker best fill
            have hCtr : C.trades = eng.trades ++
                [{ time := eng.clock, price := best.price, quantity := fill,
                   taker_side := "buy", maker_order_id := best.id,
                   taker_order_id := taker.id }] := by
              rw [hC]; rfl
            have htc_tr : tc.2.trades = C.trades := cleanup_trades C taker best fill
            have htc_seq : tc.2.seqCounter = eng.seqCounter := by
              rw [cleanup_seqCounter C taker best fill, hC]; rfl
            have htc_nid : tc.2.nextOrderId = eng.nextOrderId := by
              rw [cleanup_nextOrderId C taker best fill, hC]; rfl
            have hCseq : C.bySeq = eng.bySeq := by rw [hC]; rfl
            have htc_by : tc.2.bySeq =
                if 0 < best.quantity - fill then
                  insertA best.sequence { best with quantity := best.quantity - fill }
                    eng.bySeq
                else eraseA best.sequence eng.bySeq := by
              rw [htc, cleanup_bySeq, hCseq]
            obtain ⟨new1, ihtr, ihcons, ihpos, ihprops, ihid, ihside, ihprice,
              ihseq, ihtime, ihsc, ihni, ihtrace⟩ := ih tc.2 tc.1
            refine ⟨(⟨eng.clock, best.price, fill, "buy", best.id, taker.id⟩ :
                Trade) :: new1, ?_, ?_, ?_, ?_, ?_, ?_, ?_, ?_, ?_, ?_, ?_, ?_⟩
            · rw [ihtr, htc_tr, hCtr]
              simp
            · rw [sumQ_cons]
              have h1 : tc.1.quantity = taker.quantity - fill := by rw [htc1]
              have h2 : (⟨eng.clock, best.price, fill, "buy", best.id, taker.id⟩ :
                  Trade).quantity = fill := rfl
              rw [h2]
              omega
            · intro _
              apply ihpos
              rw [htc1]
              simp only []
              omega
            · intro t ht
              rcases List.mem_cons.mp ht with h1 | h1
              · subst h1
                refine ⟨rfl, rfl, by simpa using not_lt.mp hbp, hfill_pos,
                  (s, best), lookupA_mem hls, rfl, rfl⟩
              · obtain ⟨t1, t2, t3, t4, pr, hpr, hpid, hpprice⟩ := ihprops t h1
                refine ⟨by rw [t1, htc1], t2, ?_, t4, ?_⟩
                · calc t.price ≤ tc.1.price := t3
                    _ = taker.price := by rw [htc1]
                · obtain ⟨pr0, hpr0, e1, e2, _, _, _⟩ :=
                    trace_step hls (le_of_lt hfill_pos) (htc_by ▸ hpr)
                  exact ⟨pr0, hpr0, by rw [e1, hpid], by rw [e2, hpprice]⟩
            · rw [ihid, htc1]
            · rw [ihside, htc1]
            · rw [ihprice, htc1]
            · rw [ihseq, htc1]
            · rw [ihtime, htc1]
            · rw [ihsc, htc_seq]
            · rw [ihni, htc_nid]
            · intro pr hpr
              obtain ⟨pr1, hpr1, e1, e2, e3, e4, e5⟩ := ihtrace pr hpr
              obtain ⟨pr0, hpr0, f1, f2, f3, f4, f5⟩ :=
                trace_step hls (le_of_lt hfill_pos) (htc_by ▸ hpr1)
              exact ⟨pr0, hpr0, by rw [f1, e1], by rw [f2, e2], by rw [f3, e3],
                by rw [f4, e4], le_trans e5 f5⟩
    · rw [matchBuyF_stop fuel hc]
      exact ⟨[], by simp, by simp [sumQ_nil], fun h => h, by simp, rfl, rfl, rfl,
        rfl, rfl, rfl, rfl, fun pr hpr => ⟨pr, hpr, rfl, rfl, rfl, rfl, le_refl _⟩⟩

/-- Master lemma for `_match_sell`, the mirror image of `matchBuyF_general`. -/
theorem matchSellF_general (fuel : Nat) : ∀ (eng : Engine) (taker : Order),
    ∃ new,
      (matchSellF eng taker fuel).2.trades = eng.trades ++ new ∧
      taker.quantity = sumQ new + (matchSellF eng taker fuel).1.quantity ∧
      (0 ≤ taker.quantity → 0 ≤ (matchSellF eng taker fuel).1.quantity) ∧
      (∀ t ∈ new, t.taker_order_id = taker.id ∧ t.taker_side = "sell" ∧
        taker.price ≤ t.price ∧ 0 < t.quantity ∧
        ∃ pr ∈ eng.bySeq, pr.2.id = t.maker_order_id ∧ pr.2.price = t.price) ∧
      (matchSellF eng taker fuel).1.id = taker.id ∧
      (matchSellF eng taker fuel).1.side = taker.side ∧
      (matchSellF eng taker fuel).1.price = taker.price ∧
      (matchSellF eng taker fuel).1.sequence = taker.sequence ∧
      (matchSellF eng taker fuel).1.time = taker.time ∧
      (matchSellF eng taker fuel).2.seqCounter = eng.seqCounter ∧
      (matchSellF eng taker fuel).2.nextOrderId = eng.nextOrderId ∧
      (∀ pr ∈ (matchSellF eng taker fuel).2.bySeq, ∃ pr0 ∈ eng.bySeq,
        pr0.2.id = pr.2.id ∧ pr0.2.price = pr.2.price ∧ pr0.2.side = pr.2.side ∧
        pr0.2.sequence = pr.2.sequence ∧ pr.2.quantity ≤ pr0.2.quantity) := by
  induction fuel with
  | zero =>
    intro eng taker
    rw [show matchSellF eng taker 0 = (taker, eng) from rfl]
    exact ⟨[], by simp, by simp [sumQ_nil], fun h => h, by simp, rfl, rfl, rfl,
      rfl, rfl, rfl, rfl, fun pr hpr => ⟨pr, hpr, rfl, rfl, rfl, rfl, le_refl _⟩⟩
  | succ fuel ih =>
    intro eng taker
    by_cases hc : 0 < taker.quantity ∧ eng.bids ≠ []
    · cases hpkp : peekLoop eng.bySeq eng.bids with
      | mk L r =>
        cases r with
        | none =>
          rw [matchSellF_break_none fuel hc hpkp]
          exact ⟨[], by simp, by simp [sumQ_nil], fun h => h, by simp, rfl, rfl,
            rfl, rfl, rfl, rfl, rfl,
            fun pr hpr => ⟨pr, hpr, rfl, rfl, rfl, rfl, le_refl _⟩⟩
        | some best =>
          by_cases hbp : best.price < taker.price
          · rw [matchSellF_break_price fuel hc hpkp hbp]
            exact ⟨[], by simp, by simp [sumQ_nil], fun h => h, by simp, rfl, rfl,
              rfl, rfl, rfl, rfl, rfl,
              fun pr hpr => ⟨pr, hpr, rfl, rfl, rfl, rfl, le_refl _⟩⟩
          · rw [matchSellF_step fuel hc hpkp hbp]
            obtain ⟨k, s, rest, hL, hls, hbq⟩ := peekLoop_some hpkp
            set fill := min taker.quantity best.quantity with hfill
            set C := (({ eng with bids := L.tail }).record_trade best.price fill
              "sell" best.id taker.id) with hC
            set tc := C.cleanup taker best fill with htc
            have hfill_pos : 0 < fill := lt_min hc.1 hbq
            have htc1 : tc.1 = { taker with quantity := taker.quantity - fill } :=
              cleanup_fst C taker best fill
            have hCtr : C.trades = eng.trades ++
                [(⟨eng.clock, best.price, fill, "sell", best.id, taker.id⟩ :
                  Trade)] := by
              rw [hC]; rfl
            have htc_tr : tc.2.trades = C.trades := cleanup_trades C taker best fill
            have htc_seq : tc.2.seqCounter = eng.seqCounter := by
              rw [cleanup_seqCounter C taker best fill, hC]; rfl
            have htc_nid : tc.2.nextOrderId = eng.nextOrderId := by
              rw [cleanup_nextOrderId C taker best fill, hC]; rfl
            have hCseq : C.bySeq = eng.bySeq := by rw [hC]; rfl
            have htc_by : tc.2.bySeq =
                if 0 < best.quantity - fill then
                  insertA best.sequence { best with quantity := best.quantity - fill }
                    eng.bySeq
                else eraseA best.sequence eng.bySeq := by
              rw [htc, cleanup_bySeq, hCseq]
            obtain ⟨new1, ihtr, ihcons, ihpos, ihprops, ihid, ihside, ihprice,
              ihseq, ihtime, ihsc, ihni, ihtrace⟩ := ih tc.2 tc.1
            refine ⟨(⟨eng.clock, best.price, fill, "sell", best.id, taker.id⟩ :
                Trade) :: new1, ?_, ?_, ?_, ?_, ?_, ?_, ?_, ?_, ?_, ?_, ?_, ?_⟩
            · rw [ihtr, htc_tr, hCtr]
              simp
            · rw [sumQ_cons]
              have h1 : tc.1.quantity = taker.quantity - fill := by rw [htc1]
              have h2 : (⟨eng.clock, best.price, fill, "sell", best.id, taker.id⟩ :
                  Trade).quantity = fill := rfl
              rw [h2]
              omega
            · intro _
              apply ihpos
              rw [htc1]
              simp only []
              omega
            · intro t ht
              rcases List.mem_cons.mp ht with h1 | h1
              · subst h1
                refine ⟨rfl, rfl, by simpa using not_lt.mp hbp, hfill_pos,
                  (s, best), lookupA_mem hls, rfl, rfl⟩
              · obtain ⟨t1, t2, t3, t4, pr, hpr, hpid, hpprice⟩ := ihprops t h1
                refine ⟨by rw [t1, htc1], t2, ?_, t4, ?_⟩
                · calc taker.price = tc.1.price := by rw [htc1]
                    _ ≤ t.price := t3
                · obtain ⟨pr0, hpr0, e1, e2, _, _, _⟩ :=
                    trace_step hls (le_of_lt hfill_pos) (htc_by ▸ hpr)
                  exact ⟨pr0, hpr0, by rw [e1, hpid], by rw [e2, hpprice]⟩
            · rw [ihid, htc1]
            · rw [ihside, htc1]
            · rw [ihprice, htc1]
            · rw [ihseq, htc1]
            · rw [ihtime, htc1]
            · rw [ihsc, htc_seq]
            · rw [ihni, htc_nid]
            · intro pr hpr
              obtain ⟨pr1, hpr1, e1, e2, e3, e4, e5⟩ := ihtrace pr hpr
              obtain ⟨pr0, hpr0, f1, f2, f3, f4, f5⟩ :=
                trace_step hls (le_of_lt hfill_pos) (htc_by ▸ hpr1)
              exact ⟨pr0, hpr0, by rw [f1, e1], by rw [f2, e2], by rw [f3, e3],
                by rw [f4, e4], le_trans e5 f5⟩
    · rw [matchSellF_stop fuel hc]
      exact ⟨[], by simp, by simp [sumQ_nil], fun h => h, by simp, rfl, rfl, rfl,
        rfl, rfl, rfl, rfl, fun pr hpr => ⟨pr, hpr, rfl, rfl, rfl, rfl, le_refl _⟩⟩

/-! ## Characterization of `add_order` -/

theorem add_order_nonpos (eng : Engine) (side : String) (price : Int) {q : Int}
    (hq : q ≤ 0) : eng.add_order side price q = (eng, 0) := by
  simp [Engine.add_order, hq]

theorem add_order_eq (eng : Engine) (side : String) (price : Int) {q : Int}
    (hq : 0 < q) :
    eng.add_order side price q =
      (if 0 < (addRes eng side price q).1.quantity then
        ({ (addRes eng side price q).2 with
            bySeq := insertA eng.seqCounter (addRes eng side price q).1
              (addRes eng side price q).2.bySeq,
            byId := insertA eng.nextOrderId (addRes eng side price q).1
              (addRes eng side price q).2.byId }).push (addRes eng side price q).1
      else (addRes eng side price q).2,
      if 0 < (addRes eng side price q).1.quantity then eng.nextOrderId else 0) := by
  simp only [Engine.add_order, addRes, addAlloc, addTaker]
  rw [if_neg (not_le.mpr hq)]
  by_cases h : 0 <
      (if side = "buy" then
        matchBuyF
          { eng with seqCounter := eng.seqCounter + 1,
                     nextOrderId := eng.nextOrderId + 1, clock := eng.clock + 1 }
          { id := eng.nextOrderId, side := side, price := price, quantity := q,
            time := eng.clock, sequence := eng.seqCounter } q.toNat
      else
        matchSellF
          { eng with seqCounter := eng.seqCounter + 1,
                     nextOrderId := eng.nextOrderId + 1, clock := eng.clock + 1 }
          { id := eng.nextOrderId, side := side, price := price, quantity := q,
            time := eng.clock, sequence := eng.seqCounter } q.toNat).1.quantity <;>
    simp [h]

/-- Combined properties of the matching phase of `add_order`, both sides. -/
theorem addRes_general (eng : Engine) (side : String) (price : Int) (q : Int) :
    ∃ new,
      (addRes eng side price q).2.trades = eng.trades ++ new ∧
      q = sumQ new + (addRes eng side price q).1.quantity ∧
      (0 ≤ q → 0 ≤ (addRes eng side price q).1.quantity) ∧
      (∀ t ∈ new, t.taker_order_id = eng.nextOrderId ∧
        (side = "buy" → t.taker_side = "buy" ∧ t.price ≤ price) ∧
        (¬ side = "buy" → t.taker_side = "sell" ∧ price ≤ t.price) ∧
        0 < t.quantity ∧
        ∃ pr ∈ eng.bySeq, pr.2.id = t.maker_order_id ∧ pr.2.price = t.price) ∧
      (addRes eng side price q).1.id = eng.nextOrderId ∧
      (addRes eng side price q).1.side = side ∧
      (addRes eng side price q).1.price = price ∧
      (addRes eng side price q).1.sequence = eng.seqCounter ∧
      (addRes eng side price q).2.seqCounter = eng.seqCounter + 1 ∧
      (addRes eng side price q).2.nextOrderId = eng.nextOrderId + 1 ∧
      (∀ pr ∈ (addRes eng side price q).2.bySeq, ∃ pr0 ∈ eng.bySeq,
        pr0.2.id = pr.2.id ∧ pr0.2.price = pr.2.price ∧ pr0.2.side = pr.2.side ∧
        pr0.2.sequence = pr.2.sequence ∧ pr.2.quantity ≤ pr0.2.quantity) := by
  by_cases hs : side = "buy"
  · obtain ⟨new, h1, h2, h3, h4, h5, h6, h7, h8, _, h10, h11, h12⟩ :=
      matchBuyF_general q.toNat (addAlloc eng) (addTaker eng side price q)
    rw [show addRes eng side price q =
        matchBuyF (addAlloc eng) (addTaker eng side price q) q.toNat by
      simp [addRes, hs]]
    refine ⟨new, h1, h2, h3, fun t ht => ?_, h5, h6, h7, h8, h10, h11, h12⟩
    obtain ⟨t1, t2, t3, t4, t5⟩ := h4 t ht
    exact ⟨t1, fun _ => ⟨t2, t3⟩, fun hns => absurd hs hns, t4, t5⟩
  · obtain ⟨new, h1, h2, h3, h4, h5, h6, h7, h8, _, h10, h11, h12⟩ :=
      matchSellF_general q.toNat (addAlloc eng) (addTaker eng side price q)
    rw [show addRes eng side price q =
        matchSellF (addAlloc eng) (addTaker eng side price q) q.toNat by
      simp [addRes, hs]]
    refine ⟨new, h1, h2, h3, fun t ht => ?_, h5, h6, h7, h8, h10, h11, h12⟩
    obtain ⟨t1, t2, t3, t4, t5⟩ := h4 t ht
    exact ⟨t1, fun hb => absurd hb hs, fun _ => ⟨t2, t3⟩, t4, t5⟩

theorem add_order_trades (eng : Engine) (side : String) (price : Int) {q : Int}
    (hq : 0 < q) :
    ((eng.add_order side price q).1).trades = (addRes eng side price q).2.trades := by
  rw [add_order_eq eng side price hq]
  by_cases hr : 0 < (addRes eng side price q).1.quantity
  · simp [hr, push_trades]
  · simp [hr]

theorem add_order_ret (eng : Engine) (side : String) (price : Int) {q : Int}
    (hq : 0 < q) :
    (eng.add_order side price q).2 =
      if 0 < (addRes eng side price q).1.quantity then eng.nextOrderId else 0 := by
  rw [add_order_eq eng side price hq]

theorem add_order_bySeq (eng : Engine) (side : String) (price : Int) {q : Int}
    (hq : 0 < q) :
    ((eng.add_order side price q).1).bySeq =
      if 0 < (addRes eng side price q).1.quantity then
        insertA eng.seqCounter (addRes eng side price q).1
          (addRes eng side price q).2.bySeq
      else (addRes eng side price q).2.bySeq := by
  rw [add_order_eq eng side price hq]
  by_cases hr : 0 < (addRes eng side price q).1.quantity
  · simp [hr, push_bySeq]
  · simp [hr]

theorem add_order_byId (eng : Engine) (side : String) (price : Int) {q : Int}
    (hq : 0 < q) :
    ((eng.add_order side price q).1).byId =
      if 0 < (addRes eng side price q).1.quantity then
        insertA eng.nextOrderId (addRes eng side price q).1
          (addRes eng side price q).2.byId
      else (addRes eng side price q).2.byId := by
  rw [add_order_eq eng side price hq]
  by_cases hr : 0 < (addRes eng side price q).1.quantity
  · simp [hr, push_byId]
  · simp [hr]

theorem add_order_asks_of_buy (eng : Engine) (price : Int) {q : Int}
    (hq : 0 < q) :
    ((eng.add_order "buy" price q).1).asks = (addRes eng "buy" price q).2.asks := by
  rw [add_order_eq eng "buy" price hq]
  obtain ⟨_, _, _, _, _, _, h6, _⟩ := addRes_general eng "buy" price q
  by_cases hr : 0 < (addRes eng "buy" price q).1.quantity
  · simp only [if_pos hr]
    exact push_asks_of_buy _ h6
  · simp [hr]

theorem add_order_bids_of_nonbuy (eng : Engine) {side : String} (price : Int)
    {q : Int} (hs : ¬ side = "buy") (hq : 0 < q) :
    ((eng.add_order side price q).1).bids = (addRes eng side price q).2.bids := by
  rw [add_order_eq eng side price hq]
  obtain ⟨_, _, _, _, _, _, h6, _⟩ := addRes_general eng side price q
  by_cases hr : 0 < (addRes eng side price q).1.quantity
  · simp only [if_pos hr]
    exact push_bids_of_nonbuy _ (by rw [h6]; exact hs)
  · simp [hr]

/-- C2: every trade appended by an `add_order` call carries the price of the
maker it was matched against: the trade's `price` field equals the price of a
pre-call resting (registered) order whose id is the trade's `maker_order_id`
(so it is never the taker's limit price except when the two coincide). -/
theorem C2_trade_price_is_maker_price (eng : Engine) (side : String)
    (price quantity : Int) :
    ∃ new, ((eng.add_order side price quantity).1).trades = eng.trades ++ new ∧
      ∀ t ∈ new, ∃ pr ∈ eng.bySeq,
        pr.2.id = t.maker_order_id ∧ pr.2.price = t.price := by
  by_cases hq : quantity ≤ 0
  · rw [add_order_nonpos eng side price hq]
    exact ⟨[], by simp, by simp⟩
  · obtain ⟨new, h1, _, _, h4, _⟩ := addRes_general eng side price quantity
    refine ⟨new, ?_, fun t ht => (h4 t ht).2.2.2.2⟩
    rw [add_order_trades eng side price (not_le.mp hq)]
    exact h1

theorem C2_witness :
    ∃ new,
      (((runCalls [.add "sell" 100 3]).add_order "buy" 101 5).1).trades =
        (runCalls [.add "sell" 100 3]).trades ++ new ∧
      ∀ t ∈ new, ∃ pr ∈ (runCalls [.add "sell" 100 3]).bySeq,
        pr.2.id = t.maker_order_id ∧ pr.2.price = t.price :=
  C2_trade_price_is_maker_price (runCalls [.add "sell" 100 3]) "buy" 101 5

/-- C3: no false crossing.  First, every trade appended by `add_order` crosses:
a buy taker trades only at prices at most its limit, a sell taker only at
prices at least its limit (trade prices are maker prices by C2).  Second, a
failed crossing test consumes nothing: if the best live opposite entry does not
cross, the call leaves that entry at the top of the opposite queue, appends no
trade, and leaves every previously registered order's registration unchanged. -/
theorem C3_no_false_crossing (eng : Engine) (side : String) (price quantity : Int) :
    (∃ new, ((eng.add_order side price quantity).1).trades = eng.trades ++ new ∧
      (side = "buy" → ∀ t ∈ new, t.price ≤ price) ∧
      (¬ side = "buy" → ∀ t ∈ new, price ≤ t.price)) ∧
    (∀ k s rest o, side = "buy" → 0 < quantity →
      peekLoop eng.bySeq eng.asks = ((k, s) :: rest, some o) → price < o.price →
      ((eng.add_order side price quantity).1).asks = (k, s) :: rest ∧
      ((eng.add_order side price quantity).1).trades = eng.trades ∧
      ∀ s1, s1 ≠ eng.seqCounter →
        lookupA ((eng.add_order side price quantity).1).bySeq s1 =
          lookupA eng.bySeq s1) ∧
    (∀ k s rest o, ¬ side = "buy" → 0 < quantity →
      peekLoop eng.bySeq eng.bids = ((k, s) :: rest, some o) → o.price < price →
      ((eng.add_order side price quantity).1).bids = (k, s) :: rest ∧
      ((eng.add_order side price quantity).1).trades = eng.trades ∧
      ∀ s1, s1 ≠ eng.seqCounter →
        lookupA ((eng.add_order side price quantity).1).bySeq s1 =
          lookupA eng.bySeq s1) := by
  refine ⟨?_, ?_, ?_⟩
  · by_cases hq : quantity ≤ 0
    · rw [add_order_nonpos eng side price hq]
      exact ⟨[], by simp, by simp, by simp⟩
    · obtain ⟨new, h1, _, _, h4, _⟩ := addRes_general eng side price quantity
      refine ⟨new, ?_, fun hs t ht => ((h4 t ht).2.1 hs).2,
        fun hs t ht => ((h4 t ht).2.2.1 hs).2⟩
      rw [add_order_trades eng side price (not_le.mp hq)]
      exact h1
  · intro k s rest o hs hq hpk hlt
    subst hs
    have hne : eng.asks ≠ [] := by
      obtain ⟨dr, hdr, _⟩ := peekLoop_drop eng.bySeq eng.asks
      rw [hpk] at hdr
      intro h0
      rw [h0] at hdr
      exact absurd hdr.symm (by simp)
    have hfuel : quantity.toNat = (quantity.toNat - 1) + 1 := by omega
    have hres : addRes eng "buy" price quantity =
        (addTaker eng "buy" price quantity,
          { addAlloc eng with asks := (k, s) :: rest }) := by
      rw [addRes, if_pos rfl, hfuel]
      exact matchBuyF_break_price _ ⟨hq, hne⟩ hpk hlt
    have hrq : 0 < (addRes eng "buy" price quantity).1.quantity := by
      rw [hres]
      exact hq
    refine ⟨?_, ?_, ?_⟩
    · rw [add_order_asks_of_buy eng price hq, hres]
    · rw [add_order_trades eng "buy" price hq, hres]
      rfl
    · intro s1 hs1
      rw [add_order_bySeq eng "buy" price hq, if_pos hrq, hres]
      exact lookupA_insertA_ne _ _ hs1
  · intro k s rest o hs hq hpk hlt
    have hne : eng.bids ≠ [] := by
      obtain ⟨dr, hdr, _⟩ := peekLoop_drop eng.bySeq eng.bids
      rw [hpk] at hdr
      intro h0
      rw [h0] at hdr
      exact absurd hdr.symm (by simp)
    have hfuel : quantity.toNat = (quantity.toNat - 1) + 1 := by omega
    have hres : addRes eng side price quantity =
        (addTaker eng side price quantity,
          { addAlloc eng with bids := (k, s) :: rest }) := by
      rw [addRes, if_neg hs, hfuel]
      exact matchSellF_break_price _ ⟨hq, hne⟩ hpk hlt
    have hrq : 0 < (addRes eng side price quantity).1.quantity := by
      rw [hres]
      exact hq
    refine ⟨?_, ?_, ?_⟩
    · rw [add_order_bids_of_nonbuy eng price hs hq, hres]
    · rw [add_order_trades eng side price hq, hres]
      rfl
    · intro s1 hs1
      rw [add_order_bySeq eng side price hq, if_pos hrq, hres]
      exact lookupA_insertA_ne _ _ hs1

theorem C3_witness :
    ((runCalls [.add "sell" 95 5]).add_order "buy" 90 3).1.asks = [(95, 0)] ∧
    ((runCalls [.add "sell" 95 5]).add_order "buy" 90 3).1.trades =
      (runCalls [.add "sell" 95 5]).trades ∧
    lookupA ((runCalls [.add "sell" 95 5]).add_order "buy" 90 3).1.bySeq 0 =
      lookupA (runCalls [.add "sell" 95 5]).bySeq 0 := by
  obtain ⟨h1, h2, h3⟩ :=
    (C3_no_false_crossing (runCalls [.add "sell" 95 5]) "buy" 90 3).2.1
      95 0 [] ⟨1, "sell", 95, 5, 0, 0⟩ rfl (by norm_num) (by decide) (by norm_num)
  exact ⟨h1, h2, h3 0 (by decide)⟩

/-! ## Counter and read-frame corollaries -/

theorem best_bid_fst (eng : Engine) :
    eng.best_bid.1 = { eng with bids := (peekLoop eng.bySeq eng.bids).1 } := by
  simp [Engine.best_bid, peek_top_buy]

theorem best_ask_fst (eng : Engine) :
    eng.best_ask.1 = { eng with asks := (peekLoop eng.bySeq eng.asks).1 } := by
  simp [Engine.best_ask, peek_top_sell]

theorem add_order_nextOrderId (eng : Engine) (side : String) (price : Int)
    {q : Int} (hq : 0 < q) :
    (eng.add_order side price q).1.nextOrderId = eng.nextOrderId + 1 := by
  rw [add_order_eq eng side price hq]
  obtain ⟨_, _, _, _, _, _, _, _, _, _, h10, _⟩ := addRes_general eng side price q
  by_cases hr : 0 < (addRes eng side price q).1.quantity
  · simp only [if_pos hr]
    rw [push_nextOrderId]
    exact h10
  · simp only [if_neg hr]
    exact h10

theorem add_order_seqCounter (eng : Engine) (side : String) (price : Int)
    {q : Int} (hq : 0 < q) :
    (eng.add_order side price q).1.seqCounter = eng.seqCounter + 1 := by
  rw [add_order_eq eng side price hq]
  obtain ⟨_, _, _, _, _, _, _, _, _, h9, _⟩ := addRes_general eng side price q
  by_cases hr : 0 < (addRes eng side price q).1.quantity
  · simp only [if_pos hr]
    rw [push_seqCounter]
    exact h9
  · simp only [if_neg hr]
    exact h9

theorem add_order_returns (eng : Engine) (side : String) (price q : Int) :
    (eng.add_order side price q).2 = 0 ∨
    (eng.add_order side price q).2 = eng.nextOrderId := by
  by_cases hq : q ≤ 0
  · rw [add_order_nonpos eng side price hq]
    exact Or.inl rfl
  · rw [add_order_ret eng side price (not_le.mp hq)]
    by_cases hr : 0 < (addRes eng side price q).1.quantity
    · exact Or.inr (if_pos hr)
    · exact Or.inl (if_neg hr)

theorem add_order_ret_nonzero (eng : Engine) (side : String) (price q : Int)
    (h : (eng.add_order side price q).2 ≠ 0) :
    (eng.add_order side price q).2 = eng.nextOrderId ∧
    (eng.add_order side price q).1.nextOrderId = eng.nextOrderId + 1 := by
  by_cases hq : q ≤ 0
  · rw [add_order_nonpos eng side price hq] at h
    exact absurd rfl h
  · refine ⟨(add_order_returns eng side price q).resolve_left h, ?_⟩
    exact add_order_nextOrderId eng side price (not_le.mp hq)

theorem add_order_nid_mono (eng : Engine) (side : String) (price q : Int) :
    eng.nextOrderId ≤ (eng.add_order side price q).1.nextOrderId := by
  by_cases hq : q ≤ 0
  · rw [add_order_nonpos eng side price hq]
  · rw [add_order_nextOrderId eng side price (not_le.mp hq)]
    omega

/-- Fold invariant for `runReturns`: the id allocator stays at least 1, every
collected return value is below the current allocator, and the nonzero
(resting-order) returns are strictly increasing. -/
theorem returns_fold_invariant (cs : List Call) :
    ∀ (e : Engine) (acc : List Nat), 1 ≤ e.nextOrderId →
      (∀ r ∈ acc, r < e.nextOrderId) →
      (acc.filter fun r => decide (r ≠ 0)).Pairwise (· < ·) →
      (1 ≤ (cs.foldl
          (fun p c =>
            match c with
            | .add side price quantity =>
              let r := p.1.add_order side price quantity
              (r.1, p.2 ++ [r.2])
            | .bid => (p.1.best_bid.1, p.2)
            | .ask => (p.1.best_ask.1, p.2))
          (e, acc)).1.nextOrderId ∧
       (∀ r ∈ (cs.foldl
          (fun p c =>
            match c with
            | .add side price quantity =>
              let r := p.1.add_order side price quantity
              (r.1, p.2 ++ [r.2])
            | .bid => (p.1.best_bid.1, p.2)
            | .ask => (p.1.best_ask.1, p.2))
          (e, acc)).2, r < (cs.foldl
          (fun p c =>
            match c with
            | .add side price quantity =>
              let r := p.1.add_order side price quantity
              (r.1, p.2 ++ [r.2])
            | .bid => (p.1.best_bid.1, p.2)
            | .ask => (p.1.best_ask.1, p.2))
          (e, acc)).1.nextOrderId) ∧
       ((cs.foldl
          (fun p c =>
            match c with
            | .add side price quantity =>
              let r := p.1.add_order side price quantity
              (r.1, p.2 ++ [r.2])
            | .bid => (p.1.best_bid.1, p.2)
            | .ask => (p.1.best_ask.1, p.2))
          (e, acc)).2.filter fun r => decide (r ≠ 0)).Pairwise (· < ·)) := by
  induction cs with
  | nil =>
    intro e acc h1 h2 h3
    exact ⟨h1, h2, h3⟩
  | cons c cs ih =>
    intro e acc h1 h2 h3
    cases c with
    | add side price quantity =>
      simp only [List.foldl_cons]
      refine ih (e.add_order side price quantity).1
        (acc ++ [(e.add_order side price quantity).2]) ?_ ?_ ?_
      · calc 1 ≤ e.nextOrderId := h1
          _ ≤ _ := add_order_nid_mono e side price quantity
      · intro r hr
        rcases List.mem_append.mp hr with hr | hr
        · calc r < e.nextOrderId := h2 r hr
            _ ≤ _ := add_order_nid_mono e side price quantity
        · rw [List.mem_singleton.mp hr]
          by_cases h0 : (e.add_order side price quantity).2 = 0
          · rw [h0]
            calc 0 < 1 := Nat.zero_lt_one
              _ ≤ e.nextOrderId := h1
              _ ≤ _ := add_order_nid_mono e side price quantity
          · obtain ⟨hret, hnid⟩ := add_order_ret_nonzero e side price quantity h0
            rw [hret, hnid]
            omega
      · by_cases h0 : (e.add_order side price quantity).2 = 0
        · rw [h0]
          simpa using h3
        · obtain ⟨hret, _⟩ := add_order_ret_nonzero e side price quantity h0
          rw [List.filter_append]
          rw [show ([(e.add_order side price quantity).2].filter
              fun r => decide (r ≠ 0)) = [(e.add_order side price quantity).2] by
            simp [h0]]
          rw [List.pairwise_append]
          refine ⟨h3, by simp, ?_⟩
          intro a ha b hb
          rw [List.mem_singleton.mp hb, hret]
          exact h2 a (List.mem_filter.mp ha).1
    | bid =>
      simp only [List.foldl_cons]
      refine ih e.best_bid.1 acc ?_ ?_ h3
      · rw [best_bid_fst]
        exact h1
      · rw [best_bid_fst]
        exact h2
    | ask =>
      simp only [List.foldl_cons]
      refine ih e.best_ask.1 acc ?_ ?_ h3
      · rw [best_ask_fst]
        exact h1
      · rw [best_ask_fst]
        exact h2

/-- C10: every `add_order` call with positive quantity consumes the next order
id and the next sequence number, even when it returns 0; a call returns either
0 or the consumed id; hence over any call sequence the nonzero returned ids are
strictly increasing, never reused, and may skip values (as in the concrete run,
where the fully-filled second call consumes id 2). -/
theorem C10_ids_monotone :
    (∀ (eng : Engine) (side : String) (price q : Int), 0 < q →
      (eng.add_order side price q).1.nextOrderId = eng.nextOrderId + 1 ∧
      (eng.add_order side price q).1.seqCounter = eng.seqCounter + 1) ∧
    (∀ (eng : Engine) (side : String) (price q : Int),
      (eng.add_order side price q).2 = 0 ∨
      (eng.add_order side price q).2 = eng.nextOrderId) ∧
    (∀ cs : List Call,
      ((runReturns cs).2.filter fun r => decide (r ≠ 0)).Pairwise (· < ·)) ∧
    (runReturns [.add "sell" 100 5, .add "buy" 100 5, .add "buy" 90 5]).2 =
      [1, 0, 3] := by
  refine ⟨fun eng side price q hq =>
      ⟨add_order_nextOrderId eng side price hq,
       add_order_seqCounter eng side price hq⟩,
    add_order_returns, fun cs => ?_, by decide⟩
  exact (returns_fold_invariant cs Engine.empty [] (le_refl 1) (by simp)
    (by simp)).2.2

theorem C10_witness :
    (Engine.empty.add_order "buy" 100 1).1.nextOrderId =
        Engine.empty.nextOrderId + 1 ∧
    (Engine.empty.add_order "buy" 100 1).1.seqCounter =
        Engine.empty.seqCounter + 1 :=
  C10_ids_monotone.1 Engine.empty "buy" 100 1 (by norm_num)

/-! ## Side handling: every side other than "buy" takes the sell path -/

theorem add_order_clock (eng : Engine) (side : String) (price : Int) {q : Int}
    (hq : 0 < q) :
    ((eng.add_order side price q).1).clock = (addRes eng side price q).2.clock := by
  rw [add_order_eq eng side price hq]
  by_cases hr : 0 < (addRes eng side price q).1.quantity
  · simp [hr, push_clock]
  · simp [hr]

theorem add_order_asks_of_nonbuy (eng : Engine) {side : String} (price : Int)
    {q : Int} (hs : ¬ side = "buy") (hq : 0 < q) :
    ((eng.add_order side price q).1).asks =
      if 0 < (addRes eng side price q).1.quantity then
        heapPush ((addRes eng side price q).1.price,
          (addRes eng side price q).1.sequence) (addRes eng side price q).2.asks
      else (addRes eng side price q).2.asks := by
  rw [add_order_eq eng side price hq]
  obtain ⟨_, _, _, _, _, _, h6, _⟩ := addRes_general eng side price q
  by_cases hr : 0 < (addRes eng side price q).1.quantity
  · simp only [if_pos hr]
    rw [push_nonbuy _ (by rw [h6]; exact hs)]
  · simp [hr]

theorem cleanup_snd_taker (eng : Engine) (t1 t2 maker : Order) (q : Int) :
    (eng.cleanup t1 maker q).2 = (eng.cleanup t2 maker q).2 := by
  unfold Engine.cleanup
  by_cases h : 0 < maker.quantity - q <;> simp [h]

theorem normReg_insertA (k : Nat) (v : Order) (m : List (Nat × Order)) :
    normReg (insertA k v m) = insertA k (sideNormOrder v) (normReg m) := by
  induction m with
  | nil => simp [insertA, normReg]
  | cons p rest ih =>
    obtain ⟨k1, v1⟩ := p
    by_cases hk : k1 = k
    · simp [insertA, hk, normReg]
    · simp [insertA, hk, normReg]
      simpa [normReg] using ih

/-- The sell matching loop never reads the taker's `side` field: changing it
only changes the `side` field carried through to the returned taker. -/
theorem matchSellF_taker_side (fuel : Nat) :
    ∀ (eng : Engine) (taker : Order) (s : String),
    matchSellF eng { taker with side := s } fuel =
      ({ (matchSellF eng taker fuel).1 with side := s },
        (matchSellF eng taker fuel).2) := by
  induction fuel with
  | zero => intro eng taker s; rfl
  | succ fuel ih =>
    intro eng taker s
    by_cases hc : 0 < taker.quantity ∧ eng.bids ≠ []
    · cases hpkp : peekLoop eng.bySeq eng.bids with
      | mk L r =>
        cases r with
        | none =>
          rw [matchSellF_break_none fuel
              (show 0 < ({ taker with side := s } : Order).quantity ∧
                eng.bids ≠ [] from hc) hpkp,
            matchSellF_break_none fuel hc hpkp]
        | some best =>
          by_cases hbp : best.price < taker.price
          · rw [matchSellF_break_price fuel
                (show 0 < ({ taker with side := s } : Order).quantity ∧
                  eng.bids ≠ [] from hc) hpkp
                (show best.price < ({ taker with side := s } : Order).price
                  from hbp),
              matchSellF_break_price fuel hc hpkp hbp]
          · rw [matchSellF_step fuel
                (show 0 < ({ taker with side := s } : Order).quantity ∧
                  eng.bids ≠ [] from hc) hpkp
                (show ¬ best.price < ({ taker with side := s } : Order).price
                  from hbp),
              matchSellF_step fuel hc hpkp hbp]
            simp only []
            rw [cleanup_snd_taker _ { taker with side := s } taker best
                (min taker.quantity best.quantity),
              cleanup_fst, cleanup_fst]
            simp only []
            exact ih _ { taker with quantity := taker.quantity - min taker.quantity best.quantity } s
    · rw [matchSellF_stop fuel
          (show ¬ (0 < ({ taker with side := s } : Order).quantity ∧
            eng.bids ≠ []) from hc),
        matchSellF_stop fuel hc]

/-- C9: `add_order` validates nothing about `side`: any side value other than
`"buy"` takes the sell path — the matching phase is `matchSellF` against the
bid queue, a resting remainder is pushed onto the ask queue, and the call is
observationally identical to the same call with side `"sell"` (return value,
queues, trades, counters, clock, and both registry mappings up to the stored
side string, which the engine never distinguishes from `"sell"`). -/
theorem C9_nonbuy_side_means_sell (eng : Engine) {side : String}
    (price quantity : Int) (h : ¬ side = "buy") :
    (0 < quantity → addRes eng side price quantity =
      matchSellF (addAlloc eng) (addTaker eng side price quantity)
        quantity.toNat) ∧
    (0 < quantity → ((eng.add_order side price quantity).1).asks =
      if 0 < (addRes eng side price quantity).1.quantity then
        heapPush ((addRes eng side price quantity).1.price,
          (addRes eng side price quantity).1.sequence)
          (addRes eng side price quantity).2.asks
      else (addRes eng side price quantity).2.asks) ∧
    (eng.add_order side price quantity).2 =
      (eng.add_order "sell" price quantity).2 ∧
    (eng.add_order side price quantity).1.bids =
      (eng.add_order "sell" price quantity).1.bids ∧
    (eng.add_order side price quantity).1.asks =
      (eng.add_order "sell" price quantity).1.asks ∧
    (eng.add_order side price quantity).1.trades =
      (eng.add_order "sell" price quantity).1.trades ∧
    (eng.add_order side price quantity).1.seqCounter =
      (eng.add_order "sell" price quantity).1.seqCounter ∧
    (eng.add_order side price quantity).1.nextOrderId =
      (eng.add_order "sell" price quantity).1.nextOrderId ∧
    (eng.add_order side price quantity).1.clock =
      (eng.add_order "sell" price quantity).1.clock ∧
    normReg (eng.add_order side price quantity).1.bySeq =
      normReg (eng.add_order "sell" price quantity).1.bySeq ∧
    normReg (eng.add_order side price quantity).1.byId =
      normReg (eng.add_order "sell" price quantity).1.byId := by
  have hsell : ¬ ("sell" : String) = "buy" := by decide
  by_cases hq : quantity ≤ 0
  · rw [add_order_nonpos eng side price hq, add_order_nonpos eng "sell" price hq]
    exact ⟨fun hq1 => absurd hq1 (not_lt.mpr hq),
      fun hq1 => absurd hq1 (not_lt.mpr hq), rfl, rfl, rfl, rfl, rfl, rfl, rfl,
      rfl, rfl⟩
  · have hq1 : 0 < quantity := not_le.mp hq
    have haddL : addRes eng side price quantity =
        ({ (addRes eng "sell" price quantity).1 with side := side },
          (addRes eng "sell" price quantity).2) := by
      rw [addRes, if_neg h, addRes, if_neg hsell]
      exact matchSellF_taker_side quantity.toNat (addAlloc eng)
        (addTaker eng "sell" price quantity) side
    have hqeq : (addRes eng side price quantity).1.quantity =
        (addRes eng "sell" price quantity).1.quantity := by
      rw [haddL]
    have hpeq : (addRes eng side price quantity).1.price =
        (addRes eng "sell" price quantity).1.price := by
      rw [haddL]
    have hseq : (addRes eng side price quantity).1.sequence =
        (addRes eng "sell" price quantity).1.sequence := by
      rw [haddL]
    have hnorm : sideNormOrder (addRes eng side price quantity).1 =
        sideNormOrder (addRes eng "sell" price quantity).1 := by
      obtain ⟨_, _, _, _, _, _, hsideR, _⟩ := addRes_general eng "sell" price quantity
      rw [haddL]
      unfold sideNormOrder
      rw [if_neg (show ¬ ({ (addRes eng "sell" price quantity).1 with
          side := side } : Order).side = "buy" from h),
        if_neg (by rw [hsideR]; exact hsell)]
    refine ⟨fun _ => by rw [addRes, if_neg h], fun _ =>
      add_order_asks_of_nonbuy eng price h hq1, ?_, ?_, ?_, ?_, ?_, ?_, ?_, ?_, ?_⟩
    · rw [add_order_ret eng side price hq1, add_order_ret eng "sell" price hq1,
        hqeq]
    · rw [add_order_bids_of_nonbuy eng price h hq1,
        add_order_bids_of_nonbuy eng price hsell hq1, haddL]
    · rw [add_order_asks_of_nonbuy eng price h hq1,
        add_order_asks_of_nonbuy eng price hsell hq1, hqeq, hpeq, hseq, haddL]
    · rw [add_order_trades eng side price hq1, add_order_trades eng "sell" price
        hq1, haddL]
    · rw [add_order_seqCounter eng side price hq1,
        add_order_seqCounter eng "sell" price hq1]
    · rw [add_order_nextOrderId eng side price hq1,
        add_order_nextOrderId eng "sell" price hq1]
    · rw [add_order_clock eng side price hq1, add_order_clock eng "sell" price
        hq1, haddL]
    · rw [add_order_bySeq eng side price hq1, add_order_bySeq eng "sell" price
        hq1, hqeq]
      by_cases hr : 0 < (addRes eng "sell" price quantity).1.quantity
      · rw [if_pos hr, if_pos hr, normReg_insertA, normReg_insertA, hnorm, haddL]
      · rw [if_neg hr, if_neg hr, haddL]
    · rw [add_order_byId eng side price hq1, add_order_byId eng "sell" price
        hq1, hqeq]
      by_cases hr : 0 < (addRes eng "sell" price quantity).1.quantity
      · rw [if_pos hr, if_pos hr, normReg_insertA, normReg_insertA, hnorm, haddL]
      · rw [if_neg hr, if_neg hr, haddL]

theorem C9_witness :
    (Engine.empty.add_order "limit" 10 5).2 =
      (Engine.empty.add_order "sell" 10 5).2 ∧
    (Engine.empty.add_order "limit" 10 5).1.asks =
      (Engine.empty.add_order "sell" 10 5).1.asks :=
  ⟨(C9_nonbuy_side_means_sell Engine.empty 10 5 (by decide)).2.2.1,
   (C9_nonbuy_side_means_sell Engine.empty 10 5 (by decide)).2.2.2.2.1⟩

/-! ## Invariant: establishment and preservation -/

theorem inv_empty : Inv Engine.empty := by
  refine ⟨?_, ?_, ?_, ?_, ?_, ?_, ?_, ?_, ?_, ?_, ?_⟩ <;> simp [Engine.empty]

theorem inv_asks_shrink {eng : Engine} (hinv : Inv eng) {L : List Entry}
    {r : Option Order} (hpk : peekLoop eng.bySeq eng.asks = (L, r)) :
    Inv { eng with asks := L } := by
  obtain ⟨hS, hI, hndS, hndI, hPA, hPB, hEA, hEB, hC, hT, hN⟩ := hinv
  obtain ⟨dropped, hdec, hstale⟩ := peekLoop_drop eng.bySeq eng.asks
  rw [hpk] at hdec
  refine ⟨hS, hI, hndS, hndI, ?_, hPB, ?_, hEB, ?_, hT, hN⟩
  · have hp := hPA
    rw [hdec] at hp
    exact (List.pairwise_append.mp hp).2.1
  · intro en hen
    exact hEA en (by rw [hdec]; exact List.mem_append_right _ hen)
  · intro pr hpr
    refine ⟨fun hside => ?_, fun hside => (hC pr hpr).2 hside⟩
    have hmem := (hC pr hpr).1 hside
    rw [hdec] at hmem
    rcases List.mem_append.mp hmem with hmem | hmem
    · have hlk : lookupA eng.bySeq pr.1 = some pr.2 := mem_lookupA hndS hpr
      have hst := hstale _ hmem pr.2 hlk
      have hq := (hS pr hpr).2.1
      omega
    · exact hmem

theorem inv_bids_shrink {eng : Engine} (hinv : Inv eng) {L : List Entry}
    {r : Option Order} (hpk : peekLoop eng.bySeq eng.bids = (L, r)) :
    Inv { eng with bids := L } := by
  obtain ⟨hS, hI, hndS, hndI, hPA, hPB, hEA, hEB, hC, hT, hN⟩ := hinv
  obtain ⟨dropped, hdec, hstale⟩ := peekLoop_drop eng.bySeq eng.bids
  rw [hpk] at hdec
  refine ⟨hS, hI, hndS, hndI, hPA, ?_, hEA, ?_, ?_, hT, hN⟩
  · have hp := hPB
    rw [hdec] at hp
    exact (List.pairwise_append.mp hp).2.1
  · intro en hen
    exact hEB en (by rw [hdec]; exact List.mem_append_right _ hen)
  · intro pr hpr
    refine ⟨fun hside => (hC pr hpr).1 hside, fun hside => ?_⟩
    have hmem := (hC pr hpr).2 hside
    rw [hdec] at hmem
    rcases List.mem_append.mp hmem with hmem | hmem
    · have hlk : lookupA eng.bySeq pr.1 = some pr.2 := mem_lookupA hndS hpr
      have hst := hstale _ hmem pr.2 hlk
      have hq := (hS pr hpr).2.1
      omega
    · exact hmem

/-- One full iteration of `_match_buy` (pop of the live ask-side maker at the
top, trade record, cleanup) preserves the invariant, touches only the expected
state, and moves exactly `fill` quantity from the maker's registration into the
new trade. -/
theorem iteration_buy {E : Engine} (hinv : Inv E) {k : Int} {s : Nat}
    {best : Order} {rest : List Entry}
    (hasks : E.asks = (k, s) :: rest)
    (hls : lookupA E.bySeq s = some best)
    {tid : Nat} (htid : tid < E.nextOrderId) (taker : Order) {fill : Int}
    (hfb : fill ≤ best.quantity) (hfp : 0 < fill) (ts : String) :
    ∀ E2, E2 = ((({ E with asks := rest }).record_trade best.price fill ts
        best.id tid).cleanup taker best fill).2 →
      Inv E2 ∧
      E2.bids = E.bids ∧
      E2.trades = E.trades ++ [⟨E.clock, best.price, fill, ts, best.id, tid⟩] ∧
      E2.seqCounter = E.seqCounter ∧
      E2.nextOrderId = E.nextOrderId ∧
      (∀ j, lookupA E.bySeq j = none → lookupA E2.bySeq j = none) ∧
      (∀ i, lookupA E.byId i = none → lookupA E2.byId i = none) ∧
      restingQty E best.id = best.quantity ∧
      restingQty E2 best.id = best.quantity - fill ∧
      (∀ i, i ≠ best.id → restingQty E2 i = restingQty E i) ∧
      (∀ en ∈ E2.asks, en ∈ E.asks ∨ ¬ lookupA E.bySeq en.2 = none) ∧
      E2.bySeq = (if 0 < best.quantity - fill then
        insertA s { best with quantity := best.quantity - fill } E.bySeq
      else eraseA s E.bySeq) := by
  intro E2 hE2
  obtain ⟨hS, hI, hndS, hndI, hPA, hPB, hEA, hEB, hC, hT, hN⟩ := hinv
  have hmemb : (s, best) ∈ E.bySeq := lookupA_mem hls
  obtain ⟨hseq0, hbq, hslt, hbid, hbcross⟩ := hS (s, best) hmemb
  have hbseq : best.sequence = s := hseq0
  have hbq1 : (0 : Int) < best.quantity := hbq
  have hbidlt : best.id < E.nextOrderId := hbid
  have hbcross1 : lookupA E.byId best.id = some best := hbcross
  obtain ⟨hslt2, hkey⟩ := hEA (k, s) (by rw [hasks]; exact List.mem_cons_self _ _)
  obtain ⟨hkp, hside⟩ := hkey best hls
  have hslt3 : s < E.seqCounter := hslt
  have hrestP : rest.Pairwise eLe := by
    have hp := hPA
    rw [hasks] at hp
    exact (List.pairwise_cons.mp hp).2
  have hE2seq : E2.bySeq =
      if 0 < best.quantity - fill then
        insertA s { best with quantity := best.quantity - fill } E.bySeq
      else eraseA s E.bySeq := by
    rw [hE2, cleanup_bySeq, hbseq]
    rfl
  have hE2id : E2.byId =
      if 0 < best.quantity - fill then
        insertA best.id { best with quantity := best.quantity - fill } E.byId
      else eraseA best.id E.byId := by
    rw [hE2, cleanup_byId]
    rfl
  have hE2asks : E2.asks =
      if 0 < best.quantity - fill then heapPush (best.price, s) rest else rest := by
    rw [hE2, cleanup_asks_of_nonbuy _ _ hside, hbseq]
    rfl
  have hbids : E2.bids = E.bids := by
    rw [hE2, cleanup_bids_of_nonbuy _ _ hside]
    rfl
  have htr : E2.trades =
      E.trades ++ [⟨E.clock, best.price, fill, ts, best.id, tid⟩] := by
    rw [hE2, cleanup_trades]
    rfl
  have hsc : E2.seqCounter = E.seqCounter := by
    rw [hE2, cleanup_seqCounter]
    rfl
  have hni : E2.nextOrderId = E.nextOrderId := by
    rw [hE2, cleanup_nextOrderId]
    rfl
  have hIdInj : ∀ pr ∈ E.bySeq, pr.2.id = best.id → pr = (s, best) := by
    intro pr hpr hpid
    have h1 := (hS pr hpr).2.2.2.2
    rw [hpid, hbcross1] at h1
    have h2 : pr.2 = best := by
      injection h1.symm
    have h3 : pr.1 = s := by
      have := (hS pr hpr).1
      rw [h2] at this
      rw [← this, hbseq]
    rw [Prod.ext_iff]
    exact ⟨h3, h2⟩
  have hIdInj2 : ∀ pr ∈ E.byId, pr.2.sequence = s → pr = (best.id, best) := by
    intro pr hpr hpseq
    have h1 := (hI pr hpr).2
    rw [hpseq, hls] at h1
    have h2 : pr.2 = best := by
      injection h1.symm
    have h3 : pr.1 = best.id := by
      have := (hI pr hpr).1
      rw [h2] at this
      rw [← this]
    rw [Prod.ext_iff]
    exact ⟨h3, h2⟩
  have hInv2 : Inv E2 := by
    refine ⟨?_, ?_, ?_, ?_, ?_, ?_, ?_, ?_, ?_, ?_, ?_⟩
    · -- bySeq record conditions
      intro pr hpr
      rw [hE2seq] at hpr
      rw [hsc, hni, hE2id]
      by_cases hsurv : 0 < best.quantity - fill
      · rw [if_pos hsurv] at hpr
        rw [if_pos hsurv]
        rcases mem_insertA_nodup hndS hpr with h1 | ⟨h1, h2⟩
        · rw [h1]
          refine ⟨hbseq, hsurv, hslt3, hbidlt, ?_⟩
          exact lookupA_insertA_self _ _ _
        · obtain ⟨c1, c2, c3, c4, c5⟩ := hS pr h1
          have hne : pr.2.id ≠ best.id := by
            intro he
            exact h2 (by rw [hIdInj pr h1 he])
          refine ⟨c1, c2, c3, c4, ?_⟩
          rw [lookupA_insertA_ne _ _ hne]
          exact c5
      · rw [if_neg hsurv] at hpr
        rw [if_neg hsurv]
        obtain ⟨h2, h1⟩ := mem_eraseA_ne hndS hpr
        obtain ⟨c1, c2, c3, c4, c5⟩ := hS pr h1
        have hne : pr.2.id ≠ best.id := by
          intro he
          exact h2 (by rw [hIdInj pr h1 he])
        refine ⟨c1, c2, c3, c4, ?_⟩
        rw [lookupA_eraseA_ne _ hne]
        exact c5
    · -- byId record conditions
      intro pr hpr
      rw [hE2id] at hpr
      rw [hE2seq]
      by_cases hsurv : 0 < best.quantity - fill
      · rw [if_pos hsurv] at hpr
        rw [if_pos hsurv]
        rcases mem_insertA_nodup hndI hpr with h1 | ⟨h1, h2⟩
        · rw [h1]
          refine ⟨rfl, ?_⟩
          rw [show ({ best with quantity := best.quantity - fill } :
            Order).sequence = s from hbseq]
          exact lookupA_insertA_self _ _ _
        · obtain ⟨c1, c2⟩ := hI pr h1
          have hne : pr.2.sequence ≠ s := by
            intro he
            exact h2 (by rw [hIdInj2 pr h1 he])
          refine ⟨c1, ?_⟩
          rw [lookupA_insertA_ne _ _ hne]
          exact c2
      · rw [if_neg hsurv] at hpr
        rw [if_neg hsurv]
        obtain ⟨h2, h1⟩ := mem_eraseA_ne hndI hpr
        obtain ⟨c1, c2⟩ := hI pr h1
        have hne : pr.2.sequence ≠ s := by
          intro he
          exact h2 (by rw [hIdInj2 pr h1 he])
        refine ⟨c1, ?_⟩
        rw [lookupA_eraseA_ne _ hne]
        exact c2
    · rw [hE2seq]
      by_cases hsurv : 0 < best.quantity - fill
      · rw [if_pos hsurv]
        exact keys_insertA_nodup _ _ hndS
      · rw [if_neg hsurv]
        exact keys_eraseA_nodup _ hndS
    · rw [hE2id]
      by_cases hsurv : 0 < best.quantity - fill
      · rw [if_pos hsurv]
        exact keys_insertA_nodup _ _ hndI
      · rw [if_neg hsurv]
        exact keys_eraseA_nodup _ hndI
    · rw [hE2asks]
      by_cases hsurv : 0 < best.quantity - fill
      · rw [if_pos hsurv]
        exact heapPush_sorted hrestP
      · rw [if_neg hsurv]
        exact hrestP
    · rw [hbids]
      exact hPB
    · -- ask-entry conditions
      intro en hen
      rw [hE2asks] at hen
      rw [hsc, hE2seq]
      have hrest_cond : en ∈ rest →
          en.2 < E.seqCounter ∧ ∀ o, lookupA E.bySeq en.2 = some o →
            en.1 = o.price ∧ ¬ o.side = "buy" := fun hr =>
        hEA en (by rw [hasks]; exact List.mem_cons_of_mem _ hr)
      by_cases hsurv : 0 < best.quantity - fill
      · rw [if_pos hsurv] at hen
        rw [if_pos hsurv]
        rcases mem_heapPush.mp hen with h1 | h1
        · rw [h1]
          refine ⟨hslt3, fun o ho => ?_⟩
          rw [lookupA_insertA_self] at ho
          cases ho
          exact ⟨rfl, hside⟩
        · obtain ⟨c1, c2⟩ := hrest_cond h1
          refine ⟨c1, fun o ho => ?_⟩
          by_cases hes : en.2 = s
          · rw [hes, lookupA_insertA_self] at ho
            cases ho
            have := c2 best (by rw [hes]; exact hls)
            exact ⟨this.1, this.2⟩
          · rw [lookupA_insertA_ne _ _ hes] at ho
            exact c2 o ho
      · rw [if_neg hsurv] at hen
        rw [if_neg hsurv]
        obtain ⟨c1, c2⟩ := hrest_cond hen
        refine ⟨c1, fun o ho => ?_⟩
        by_cases hes : en.2 = s
        · rw [hes, lookupA_eraseA_self _ hndS] at ho
          exact Option.noConfusion ho
        · rw [lookupA_eraseA_ne _ hes] at ho
          exact c2 o ho
    · -- bid-entry conditions
      intro en hen
      rw [hbids] at hen
      rw [hsc, hE2seq]
      obtain ⟨c1, c2⟩ := hEB en hen
      refine ⟨c1, fun o ho => ?_⟩
      by_cases hes : en.2 = s
      · exfalso
        have := (c2 best (by rw [hes]; exact hls)).2
        exact hside this
      · by_cases hsurv : 0 < best.quantity - fill
        · rw [if_pos hsurv, lookupA_insertA_ne _ _ hes] at ho
          exact c2 o ho
        · rw [if_neg hsurv, lookupA_eraseA_ne _ hes] at ho
          exact c2 o ho
    · -- completeness
      intro pr hpr
      rw [hE2seq] at hpr
      rw [hE2asks, hbids]
      by_cases hsurv : 0 < best.quantity - fill
      · rw [if_pos hsurv] at hpr
        rw [if_pos hsurv]
        rcases mem_insertA_nodup hndS hpr with h1 | ⟨h1, h2⟩
        · rw [h1]
          refine ⟨fun _ => ?_, fun hb => ?_⟩
          · exact mem_heapPush.mpr (Or.inl rfl)
          · exact absurd hb hside
        · obtain ⟨cs1, cs2⟩ := hC pr h1
          refine ⟨fun hns => ?_, fun hb => cs2 hb⟩
          have hmem := cs1 hns
          rw [hasks] at hmem
          rcases List.mem_cons.mp hmem with h3 | h3
          · exfalso
            apply h2
            have : pr.1 = s := by
              have := congrArg Prod.snd h3
              simpa using this
            exact this
          · exact mem_heapPush.mpr (Or.inr h3)
      · rw [if_neg hsurv] at hpr
        rw [if_neg hsurv]
        obtain ⟨h2, h1⟩ := mem_eraseA_ne hndS hpr
        obtain ⟨cs1, cs2⟩ := hC pr h1
        refine ⟨fun hns => ?_, fun hb => cs2 hb⟩
        have hmem := cs1 hns
        rw [hasks] at hmem
        rcases List.mem_cons.mp hmem with h3 | h3
        · exfalso
          apply h2
          have := congrArg Prod.snd h3
          simpa using this
        · exact h3
    · -- trade id bounds
      intro t ht
      rw [htr] at ht
      rw [hni]
      rcases List.mem_append.mp ht with h1 | h1
      · exact hT t h1
      · rw [List.mem_singleton.mp h1]
        exact ⟨hbidlt, htid⟩
    · rw [hni]
      exact hN
  refine ⟨hInv2, hbids, htr, hsc, hni, ?_, ?_, ?_, ?_, ?_, ?_, ?_⟩
  · intro j hj
    rw [hE2seq]
    have hjs : j ≠ s := by
      intro he
      rw [he, hls] at hj
      exact Option.noConfusion hj
    by_cases hsurv : 0 < best.quantity - fill
    · rw [if_pos hsurv, lookupA_insertA_ne _ _ hjs]
      exact hj
    · rw [if_neg hsurv, lookupA_eraseA_ne _ hjs]
      exact hj
  · intro i hi
    rw [hE2id]
    have his : i ≠ best.id := by
      intro he
      rw [he, hbcross1] at hi
      exact Option.noConfusion hi
    by_cases hsurv : 0 < best.quantity - fill
    · rw [if_pos hsurv, lookupA_insertA_ne _ _ his]
      exact hi
    · rw [if_neg hsurv, lookupA_eraseA_ne _ his]
      exact hi
  · rw [restingQty, hbcross1]
  · by_cases hsurv : 0 < best.quantity - fill
    · have h1 : lookupA E2.byId best.id =
          some { best with quantity := best.quantity - fill } := by
        rw [hE2id, if_pos hsurv]
        exact lookupA_insertA_self _ _ _
      rw [restingQty, h1]
    · have h1 : lookupA E2.byId best.id = none := by
        rw [hE2id, if_neg hsurv]
        exact lookupA_eraseA_self _ hndI
      simp [restingQty, h1]
      omega
  · intro i hi
    have h1 : lookupA E2.byId i = lookupA E.byId i := by
      rw [hE2id]
      by_cases hsurv : 0 < best.quantity - fill
      · rw [if_pos hsurv, lookupA_insertA_ne _ _ hi]
      · rw [if_neg hsurv, lookupA_eraseA_ne _ hi]
    rw [restingQty, restingQty, h1]
  · intro en hen
    rw [hE2asks] at hen
    by_cases hsurv : 0 < best.quantity - fill
    · rw [if_pos hsurv] at hen
      rcases mem_heapPush.mp hen with h1 | h1
      · right
        rw [h1]
        rw [show ((best.price, s) : Entry).2 = s from rfl, hls]
        simp
      · exact Or.inl (by rw [hasks]; exact List.mem_cons_of_mem _ h1)
    · rw [if_neg hsurv] at hen
      exact Or.inl (by rw [hasks]; exact List.mem_cons_of_mem _ hen)
  · exact hE2seq

/-- One full iteration of `_match_sell`, the mirror image of `iteration_buy`:
the popped maker is the live bid-side top. -/
theorem iteration_sell {E : Engine} (hinv : Inv E) {k : Int} {s : Nat}
    {best : Order} {rest : List Entry}
    (hbids0 : E.bids = (k, s) :: rest)
    (hls : lookupA E.bySeq s = some best)
    {tid : Nat} (htid : tid < E.nextOrderId) (taker : Order) {fill : Int}
    (hfb : fill ≤ best.quantity) (ts : String) :
    ∀ E2, E2 = ((({ E with bids := rest }).record_trade best.price fill ts
        best.id tid).cleanup taker best fill).2 →
      Inv E2 ∧
      E2.asks = E.asks ∧
      E2.trades = E.trades ++ [⟨E.clock, best.price, fill, ts, best.id, tid⟩] ∧
      E2.seqCounter = E.seqCounter ∧
      E2.nextOrderId = E.nextOrderId ∧
      (∀ j, lookupA E.bySeq j = none → lookupA E2.bySeq j = none) ∧
      (∀ i, lookupA E.byId i = none → lookupA E2.byId i = none) ∧
      restingQty E best.id = best.quantity ∧
      restingQty E2 best.id = best.quantity - fill ∧
      (∀ i, i ≠ best.id → restingQty E2 i = restingQty E i) ∧
      (∀ en ∈ E2.bids, en ∈ E.bids ∨ ¬ lookupA E.bySeq en.2 = none) ∧
      E2.bySeq = (if 0 < best.quantity - fill then
        insertA s { best with quantity := best.quantity - fill } E.bySeq
      else eraseA s E.bySeq) := by
  intro E2 hE2
  obtain ⟨hS, hI, hndS, hndI, hPA, hPB, hEA, hEB, hC, hT, hN⟩ := hinv
  have hmemb : (s, best) ∈ E.bySeq := lookupA_mem hls
  obtain ⟨hseq0, hbq, hslt, hbid, hbcross⟩ := hS (s, best) hmemb
  have hbseq : best.sequence = s := hseq0
  have hbq1 : (0 : Int) < best.quantity := hbq
  have hbidlt : best.id < E.nextOrderId := hbid
  have hbcross1 : lookupA E.byId best.id = some best := hbcross
  obtain ⟨hslt2, hkey⟩ := hEB (k, s) (by rw [hbids0]; exact List.mem_cons_self _ _)
  obtain ⟨hkp, hside⟩ := hkey best hls
  have hslt3 : s < E.seqCounter := hslt
  have hrestP : rest.Pairwise eLe := by
    have hp := hPB
    rw [hbids0] at hp
    exact (List.pairwise_cons.mp hp).2
  have hE2seq : E2.bySeq =
      if 0 < best.quantity - fill then
        insertA s { best with quantity := best.quantity - fill } E.bySeq
      else eraseA s E.bySeq := by
    rw [hE2, cleanup_bySeq, hbseq]
    rfl
  have hE2id : E2.byId =
      if 0 < best.quantity - fill then
        insertA best.id { best with quantity := best.quantity - fill } E.byId
      else eraseA best.id E.byId := by
    rw [hE2, cleanup_byId]
    rfl
  have hE2bids : E2.bids =
      if 0 < best.quantity - fill then heapPush (-best.price, s) rest else rest := by
    rw [hE2, cleanup_bids_of_buy _ _ hside, hbseq]
    rfl
  have hasks : E2.asks = E.asks := by
    rw [hE2, cleanup_asks_of_buy _ _ hside]
    rfl
  have htr : E2.trades =
      E.trades ++ [⟨E.clock, best.price, fill, ts, best.id, tid⟩] := by
    rw [hE2, cleanup_trades]
    rfl
  have hsc : E2.seqCounter = E.seqCounter := by
    rw [hE2, cleanup_seqCounter]
    rfl
  have hni : E2.nextOrderId = E.nextOrderId := by
    rw [hE2, cleanup_nextOrderId]
    rfl
  have hIdInj : ∀ pr ∈ E.bySeq, pr.2.id = best.id → pr = (s, best) := by
    intro pr hpr hpid
    have h1 := (hS pr hpr).2.2.2.2
    rw [hpid, hbcross1] at h1
    have h2 : pr.2 = best := by
      injection h1.symm
    have h3 : pr.1 = s := by
      have := (hS pr hpr).1
      rw [h2] at this
      rw [← this, hbseq]
    rw [Prod.ext_iff]
    exact ⟨h3, h2⟩
  have hIdInj2 : ∀ pr ∈ E.byId, pr.2.sequence = s → pr = (best.id, best) := by
    intro pr hpr hpseq
    have h1 := (hI pr hpr).2
    rw [hpseq, hls] at h1
    have h2 : pr.2 = best := by
      injection h1.symm
    have h3 : pr.1 = best.id := by
      have := (hI pr hpr).1
      rw [h2] at this
      rw [← this]
    rw [Prod.ext_iff]
    exact ⟨h3, h2⟩
  have hInv2 : Inv E2 := by
    refine ⟨?_, ?_, ?_, ?_, ?_, ?_, ?_, ?_, ?_, ?_, ?_⟩
    · intro pr hpr
      rw [hE2seq] at hpr
      rw [hsc, hni, hE2id]
      by_cases hsurv : 0 < best.quantity - fill
      · rw [if_pos hsurv] at hpr
        rw [if_pos hsurv]
        rcases mem_insertA_nodup hndS hpr with h1 | ⟨h1, h2⟩
        · rw [h1]
          refine ⟨hbseq, hsurv, hslt3, hbidlt, ?_⟩
          exact lookupA_insertA_self _ _ _
        · obtain ⟨c1, c2, c3, c4, c5⟩ := hS pr h1
          have hne : pr.2.id ≠ best.id := by
            intro he
            exact h2 (by rw [hIdInj pr h1 he])
          refine ⟨c1, c2, c3, c4, ?_⟩
          rw [lookupA_insertA_ne _ _ hne]
          exact c5
      · rw [if_neg hsurv] at hpr
        rw [if_neg hsurv]
        obtain ⟨h2, h1⟩ := mem_eraseA_ne hndS hpr
        obtain ⟨c1, c2, c3, c4, c5⟩ := hS pr h1
        have hne : pr.2.id ≠ best.id := by
          intro he
          exact h2 (by rw [hIdInj pr h1 he])
        refine ⟨c1, c2, c3, c4, ?_⟩
        rw [lookupA_eraseA_ne _ hne]
        exact c5
    · intro pr hpr
      rw [hE2id] at hpr
      rw [hE2seq]
      by_cases hsurv : 0 < best.quantity - fill
      · rw [if_pos hsurv] at hpr
        rw [if_pos hsurv]
        rcases mem_insertA_nodup hndI hpr with h1 | ⟨h1, h2⟩
        · rw [h1]
          refine ⟨rfl, ?_⟩
          rw [show ({ best with quantity := best.quantity - fill } :
            Order).sequence = s from hbseq]
          exact lookupA_insertA_self _ _ _
        · obtain ⟨c1, c2⟩ := hI pr h1
          have hne : pr.2.sequence ≠ s := by
            intro he
            exact h2 (by rw [hIdInj2 pr h1 he])
          refine ⟨c1, ?_⟩
          rw [lookupA_insertA_ne _ _ hne]
          exact c2
      · rw [if_neg hsurv] at hpr
        rw [if_neg hsurv]
        obtain ⟨h2, h1⟩ := mem_eraseA_ne hndI hpr
        obtain ⟨c1, c2⟩ := hI pr h1
        have hne : pr.2.sequence ≠ s := by
          intro he
          exact h2 (by rw [hIdInj2 pr h1 he])
        refine ⟨c1, ?_⟩
        rw [lookupA_eraseA_ne _ hne]
        exact c2
    · rw [hE2seq]
      by_cases hsurv : 0 < best.quantity - fill
      · rw [if_pos hsurv]
        exact keys_insertA_nodup _ _ hndS
      · rw [if_neg hsurv]
        exact keys_eraseA_nodup _ hndS
    · rw [hE2id]
      by_cases hsurv : 0 < best.quantity - fill
      · rw [if_pos hsurv]
        exact keys_insertA_nodup _ _ hndI
      · rw [if_neg hsurv]
        exact keys_eraseA_nodup _ hndI
    · rw [hasks]
      exact hPA
    · rw [hE2bids]
      by_cases hsurv : 0 < best.quantity - fill
      · rw [if_pos hsurv]
        exact heapPush_sorted hrestP
      · rw [if_neg hsurv]
        exact hrestP
    · -- ask-entry conditions (asks unchanged, registry changed at s)
      intro en hen
      rw [hasks] at hen
      rw [hsc, hE2seq]
      obtain ⟨c1, c2⟩ := hEA en hen
      refine ⟨c1, fun o ho => ?_⟩
      by_cases hes : en.2 = s
      · exfalso
        have := (c2 best (by rw [hes]; exact hls)).2
        exact this hside
      · by_cases hsurv : 0 < best.quantity - fill
        · rw [if_pos hsurv, lookupA_insertA_ne _ _ hes] at ho
          exact c2 o ho
        · rw [if_neg hsurv, lookupA_eraseA_ne _ hes] at ho
          exact c2 o ho
    · -- bid-entry conditions
      intro en hen
      rw [hE2bids] at hen
      rw [hsc, hE2seq]
      have hrest_cond : en ∈ rest →
          en.2 < E.seqCounter ∧ ∀ o, lookupA E.bySeq en.2 = some o →
            en.1 = -o.price ∧ o.side = "buy" := fun hr =>
        hEB en (by rw [hbids0]; exact List.mem_cons_of_mem _ hr)
      by_cases hsurv : 0 < best.quantity - fill
      · rw [if_pos hsurv] at hen
        rw [if_pos hsurv]
        rcases mem_heapPush.mp hen with h1 | h1
        · rw [h1]
          refine ⟨hslt3, fun o ho => ?_⟩
          rw [lookupA_insertA_self] at ho
          cases ho
          exact ⟨rfl, hside⟩
        · obtain ⟨c1, c2⟩ := hrest_cond h1
          refine ⟨c1, fun o ho => ?_⟩
          by_cases hes : en.2 = s
          · rw [hes, lookupA_insertA_self] at ho
            cases ho
            have := c2 best (by rw [hes]; exact hls)
            exact ⟨this.1, this.2⟩
          · rw [lookupA_insertA_ne _ _ hes] at ho
            exact c2 o ho
      · rw [if_neg hsurv] at hen
        rw [if_neg hsurv]
        obtain ⟨c1, c2⟩ := hrest_cond hen
        refine ⟨c1, fun o ho => ?_⟩
        by_cases hes : en.2 = s
        · rw [hes, lookupA_eraseA_self _ hndS] at ho
          exact Option.noConfusion ho
        · rw [lookupA_eraseA_ne _ hes] at ho
          exact c2 o ho
    · -- completeness
      intro pr hpr
      rw [hE2seq] at hpr
      rw [hE2bids, hasks]
      by_cases hsurv : 0 < best.quantity - fill
      · rw [if_pos hsurv] at hpr
        rw [if_pos hsurv]
        rcases mem_insertA_nodup hndS hpr with h1 | ⟨h1, h2⟩
        · rw [h1]
          refine ⟨fun hns => ?_, fun _ => ?_⟩
          · exact absurd hside hns
          · exact mem_heapPush.mpr (Or.inl rfl)
        · obtain ⟨cs1, cs2⟩ := hC pr h1
          refine ⟨fun hns => cs1 hns, fun hb => ?_⟩
          have hmem := cs2 hb
          rw [hbids0] at hmem
          rcases List.mem_cons.mp hmem with h3 | h3
          · exfalso
            apply h2
            have := congrArg Prod.snd h3
            simpa using this
          · exact mem_heapPush.mpr (Or.inr h3)
      · rw [if_neg hsurv] at hpr
        rw [if_neg hsurv]
        obtain ⟨h2, h1⟩ := mem_eraseA_ne hndS hpr
        obtain ⟨cs1, cs2⟩ := hC pr h1
        refine ⟨fun hns => cs1 hns, fun hb => ?_⟩
        have hmem := cs2 hb
        rw [hbids0] at hmem
        rcases List.mem_cons.mp hmem with h3 | h3
        · exfalso
          apply h2
          have := congrArg Prod.snd h3
          simpa using this
        · exact h3
    · intro t ht
      rw [htr] at ht
      rw [hni]
      rcases List.mem_append.mp ht with h1 | h1
      · exact hT t h1
      · rw [List.mem_singleton.mp h1]
        exact ⟨hbidlt, htid⟩
    · rw [hni]
      exact hN
  refine ⟨hInv2, hasks, htr, hsc, hni, ?_, ?_, ?_, ?_, ?_, ?_, ?_⟩
  · intro j hj
    rw [hE2seq]
    have hjs : j ≠ s := by
      intro he
      rw [he, hls] at hj
      exact Option.noConfusion hj
    by_cases hsurv : 0 < best.quantity - fill
    · rw [if_pos hsurv, lookupA_insertA_ne _ _ hjs]
      exact hj
    · rw [if_neg hsurv, lookupA_eraseA_ne _ hjs]
      exact hj
  · intro i hi
    rw [hE2id]
    have his : i ≠ best.id := by
      intro he
      rw [he, hbcross1] at hi
      exact Option.noConfusion hi
    by_cases hsurv : 0 < best.quantity - fill
    · rw [if_pos hsurv, lookupA_insertA_ne _ _ his]
      exact hi
    · rw [if_neg hsurv, lookupA_eraseA_ne _ his]
      exact hi
  · rw [restingQty, hbcross1]
  · by_cases hsurv : 0 < best.quantity - fill
    · have h1 : lookupA E2.byId best.id =
          some { best with quantity := best.quantity - fill } := by
        rw [hE2id, if_pos hsurv]
        exact lookupA_insertA_self _ _ _
      rw [restingQty, h1]
    · have h1 : lookupA E2.byId best.id = none := by
        rw [hE2id, if_neg hsurv]
        exact lookupA_eraseA_self _ hndI
      simp [restingQty, h1]
      omega
  · intro i hi
    have h1 : lookupA E2.byId i = lookupA E.byId i := by
      rw [hE2id]
      by_cases hsurv : 0 < best.quantity - fill
      · rw [if_pos hsurv, lookupA_insertA_ne _ _ hi]
      · rw [if_neg hsurv, lookupA_eraseA_ne _ hi]
    rw [restingQty, restingQty, h1]
  · intro en hen
    rw [hE2bids] at hen
    by_cases hsurv : 0 < best.quantity - fill
    · rw [if_pos hsurv] at hen
      rcases mem_heapPush.mp hen with h1 | h1
      · right
        rw [h1]
        rw [show ((-best.price, s) : Entry).2 = s from rfl, hls]
        simp
      · exact Or.inl (by rw [hbids0]; exact List.mem_cons_of_mem _ h1)
    · rw [if_neg hsurv] at hen
      exact Or.inl (by rw [hbids0]; exact List.mem_cons_of_mem _ hen)
  · exact hE2seq

theorem fillsOf_nil (i : Nat) : fillsOf [] i = 0 := rfl

theorem fillsOf_cons (t : Trade) (tl : List Trade) (i : Nat) :
    fillsOf (t :: tl) i =
      (if t.maker_order_id = i ∨ t.taker_order_id = i then t.quantity else 0) +
        fillsOf tl i := by
  by_cases h : t.maker_order_id = i ∨ t.taker_order_id = i
  · simp [fillsOf, List.filter_cons, h, sumQ_cons]
  · simp [fillsOf, List.filter_cons, h]

theorem fillsOf_append (a b : List Trade) (i : Nat) :
    fillsOf (a ++ b) i = fillsOf a i + fillsOf b i := by
  simp [fillsOf, List.filter_append, sumQ_append]

/-- Invariant preservation and per-order accounting through `_match_buy`: the
invariant holds afterwards, the bid queue is untouched, every appended trade
names the taker, unregistered keys stay unregistered, and for every order id
other than the taker's, the quantity filled against it in the new trades plus
its remaining registered quantity equals its previously registered quantity. -/
theorem matchBuyF_inv (fuel : Nat) : ∀ (eng : Engine) (taker : Order),
    Inv eng → taker.id < eng.nextOrderId →
    ∃ new,
      Inv (matchBuyF eng taker fuel).2 ∧
      (matchBuyF eng taker fuel).2.bids = eng.bids ∧
      (matchBuyF eng taker fuel).2.trades = eng.trades ++ new ∧
      (∀ t ∈ new, t.taker_order_id = taker.id) ∧
      (∀ j, lookupA eng.bySeq j = none →
        lookupA (matchBuyF eng taker fuel).2.bySeq j = none) ∧
      (∀ i, lookupA eng.byId i = none →
        lookupA (matchBuyF eng taker fuel).2.byId i = none) ∧
      (∀ i, i ≠ taker.id →
        fillsOf new i + restingQty (matchBuyF eng taker fuel).2 i =
          restingQty eng i) ∧
      (∀ en ∈ (matchBuyF eng taker fuel).2.asks,
        en ∈ eng.asks ∨ ¬ lookupA eng.bySeq en.2 = none) := by
  induction fuel with
  | zero =>
    intro eng taker hinv htid
    rw [show matchBuyF eng taker 0 = (taker, eng) from rfl]
    exact ⟨[], hinv, rfl, by simp, by simp, fun j h => h, fun i h => h,
      fun i _ => by rw [fillsOf_nil]; exact (zero_add _).trans rfl,
      fun en hen => Or.inl hen⟩
  | succ fuel ih =>
    intro eng taker hinv htid
    by_cases hc : 0 < taker.quantity ∧ eng.asks ≠ []
    · cases hpkp : peekLoop eng.bySeq eng.asks with
      | mk L r =>
        cases r with
        | none =>
          rw [matchBuyF_break_none fuel hc hpkp]
          obtain ⟨dr0, hdr0, _⟩ := peekLoop_drop eng.bySeq eng.asks
          rw [hpkp] at hdr0
          exact ⟨[], inv_asks_shrink hinv hpkp, rfl, by simp, by simp,
            fun j h => h, fun i h => h,
            fun i _ => by rw [fillsOf_nil]; exact (zero_add _).trans rfl,
            fun en hen => Or.inl (by rw [hdr0]; exact List.mem_append_right _ hen)⟩
        | some best =>
          by_cases hbp : taker.price < best.price
          · rw [matchBuyF_break_price fuel hc hpkp hbp]
            obtain ⟨dr0, hdr0, _⟩ := peekLoop_drop eng.bySeq eng.asks
            rw [hpkp] at hdr0
            exact ⟨[], inv_asks_shrink hinv hpkp, rfl, by simp, by simp,
              fun j h => h, fun i h => h,
              fun i _ => by rw [fillsOf_nil]; exact (zero_add _).trans rfl,
              fun en hen => Or.inl (by rw [hdr0]; exact List.mem_append_right _ hen)⟩
          · rw [matchBuyF_step fuel hc hpkp hbp]
            obtain ⟨k, s, rest, hL, hls, hbq⟩ := peekLoop_some hpkp
            subst hL
            simp only [List.tail_cons]
            have hinvM : Inv { eng with asks := (k, s) :: rest } :=
              inv_asks_shrink hinv hpkp
            obtain ⟨hit_inv, hit_bids, hit_tr, hit_sc, hit_ni, hit_us, hit_ui,
              hit_rpre, hit_rpost, hit_rother, hit_en, hit_seqd⟩ :=
              iteration_buy hinvM rfl hls htid taker
                (min_le_right taker.quantity best.quantity)
                (lt_min hc.1 hbq) "buy"
                ((({ eng with asks := rest }).record_trade best.price
                  (min taker.quantity best.quantity) "buy" best.id
                  taker.id).cleanup taker best
                  (min taker.quantity best.quantity)).2 rfl
            set fill := min taker.quantity best.quantity with hfill
            set tc := (({ eng with asks := rest }).record_trade best.price fill
              "buy" best.id taker.id).cleanup taker best fill with htc
            have htc1 : tc.1 = { taker with quantity := taker.quantity - fill } :=
              cleanup_fst _ taker best fill
            have htid2 : tc.1.id < tc.2.nextOrderId := by
              rw [htc1, hit_ni]
              exact htid
            obtain ⟨new1, ih_inv, ih_bids, ih_tr, ih_tid, ih_us, ih_ui, ih_acct,
              ih_en⟩ := ih tc.2 tc.1 hit_inv htid2
            obtain ⟨dr0, hdr0, _⟩ := peekLoop_drop eng.bySeq eng.asks
            rw [hpkp] at hdr0
            refine ⟨(⟨eng.clock, best.price, fill, "buy", best.id, taker.id⟩ :
                Trade) :: new1, ih_inv, ?_, ?_, ?_, ?_, ?_, ?_, ?_⟩
            · rw [ih_bids, hit_bids]
            · rw [ih_tr, hit_tr]
              simp
            · intro t ht
              rcases List.mem_cons.mp ht with h1 | h1
              · rw [h1]
              · rw [ih_tid t h1, htc1]
            · intro j hj
              exact ih_us j (hit_us j hj)
            · intro i hi
              exact ih_ui i (hit_ui i hi)
            · intro i hi
              have hi2 : i ≠ tc.1.id := by
                rw [htc1]
                exact hi
              have hacct := ih_acct i hi2
              rw [fillsOf_cons]
              by_cases hib : i = best.id
              · rw [if_pos (Or.inl hib.symm)]
                have h1 := hit_rpre
                have h2 := hit_rpost
                rw [← hib] at h1 h2
                have h3 : restingQty { eng with asks := (k, s) :: rest } i =
                    restingQty eng i := rfl
                have h5 : (⟨eng.clock, best.price, fill, "buy", best.id,
                    taker.id⟩ : Trade).quantity = fill := rfl
                rw [h5]
                omega
              · rw [if_neg (by
                  intro hor
                  rcases hor with h1 | h1
                  · exact hib (by rw [← h1])
                  · exact hi (by rw [← h1]))]
                have h4 := hit_rother i (fun he => hib he)
                have h3 : restingQty { eng with asks := (k, s) :: rest } i =
                    restingQty eng i := rfl
                omega
            · intro en hen
              rcases ih_en en hen with h1 | h1
              · rcases hit_en en h1 with h2 | h2
                · exact Or.inl (by rw [hdr0]; exact List.mem_append_right _ h2)
                · exact Or.inr h2
              · refine Or.inr (fun h0 => h1 ?_)
                exact hit_us en.2 h0
    · rw [matchBuyF_stop fuel hc]
      exact ⟨[], hinv, rfl, by simp, by simp, fun j h => h, fun i h => h,
        fun i _ => by rw [fillsOf_nil]; exact (zero_add _).trans rfl,
        fun en hen => Or.inl hen⟩

/-- Invariant preservation and per-order accounting through `_match_sell`,
the mirror image of `matchBuyF_inv`. -/
theorem matchSellF_inv (fuel : Nat) : ∀ (eng : Engine) (taker : Order),
    Inv eng → taker.id < eng.nextOrderId →
    ∃ new,
      Inv (matchSellF eng taker fuel).2 ∧
      (matchSellF eng taker fuel).2.asks = eng.asks ∧
      (matchSellF eng taker fuel).2.trades = eng.trades ++ new ∧
      (∀ t ∈ new, t.taker_order_id = taker.id) ∧
      (∀ j, lookupA eng.bySeq j = none →
        lookupA (matchSellF eng taker fuel).2.bySeq j = none) ∧
      (∀ i, lookupA eng.byId i = none →
        lookupA (matchSellF eng taker fuel).2.byId i = none) ∧
      (∀ i, i ≠ taker.id →
        fillsOf new i + restingQty (matchSellF eng taker fuel).2 i =
          restingQty eng i) ∧
      (∀ en ∈ (matchSellF eng taker fuel).2.bids,
        en ∈ eng.bids ∨ ¬ lookupA eng.bySeq en.2 = none) := by
  induction fuel with
  | zero =>
    intro eng taker hinv htid
    rw [show matchSellF eng taker 0 = (taker, eng) from rfl]
    exact ⟨[], hinv, rfl, by simp, by simp, fun j h => h, fun i h => h,
      fun i _ => by rw [fillsOf_nil]; exact (zero_add _).trans rfl,
      fun en hen => Or.inl hen⟩
  | succ fuel ih =>
    intro eng taker hinv htid
    by_cases hc : 0 < taker.quantity ∧ eng.bids ≠ []
    · cases hpkp : peekLoop eng.bySeq eng.bids with
      | mk L r =>
        cases r with
        | none =>
          rw [matchSellF_break_none fuel hc hpkp]
          obtain ⟨dr0, hdr0, _⟩ := peekLoop_drop eng.bySeq eng.bids
          rw [hpkp] at hdr0
          exact ⟨[], inv_bids_shrink hinv hpkp, rfl, by simp, by simp,
            fun j h => h, fun i h => h,
            fun i _ => by rw [fillsOf_nil]; exact (zero_add _).trans rfl,
            fun en hen => Or.inl (by rw [hdr0]; exact List.mem_append_right _ hen)⟩
        | some best =>
          by_cases hbp : best.price < taker.price
          · rw [matchSellF_break_price fuel hc hpkp hbp]
            obtain ⟨dr0, hdr0, _⟩ := peekLoop_drop eng.bySeq eng.bids
            rw [hpkp] at hdr0
            exact ⟨[], inv_bids_shrink hinv hpkp, rfl, by simp, by simp,
              fun j h => h, fun i h => h,
              fun i _ => by rw [fillsOf_nil]; exact (zero_add _).trans rfl,
              fun en hen => Or.inl (by rw [hdr0]; exact List.mem_append_right _ hen)⟩
          · rw [matchSellF_step fuel hc hpkp hbp]
            obtain ⟨k, s, rest, hL, hls, hbq⟩ := peekLoop_some hpkp
            subst hL
            simp only [List.tail_cons]
            have hinvM : Inv { eng with bids := (k, s) :: rest } :=
              inv_bids_shrink hinv hpkp
            obtain ⟨hit_inv, hit_asks, hit_tr, hit_sc, hit_ni, hit_us, hit_ui,
              hit_rpre, hit_rpost, hit_rother, hit_en, hit_seqd⟩ :=
              iteration_sell hinvM rfl hls htid taker
                (min_le_right taker.quantity best.quantity) "sell"
                ((({ eng with bids := rest }).record_trade best.price
                  (min taker.quantity best.quantity) "sell" best.id
                  taker.id).cleanup taker best
                  (min taker.quantity best.quantity)).2 rfl
            set fill := min taker.quantity best.quantity with hfill
            set tc := (({ eng with bids := rest }).record_trade best.price fill
              "sell" best.id taker.id).cleanup taker best fill with htc
            have htc1 : tc.1 = { taker with quantity := taker.quantity - fill } :=
              cleanup_fst _ taker best fill
            have htid2 : tc.1.id < tc.2.nextOrderId := by
              rw [htc1, hit_ni]
              exact htid
            obtain ⟨new1, ih_inv, ih_asks, ih_tr, ih_tid, ih_us, ih_ui, ih_acct,
              ih_en⟩ := ih tc.2 tc.1 hit_inv htid2
            obtain ⟨dr0, hdr0, _⟩ := peekLoop_drop eng.bySeq eng.bids
            rw [hpkp] at hdr0
            refine ⟨(⟨eng.clock, best.price, fill, "sell", best.id, taker.id⟩ :
                Trade) :: new1, ih_inv, ?_, ?_, ?_, ?_, ?_, ?_, ?_⟩
            · rw [ih_asks, hit_asks]
            · rw [ih_tr, hit_tr]
              simp
            · intro t ht
              rcases List.mem_cons.mp ht with h1 | h1
              · rw [h1]
              · rw [ih_tid t h1, htc1]
            · intro j hj
              exact ih_us j (hit_us j hj)
            · intro i hi
              exact ih_ui i (hit_ui i hi)
            · intro i hi
              have hi2 : i ≠ tc.1.id := by
                rw [htc1]
                exact hi
              have hacct := ih_acct i hi2
              rw [fillsOf_cons]
              by_cases hib : i = best.id
              · rw [if_pos (Or.inl hib.symm)]
                have h1 := hit_rpre
                have h2 := hit_rpost
                rw [← hib] at h1 h2
                have h3 : restingQty { eng with bids := (k, s) :: rest } i =
                    restingQty eng i := rfl
                have h5 : (⟨eng.clock, best.price, fill, "sell", best.id,
                    taker.id⟩ : Trade).quantity = fill := rfl
                rw [h5]
                omega
              · rw [if_neg (by
                  intro hor
                  rcases hor with h1 | h1
                  · exact hib (by rw [← h1])
                  · exact hi (by rw [← h1]))]
                have h4 := hit_rother i (fun he => hib he)
                have h3 : restingQty { eng with bids := (k, s) :: rest } i =
                    restingQty eng i := rfl
                omega
            · intro en hen
              rcases ih_en en hen with h1 | h1
              · rcases hit_en en h1 with h2 | h2
                · exact Or.inl (by rw [hdr0]; exact List.mem_append_right _ h2)
                · exact Or.inr h2
              · refine Or.inr (fun h0 => h1 ?_)
                exact hit_us en.2 h0
    · rw [matchSellF_stop fuel hc]
      exact ⟨[], hinv, rfl, by simp, by simp, fun j h => h, fun i h => h,
        fun i _ => by rw [fillsOf_nil]; exact (zero_add _).trans rfl,
        fun en hen => Or.inl hen⟩

/-! ## Price-time priority through the matching loops -/

theorem new_nil_of_trades_eq {tr new : List Trade} (h : tr = tr ++ new) :
    new = [] := by
  have h1 : tr ++ ([] : List Trade) = tr ++ new := by simpa using h
  exact (List.append_cancel_left h1).symm

theorem split_ne_nil {new pre post : List Trade} {t2 : Trade}
    (h : new = pre ++ t2 :: post) : new ≠ [] := by
  intro h0
  rw [h0] at h
  have hlen : ([] : List Trade).length = (pre ++ t2 :: post).length := by rw [h]
  rw [List.length_nil, List.length_append, List.length_cons] at hlen
  omega

theorem new_cons_of_trades {tr : List Trade} {t : Trade} {new new1 : List Trade}
    (h : (tr ++ [t]) ++ new1 = tr ++ new) : new = t :: new1 := by
  rw [List.append_assoc] at h
  exact (List.append_cancel_left h).symm

/-- Price-time priority through `_match_buy`: if two registered ask-side
orders share price `P` and the first one has the smaller sequence number, then
among the trades this loop emits, any trade against the second order is
preceded by a trade against the first, and once the second order has traded
the first order has been fully consumed and removed from the registry. -/
theorem matchBuyF_priority (fuel : Nat) : ∀ (eng : Engine) (taker : Order)
    (s1 s2 i1 i2 : Nat) (P : Int),
    Inv eng → taker.id < eng.nextOrderId →
    (∃ o1, lookupA eng.bySeq s1 = some o1 ∧ o1.id = i1 ∧ o1.price = P ∧
      ¬ o1.side = "buy") →
    (∃ o2, lookupA eng.bySeq s2 = some o2 ∧ o2.id = i2 ∧ o2.price = P ∧
      ¬ o2.side = "buy") →
    s1 < s2 →
    ∀ new, (matchBuyF eng taker fuel).2.trades = eng.trades ++ new →
    ∀ pre t2 post, new = pre ++ t2 :: post → t2.maker_order_id = i2 →
      (∀ t ∈ pre, ¬ t.maker_order_id = i2) →
      (∃ t1 ∈ pre, t1.maker_order_id = i1) ∧
      lookupA (matchBuyF eng taker fuel).2.bySeq s1 = none := by
  induction fuel with
  | zero =>
    intro eng taker s1 s2 i1 i2 P hinv htid ho1 ho2 hs12 new hnew pre t2 post
      hsplit ht2 hpre
    rw [show matchBuyF eng taker 0 = (taker, eng) from rfl] at hnew
    exact absurd (new_nil_of_trades_eq hnew) (split_ne_nil hsplit)
  | succ fuel ih =>
    intro eng taker s1 s2 i1 i2 P hinv htid ho1 ho2 hs12 new hnew pre t2 post
      hsplit ht2 hpre
    obtain ⟨o1, hlo1, ho1id, ho1P, ho1side⟩ := ho1
    obtain ⟨o2, hlo2, ho2id, ho2P, ho2side⟩ := ho2
    by_cases hc : 0 < taker.quantity ∧ eng.asks ≠ []
    · cases hpkp : peekLoop eng.bySeq eng.asks with
      | mk L r =>
        cases r with
        | none =>
          rw [matchBuyF_break_none fuel hc hpkp] at hnew
          exact absurd (new_nil_of_trades_eq hnew) (split_ne_nil hsplit)
        | some best =>
          by_cases hbp : taker.price < best.price
          · rw [matchBuyF_break_price fuel hc hpkp hbp] at hnew
            exact absurd (new_nil_of_trades_eq hnew) (split_ne_nil hsplit)
          · rw [matchBuyF_step fuel hc hpkp hbp] at hnew ⊢
            obtain ⟨k, s, rest, hL, hls, hbq⟩ := peekLoop_some hpkp
            subst hL
            simp only [List.tail_cons] at hnew ⊢
            obtain ⟨dr0, hdr0, hstale⟩ := peekLoop_drop eng.bySeq eng.asks
            rw [hpkp] at hdr0
            have hdr1 : eng.asks = dr0 ++ (k, s) :: rest := hdr0
            obtain ⟨hS, hI, hndS, hndI, hPA, hPB, hEA, hEB, hC, hT, hN⟩ :=
              id hinv
            have hmem1 : (s1, o1) ∈ eng.bySeq := lookupA_mem hlo1
            have hmem2 : (s2, o2) ∈ eng.bySeq := lookupA_mem hlo2
            have ho1seq : o1.sequence = s1 := (hS (s1, o1) hmem1).1
            have ho1q : (0 : Int) < o1.quantity := (hS (s1, o1) hmem1).2.1
            have ho1cross : lookupA eng.byId o1.id = some o1 :=
              (hS (s1, o1) hmem1).2.2.2.2
            have ho2seq : o2.sequence = s2 := (hS (s2, o2) hmem2).1
            have ho2cross : lookupA eng.byId o2.id = some o2 :=
              (hS (s2, o2) hmem2).2.2.2.2
            have hi12 : i1 ≠ i2 := by
              intro he
              have he2 : o1.id = o2.id := by rw [ho1id, ho2id, he]
              rw [he2, ho2cross] at ho1cross
              have heq : o2 = o1 := Option.some.inj ho1cross
              rw [heq, ho1seq] at ho2seq
              omega
            have hen1 : ((o1.price, s1) : Entry) ∈ eng.asks :=
              (hC (s1, o1) hmem1).1 ho1side
            have hlive1 : ¬ staleE eng.bySeq ((o1.price, s1) : Entry) := by
              intro hst
              have h1 := hst o1 hlo1
              omega
            have hen1b : ((o1.price, s1) : Entry) ∈ (k, s) :: rest := by
              rw [hdr1] at hen1
              rcases List.mem_append.mp hen1 with h1 | h1
              · exact absurd (hstale _ h1) hlive1
              · exact h1
            have hmemA : ((k, s) : Entry) ∈ eng.asks := by
              rw [hdr1]
              exact List.mem_append_right _ (List.mem_cons_self _ _)
            have hss2 : s ≠ s2 := by
              intro he
              subst he
              rw [hls] at hlo2
              have hbo2 : best = o2 := Option.some.inj hlo2
              have hk1 : k = best.price := ((hEA (k, s) hmemA).2 best hls).1
              have hkP : k = P := by rw [hk1, hbo2, ho2P]
              rcases List.mem_cons.mp hen1b with h1 | h1
              · have h2 : s1 = s := congrArg Prod.snd h1
                omega
              · have hp2 : ((k, s) :: rest).Pairwise eLe := by
                  rw [hdr1] at hPA
                  exact (List.pairwise_append.mp hPA).2.1
                have hle : eLe (k, s) (o1.price, s1) :=
                  (List.pairwise_cons.mp hp2).1 _ h1
                have hle2 : k < o1.price ∨ (k = o1.price ∧ s ≤ s1) := hle
                rw [hkP, ho1P] at hle2
                rcases hle2 with h2 | h2
                · omega
                · omega
            have hinvM : Inv { eng with asks := (k, s) :: rest } :=
              inv_asks_shrink hinv hpkp
            obtain ⟨hit_inv, hit_bids, hit_tr, hit_sc, hit_ni, hit_us, hit_ui,
              hit_rpre, hit_rpost, hit_rother, hit_en, hit_seqd⟩ :=
              iteration_buy hinvM rfl hls htid taker
                (min_le_right taker.quantity best.quantity)
                (lt_min hc.1 hbq) "buy"
                ((({ eng with asks := rest }).record_trade best.price
                  (min taker.quantity best.quantity) "buy" best.id
                  taker.id).cleanup taker best
                  (min taker.quantity best.quantity)).2 rfl
            set fill := min taker.quantity best.quantity with hfill
            set tc := (({ eng with asks := rest }).record_trade best.price fill
              "buy" best.id taker.id).cleanup taker best fill with htc
            have htc1 : tc.1 = { taker with quantity := taker.quantity - fill } :=
              cleanup_fst _ taker best fill
            have htid2 : tc.1.id < tc.2.nextOrderId := by
              rw [htc1, hit_ni]
              exact htid
            obtain ⟨new1, ih2_inv, ih2_bids, ih2_tr, ih2_tid, ih2_us, ih2_ui,
              ih2_acct, ih2_en⟩ := matchBuyF_inv fuel tc.2 tc.1 hit_inv htid2
            have hit_tr2 : tc.2.trades = eng.trades ++
                [(⟨eng.clock, best.price, fill, "buy", best.id, taker.id⟩ :
                  Trade)] := hit_tr
            have hnew_eq : new = (⟨eng.clock, best.price, fill, "buy", best.id,
                taker.id⟩ : Trade) :: new1 := by
              rw [ih2_tr, hit_tr2] at hnew
              exact new_cons_of_trades hnew
            by_cases hss1 : s = s1
            · subst hss1
              rw [hls] at hlo1
              have hbo1 : best = o1 := Option.some.inj hlo1
              have hbid1 : best.id = i1 := by rw [hbo1, ho1id]
              rcases pre with _ | ⟨a, pre1⟩
              · rw [hnew_eq] at hsplit
                have h1 : (⟨eng.clock, best.price, fill, "buy", best.id,
                    taker.id⟩ : Trade) :: new1 = t2 :: post := hsplit
                have ht2a : (⟨eng.clock, best.price, fill, "buy", best.id,
                    taker.id⟩ : Trade) = t2 := (List.cons.inj h1).1
                rw [← ht2a] at ht2
                have hbid2 : best.id = i2 := ht2
                rw [hbid1] at hbid2
                exact absurd hbid2 hi12
              · rw [hnew_eq] at hsplit
                have h1 : (⟨eng.clock, best.price, fill, "buy", best.id,
                    taker.id⟩ : Trade) :: new1 = a :: (pre1 ++ t2 :: post) :=
                  hsplit
                have ha : a = (⟨eng.clock, best.price, fill, "buy", best.id,
                    taker.id⟩ : Trade) := ((List.cons.inj h1).1).symm
                have hnew1 : new1 = pre1 ++ t2 :: post := (List.cons.inj h1).2
                have hfst : ∃ t1 ∈ a :: pre1, t1.maker_order_id = i1 := by
                  refine ⟨a, List.mem_cons_self _ _, ?_⟩
                  rw [ha]
                  exact hbid1
                have hpre1 : ∀ t ∈ pre1, ¬ t.maker_order_id = i2 := fun t ht =>
                  hpre t (List.mem_cons_of_mem _ ht)
                by_cases hsurv : 0 < best.quantity - fill
                · have hlo1b : lookupA tc.2.bySeq s = some
                      { best with quantity := best.quantity - fill } := by
                    rw [hit_seqd, if_pos hsurv]
                    exact lookupA_insertA_self _ _ _
                  have hid1b : ({ best with quantity := best.quantity - fill } :
                      Order).id = i1 := hbid1
                  have hP1b : ({ best with quantity := best.quantity - fill } :
                      Order).price = P := by
                    show best.price = P
                    rw [hbo1, ho1P]
                  have hside1b : ¬ ({ best with quantity :=
                      best.quantity - fill } : Order).side = "buy" := by
                    show ¬ best.side = "buy"
                    rw [hbo1]
                    exact ho1side
                  have hlo2b : lookupA tc.2.bySeq s2 = some o2 := by
                    rw [hit_seqd, if_pos hsurv,
                      lookupA_insertA_ne _ _ (Ne.symm hss2)]
                    exact hlo2
                  have hrec := ih tc.2 tc.1 s s2 i1 i2 P hit_inv htid2
                    ⟨{ best with quantity := best.quantity - fill }, hlo1b,
                      hid1b, hP1b, hside1b⟩
                    ⟨o2, hlo2b, ho2id, ho2P, ho2side⟩ hs12 new1 ih2_tr
                    pre1 t2 post hnew1 ht2 hpre1
                  exact ⟨hfst, hrec.2⟩
                · have hgone : lookupA tc.2.bySeq s = none := by
                    rw [hit_seqd, if_neg hsurv]
                    exact lookupA_eraseA_self s hndS
                  exact ⟨hfst, ih2_us s hgone⟩
            · have hbmem : (s, best) ∈ eng.bySeq := lookupA_mem hls
              have hbseq : best.sequence = s := (hS (s, best) hbmem).1
              have hbcross : lookupA eng.byId best.id = some best :=
                (hS (s, best) hbmem).2.2.2.2
              have hbid1 : ¬ best.id = i1 := by
                intro he
                rw [← ho1id] at he
                rw [he, ho1cross] at hbcross
                have hb1 : o1 = best := Option.some.inj hbcross
                rw [← hb1, ho1seq] at hbseq
                exact hss1 hbseq.symm
              have hbid2 : ¬ best.id = i2 := by
                intro he
                rw [← ho2id] at he
                rw [he, ho2cross] at hbcross
                have hb1 : o2 = best := Option.some.inj hbcross
                rw [← hb1, ho2seq] at hbseq
                exact hss2 hbseq.symm
              rcases pre with _ | ⟨a, pre1⟩
              · rw [hnew_eq] at hsplit
                have h1 : (⟨eng.clock, best.price, fill, "buy", best.id,
                    taker.id⟩ : Trade) :: new1 = t2 :: post := hsplit
                have ht2a : (⟨eng.clock, best.price, fill, "buy", best.id,
                    taker.id⟩ : Trade) = t2 := (List.cons.inj h1).1
                rw [← ht2a] at ht2
                exact absurd (show best.id = i2 from ht2) hbid2
              · rw [hnew_eq] at hsplit
                have h1 : (⟨eng.clock, best.price, fill, "buy", best.id,
                    taker.id⟩ : Trade) :: new1 = a :: (pre1 ++ t2 :: post) :=
                  hsplit
                have hnew1 : new1 = pre1 ++ t2 :: post := (List.cons.inj h1).2
                have hlo1b : lookupA tc.2.bySeq s1 = some o1 := by
                  rw [hit_seqd]
                  by_cases hsurv : 0 < best.quantity - fill
                  · rw [if_pos hsurv,
                      lookupA_insertA_ne _ _ (Ne.symm hss1)]
                    exact hlo1
                  · rw [if_neg hsurv, lookupA_eraseA_ne _ (Ne.symm hss1)]
                    exact hlo1
                have hlo2b : lookupA tc.2.bySeq s2 = some o2 := by
                  rw [hit_seqd]
                  by_cases hsurv : 0 < best.quantity - fill
                  · rw [if_pos hsurv,
                      lookupA_insertA_ne _ _ (Ne.symm hss2)]
                    exact hlo2
                  · rw [if_neg hsurv, lookupA_eraseA_ne _ (Ne.symm hss2)]
                    exact hlo2
                have hpre1 : ∀ t ∈ pre1, ¬ t.maker_order_id = i2 := fun t ht =>
                  hpre t (List.mem_cons_of_mem _ ht)
                obtain ⟨⟨t1, ht1mem, ht1mk⟩, hnone⟩ :=
                  ih tc.2 tc.1 s1 s2 i1 i2 P hit_inv htid2
                    ⟨o1, hlo1b, ho1id, ho1P, ho1side⟩
                    ⟨o2, hlo2b, ho2id, ho2P, ho2side⟩ hs12 new1 ih2_tr
                    pre1 t2 post hnew1 ht2 hpre1
                exact ⟨⟨t1, List.mem_cons_of_mem _ ht1mem, ht1mk⟩, hnone⟩
    · rw [matchBuyF_stop fuel hc] at hnew
      exact absurd (new_nil_of_trades_eq hnew) (split_ne_nil hsplit)


/-- Price-time priority through `_match_sell`, the mirror image of
`matchBuyF_priority` for two registered bid-side orders of equal price (the
bid queue is keyed by negated price, so equal prices give equal keys and the
sequence number decides). -/
theorem matchSellF_priority (fuel : Nat) : ∀ (eng : Engine) (taker : Order)
    (s1 s2 i1 i2 : Nat) (P : Int),
    Inv eng → taker.id < eng.nextOrderId →
    (∃ o1, lookupA eng.bySeq s1 = some o1 ∧ o1.id = i1 ∧ o1.price = P ∧
      o1.side = "buy") →
    (∃ o2, lookupA eng.bySeq s2 = some o2 ∧ o2.id = i2 ∧ o2.price = P ∧
      o2.side = "buy") →
    s1 < s2 →
    ∀ new, (matchSellF eng taker fuel).2.trades = eng.trades ++ new →
    ∀ pre t2 post, new = pre ++ t2 :: post → t2.maker_order_id = i2 →
      (∀ t ∈ pre, ¬ t.maker_order_id = i2) →
      (∃ t1 ∈ pre, t1.maker_order_id = i1) ∧
      lookupA (matchSellF eng taker fuel).2.bySeq s1 = none := by
  induction fuel with
  | zero =>
    intro eng taker s1 s2 i1 i2 P hinv htid ho1 ho2 hs12 new hnew pre t2 post
      hsplit ht2 hpre
    rw [show matchSellF eng taker 0 = (taker, eng) from rfl] at hnew
    exact absurd (new_nil_of_trades_eq hnew) (split_ne_nil hsplit)
  | succ fuel ih =>
    intro eng taker s1 s2 i1 i2 P hinv htid ho1 ho2 hs12 new hnew pre t2 post
      hsplit ht2 hpre
    obtain ⟨o1, hlo1, ho1id, ho1P, ho1side⟩ := ho1
    obtain ⟨o2, hlo2, ho2id, ho2P, ho2side⟩ := ho2
    by_cases hc : 0 < taker.quantity ∧ eng.bids ≠ []
    · cases hpkp : peekLoop eng.bySeq eng.bids with
      | mk L r =>
        cases r with
        | none =>
          rw [matchSellF_break_none fuel hc hpkp] at hnew
          exact absurd (new_nil_of_trades_eq hnew) (split_ne_nil hsplit)
        | some best =>
          by_cases hbp : best.price < taker.price
          · rw [matchSellF_break_price fuel hc hpkp hbp] at hnew
            exact absurd (new_nil_of_trades_eq hnew) (split_ne_nil hsplit)
          · rw [matchSellF_step fuel hc hpkp hbp] at hnew ⊢
            obtain ⟨k, s, rest, hL, hls, hbq⟩ := peekLoop_some hpkp
            subst hL
            simp only [List.tail_cons] at hnew ⊢
            obtain ⟨dr0, hdr0, hstale⟩ := peekLoop_drop eng.bySeq eng.bids
            rw [hpkp] at hdr0
            have hdr1 : eng.bids = dr0 ++ (k, s) :: rest := hdr0
            obtain ⟨hS, hI, hndS, hndI, hPA, hPB, hEA, hEB, hC, hT, hN⟩ :=
              id hinv
            have hmem1 : (s1, o1) ∈ eng.bySeq := lookupA_mem hlo1
            have hmem2 : (s2, o2) ∈ eng.bySeq := lookupA_mem hlo2
            have ho1seq : o1.sequence = s1 := (hS (s1, o1) hmem1).1
            have ho1q : (0 : Int) < o1.quantity := (hS (s1, o1) hmem1).2.1
            have ho1cross : lookupA eng.byId o1.id = some o1 :=
              (hS (s1, o1) hmem1).2.2.2.2
            have ho2seq : o2.sequence = s2 := (hS (s2, o2) hmem2).1
            have ho2cross : lookupA eng.byId o2.id = some o2 :=
              (hS (s2, o2) hmem2).2.2.2.2
            have hi12 : i1 ≠ i2 := by
              intro he
              have he2 : o1.id = o2.id := by rw [ho1id, ho2id, he]
              rw [he2, ho2cross] at ho1cross
              have heq : o2 = o1 := Option.some.inj ho1cross
              rw [heq, ho1seq] at ho2seq
              omega
            have hen1 : ((-o1.price, s1) : Entry) ∈ eng.bids :=
              (hC (s1, o1) hmem1).2 ho1side
            have hlive1 : ¬ staleE eng.bySeq ((-o1.price, s1) : Entry) := by
              intro hst
              have h1 := hst o1 hlo1
              omega
            have hen1b : ((-o1.price, s1) : Entry) ∈ (k, s) :: rest := by
              rw [hdr1] at hen1
              rcases List.mem_append.mp hen1 with h1 | h1
              · exact absurd (hstale _ h1) hlive1
              · exact h1
            have hmemB : ((k, s) : Entry) ∈ eng.bids := by
              rw [hdr1]
              exact List.mem_append_right _ (List.mem_cons_self _ _)
            have hss2 : s ≠ s2 := by
              intro he
              subst he
              rw [hls] at hlo2
              have hbo2 : best = o2 := Option.some.inj hlo2
              have hk1 : k = -best.price := ((hEB (k, s) hmemB).2 best hls).1
              have hkP : k = -P := by rw [hk1, hbo2, ho2P]
              rcases List.mem_cons.mp hen1b with h1 | h1
              · have h2 : s1 = s := congrArg Prod.snd h1
                omega
              · have hp2 : ((k, s) :: rest).Pairwise eLe := by
                  rw [hdr1] at hPB
                  exact (List.pairwise_append.mp hPB).2.1
                have hle : eLe (k, s) (-o1.price, s1) :=
                  (List.pairwise_cons.mp hp2).1 _ h1
                have hle2 : k < -o1.price ∨ (k = -o1.price ∧ s ≤ s1) := hle
                rw [hkP, ho1P] at hle2
                rcases hle2 with h2 | h2
                · omega
                · omega
            have hinvM : Inv { eng with bids := (k, s) :: rest } :=
              inv_bids_shrink hinv hpkp
            obtain ⟨hit_inv, hit_asks, hit_tr, hit_sc, hit_ni, hit_us, hit_ui,
              hit_rpre, hit_rpost, hit_rother, hit_en, hit_seqd⟩ :=
              iteration_sell hinvM rfl hls htid taker
                (min_le_right taker.quantity best.quantity) "sell"
                ((({ eng with bids := rest }).record_trade best.price
                  (min taker.quantity best.quantity) "sell" best.id
                  taker.id).cleanup taker best
                  (min taker.quantity best.quantity)).2 rfl
            set fill := min taker.quantity best.quantity with hfill
            set tc := (({ eng with bids := rest }).record_trade best.price fill
              "sell" best.id taker.id).cleanup taker best fill with htc
            have htc1 : tc.1 = { taker with quantity := taker.quantity - fill } :=
              cleanup_fst _ taker best fill
            have htid2 : tc.1.id < tc.2.nextOrderId := by
              rw [htc1, hit_ni]
              exact htid
            obtain ⟨new1, ih2_inv, ih2_asks, ih2_tr, ih2_tid, ih2_us, ih2_ui,
              ih2_acct, ih2_en⟩ := matchSellF_inv fuel tc.2 tc.1 hit_inv htid2
            have hit_tr2 : tc.2.trades = eng.trades ++
                [(⟨eng.clock, best.price, fill, "sell", best.id, taker.id⟩ :
                  Trade)] := hit_tr
            have hnew_eq : new = (⟨eng.clock, best.price, fill, "sell", best.id,
                taker.id⟩ : Trade) :: new1 := by
              rw [ih2_tr, hit_tr2] at hnew
              exact new_cons_of_trades hnew
            by_cases hss1 : s = s1
            · subst hss1
              rw [hls] at hlo1
              have hbo1 : best = o1 := Option.some.inj hlo1
              have hbid1 : best.id = i1 := by rw [hbo1, ho1id]
              rcases pre with _ | ⟨a, pre1⟩
              · rw [hnew_eq] at hsplit
                have h1 : (⟨eng.clock, best.price, fill, "sell", best.id,
                    taker.id⟩ : Trade) :: new1 = t2 :: post := hsplit
                have ht2a : (⟨eng.clock, best.price, fill, "sell", best.id,
                    taker.id⟩ : Trade) = t2 := (List.cons.inj h1).1
                rw [← ht2a] at ht2
                have hbid2 : best.id = i2 := ht2
                rw [hbid1] at hbid2
                exact absurd hbid2 hi12
              · rw [hnew_eq] at hsplit
                have h1 : (⟨eng.clock, best.price, fill, "sell", best.id,
                    taker.id⟩ : Trade) :: new1 = a :: (pre1 ++ t2 :: post) :=
                  hsplit
                have ha : a = (⟨eng.clock, best.price, fill, "sell", best.id,
                    taker.id⟩ : Trade) := ((List.cons.inj h1).1).symm
                have hnew1 : new1 = pre1 ++ t2 :: post := (List.cons.inj h1).2
                have hfst : ∃ t1 ∈ a :: pre1, t1.maker_order_id = i1 := by
                  refine ⟨a, List.mem_cons_self _ _, ?_⟩
                  rw [ha]
                  exact hbid1
                have hpre1 : ∀ t ∈ pre1, ¬ t.maker_order_id = i2 := fun t ht =>
                  hpre t (List.mem_cons_of_mem _ ht)
                by_cases hsurv : 0 < best.quantity - fill
                · have hlo1b : lookupA tc.2.bySeq s = some
                      { best with quantity := best.quantity - fill } := by
                    rw [hit_seqd, if_pos hsurv]
                    exact lookupA_insertA_self _ _ _
                  have hid1b : ({ best with quantity := best.quantity - fill } :
                      Order).id = i1 := hbid1
                  have hP1b : ({ best with quantity := best.quantity - fill } :
                      Order).price = P := by
                    show best.price = P
                    rw [hbo1, ho1P]
                  have hside1b : ({ best with quantity :=
                      best.quantity - fill } : Order).side = "buy" := by
                    show best.side = "buy"
                    rw [hbo1]
                    exact ho1side
                  have hlo2b : lookupA tc.2.bySeq s2 = some o2 := by
                    rw [hit_seqd, if_pos hsurv,
                      lookupA_insertA_ne _ _ (Ne.symm hss2)]
                    exact hlo2
                  have hrec := ih tc.2 tc.1 s s2 i1 i2 P hit_inv htid2
                    ⟨{ best with quantity := best.quantity - fill }, hlo1b,
                      hid1b, hP1b, hside1b⟩
                    ⟨o2, hlo2b, ho2id, ho2P, ho2side⟩ hs12 new1 ih2_tr
                    pre1 t2 post hnew1 ht2 hpre1
                  exact ⟨hfst, hrec.2⟩
                · have hgone : lookupA tc.2.bySeq s = none := by
                    rw [hit_seqd, if_neg hsurv]
                    exact lookupA_eraseA_self s hndS
                  exact ⟨hfst, ih2_us s hgone⟩
            · have hbmem : (s, best) ∈ eng.bySeq := lookupA_mem hls
              have hbseq : best.sequence = s := (hS (s, best) hbmem).1
              have hbcross : lookupA eng.byId best.id = some best :=
                (hS (s, best) hbmem).2.2.2.2
              have hbid1 : ¬ best.id = i1 := by
                intro he
                rw [← ho1id] at he
                rw [he, ho1cross] at hbcross
                have hb1 : o1 = best := Option.some.inj hbcross
                rw [← hb1, ho1seq] at hbseq
                exact hss1 hbseq.symm
              have hbid2 : ¬ best.id = i2 := by
                intro he
                rw [← ho2id] at he
                rw [he, ho2cross] at hbcross
                have hb1 : o2 = best := Option.some.inj hbcross
                rw [← hb1, ho2seq] at hbseq
                exact hss2 hbseq.symm
              rcases pre with _ | ⟨a, pre1⟩
              · rw [hnew_eq] at hsplit
                have h1 : (⟨eng.clock, best.price, fill, "sell", best.id,
                    taker.id⟩ : Trade) :: new1 = t2 :: post := hsplit
                have ht2a : (⟨eng.clock, best.price, fill, "sell", best.id,
                    taker.id⟩ : Trade) = t2 := (List.cons.inj h1).1
                rw [← ht2a] at ht2
                exact absurd (show best.id = i2 from ht2) hbid2
              · rw [hnew_eq] at hsplit
                have h1 : (⟨eng.clock, best.price, fill, "sell", best.id,
                    taker.id⟩ : Trade) :: new1 = a :: (pre1 ++ t2 :: post) :=
                  hsplit
                have hnew1 : new1 = pre1 ++ t2 :: post := (List.cons.inj h1).2
                have hlo1b : lookupA tc.2.bySeq s1 = some o1 := by
                  rw [hit_seqd]
                  by_cases hsurv : 0 < best.quantity - fill
                  · rw [if_pos hsurv,
                      lookupA_insertA_ne _ _ (Ne.symm hss1)]
                    exact hlo1
                  · rw [if_neg hsurv, lookupA_eraseA_ne _ (Ne.symm hss1)]
                    exact hlo1
                have hlo2b : lookupA tc.2.bySeq s2 = some o2 := by
                  rw [hit_seqd]
                  by_cases hsurv : 0 < best.quantity - fill
                  · rw [if_pos hsurv,
                      lookupA_insertA_ne _ _ (Ne.symm hss2)]
                    exact hlo2
                  · rw [if_neg hsurv, lookupA_eraseA_ne _ (Ne.symm hss2)]
                    exact hlo2
                have hpre1 : ∀ t ∈ pre1, ¬ t.maker_order_id = i2 := fun t ht =>
                  hpre t (List.mem_cons_of_mem _ ht)
                obtain ⟨⟨t1, ht1mem, ht1mk⟩, hnone⟩ :=
                  ih tc.2 tc.1 s1 s2 i1 i2 P hit_inv htid2
                    ⟨o1, hlo1b, ho1id, ho1P, ho1side⟩
                    ⟨o2, hlo2b, ho2id, ho2P, ho2side⟩ hs12 new1 ih2_tr
                    pre1 t2 post hnew1 ht2 hpre1
                exact ⟨⟨t1, List.mem_cons_of_mem _ ht1mem, ht1mk⟩, hnone⟩
    · rw [matchSellF_stop fuel hc] at hnew
      exact absurd (new_nil_of_trades_eq hnew) (split_ne_nil hsplit)


theorem inv_addAlloc {eng : Engine} (hinv : Inv eng) : Inv (addAlloc eng) := by
  obtain ⟨hS, hI, hndS, hndI, hPA, hPB, hEA, hEB, hC, hT, hN⟩ := hinv
  refine ⟨?_, hI, hndS, hndI, hPA, hPB, ?_, ?_, hC, ?_, ?_⟩
  · intro pr hpr
    obtain ⟨c1, c2, c3, c4, c5⟩ := hS pr hpr
    exact ⟨c1, c2, Nat.lt_succ_of_lt c3, Nat.lt_succ_of_lt c4, c5⟩
  · intro en hen
    obtain ⟨c1, c2⟩ := hEA en hen
    exact ⟨Nat.lt_succ_of_lt c1, c2⟩
  · intro en hen
    obtain ⟨c1, c2⟩ := hEB en hen
    exact ⟨Nat.lt_succ_of_lt c1, c2⟩
  · intro t ht
    obtain ⟨c1, c2⟩ := hT t ht
    exact ⟨Nat.lt_succ_of_lt c1, Nat.lt_succ_of_lt c2⟩
  · exact Nat.le_succ_of_le hN

theorem inv_fresh_seq {eng : Engine} (hinv : Inv eng) :
    lookupA eng.bySeq eng.seqCounter = none := by
  cases h : lookupA eng.bySeq eng.seqCounter with
  | none => rfl
  | some o =>
    have h1 := (hinv.1 (eng.seqCounter, o) (lookupA_mem h)).2.2.1
    omega

theorem inv_fresh_id {eng : Engine} (hinv : Inv eng) :
    lookupA eng.byId eng.nextOrderId = none := by
  cases h : lookupA eng.byId eng.nextOrderId with
  | none => rfl
  | some o =>
    have h1 := (hinv.2.1 (eng.nextOrderId, o) (lookupA_mem h)).1
    have h2 := (hinv.1 (o.sequence, o) (lookupA_mem
      (hinv.2.1 (eng.nextOrderId, o) (lookupA_mem h)).2)).2.2.2.1
    have h1a : o.id = eng.nextOrderId := h1
    have h2a : o.id < eng.nextOrderId := h2
    omega

/-- Registering a fresh, live order (and pushing its queue entry) preserves
the invariant. -/
theorem register_inv {E2 : Engine} (hinv : Inv E2) {o : Order}
    (hq : 0 < o.quantity)
    (hsc : E2.seqCounter = o.sequence + 1)
    (hni : E2.nextOrderId = o.id + 1)
    (hfs : lookupA E2.bySeq o.sequence = none)
    (hfi : lookupA E2.byId o.id = none)
    (hena : ∀ en ∈ E2.asks, en.2 ≠ o.sequence)
    (henb : ∀ en ∈ E2.bids, en.2 ≠ o.sequence)
    {ks ki : Nat} (hks : ks = o.sequence) (hki : ki = o.id) :
    ∀ E4, E4 = ({ E2 with bySeq := insertA ks o E2.bySeq,
                          byId := insertA ki o E2.byId } : Engine).push o →
    Inv E4 := by
  subst hks
  subst hki
  intro E4 hE4
  obtain ⟨hS, hI, hndS, hndI, hPA, hPB, hEA, hEB, hC, hT, hN⟩ := hinv
  have h1 : E4.bySeq = insertA o.sequence o E2.bySeq := by
    rw [hE4, push_bySeq]
  have h2 : E4.byId = insertA o.id o E2.byId := by
    rw [hE4, push_byId]
  have h3 : E4.seqCounter = E2.seqCounter := by
    rw [hE4, push_seqCounter]
  have h4 : E4.nextOrderId = E2.nextOrderId := by
    rw [hE4, push_nextOrderId]
  have h5 : E4.trades = E2.trades := by
    rw [hE4, push_trades]
  have hSnew : ∀ pr ∈ insertA o.sequence o E2.bySeq,
      pr.2.sequence = pr.1 ∧ 0 < pr.2.quantity ∧ pr.1 < E2.seqCounter ∧
      pr.2.id < E2.nextOrderId ∧
      lookupA (insertA o.id o E2.byId) pr.2.id = some pr.2 := by
    intro pr hpr
    rcases mem_insertA_nodup hndS hpr with hp | ⟨hp, hp2⟩
    · rw [hp]
      refine ⟨rfl, hq, ?_, ?_, lookupA_insertA_self _ _ _⟩
      · show o.sequence < E2.seqCounter
        omega
      · show o.id < E2.nextOrderId
        omega
    · obtain ⟨c1, c2, c3, c4, c5⟩ := hS pr hp
      have hne : pr.2.id ≠ o.id := by
        intro he
        rw [he] at c5
        rw [hfi] at c5
        exact Option.noConfusion c5
      refine ⟨c1, c2, c3, c4, ?_⟩
      rw [lookupA_insertA_ne _ _ hne]
      exact c5
  have hInew : ∀ pr ∈ insertA o.id o E2.byId,
      pr.2.id = pr.1 ∧
      lookupA (insertA o.sequence o E2.bySeq) pr.2.sequence = some pr.2 := by
    intro pr hpr
    rcases mem_insertA_nodup hndI hpr with hp | ⟨hp, hp2⟩
    · rw [hp]
      exact ⟨rfl, lookupA_insertA_self _ _ _⟩
    · obtain ⟨c1, c2⟩ := hI pr hp
      have hne : pr.2.sequence ≠ o.sequence := by
        intro he
        rw [he] at c2
        rw [hfs] at c2
        exact Option.noConfusion c2
      refine ⟨c1, ?_⟩
      rw [lookupA_insertA_ne _ _ hne]
      exact c2
  have hEAnew : ∀ en ∈ E2.asks, en.2 < E2.seqCounter ∧
      ∀ o1, lookupA (insertA o.sequence o E2.bySeq) en.2 = some o1 →
        en.1 = o1.price ∧ ¬ o1.side = "buy" := by
    intro en hen
    obtain ⟨c1, c2⟩ := hEA en hen
    refine ⟨c1, fun o1 ho1 => ?_⟩
    rw [lookupA_insertA_ne _ _ (hena en hen)] at ho1
    exact c2 o1 ho1
  have hEBnew : ∀ en ∈ E2.bids, en.2 < E2.seqCounter ∧
      ∀ o1, lookupA (insertA o.sequence o E2.bySeq) en.2 = some o1 →
        en.1 = -o1.price ∧ o1.side = "buy" := by
    intro en hen
    obtain ⟨c1, c2⟩ := hEB en hen
    refine ⟨c1, fun o1 ho1 => ?_⟩
    rw [lookupA_insertA_ne _ _ (henb en hen)] at ho1
    exact c2 o1 ho1
  by_cases hside : o.side = "buy"
  · have h6 : E4.bids = heapPush (-o.price, o.sequence) E2.bids := by
      rw [hE4, push_buy _ hside]
    have h7 : E4.asks = E2.asks := by
      rw [hE4, push_asks_of_buy _ hside]
    refine ⟨?_, ?_, ?_, ?_, ?_, ?_, ?_, ?_, ?_, ?_, ?_⟩
    · rw [h1, h3, h4, h2]
      exact hSnew
    · rw [h2, h1]
      exact hInew
    · rw [h1]
      exact keys_insertA_nodup _ _ hndS
    · rw [h2]
      exact keys_insertA_nodup _ _ hndI
    · rw [h7]
      exact hPA
    · rw [h6]
      exact heapPush_sorted hPB
    · intro en hen
      rw [h7] at hen
      rw [h3, h1]
      exact hEAnew en hen
    · intro en hen
      rw [h6] at hen
      rw [h3, h1]
      rcases mem_heapPush.mp hen with he | he
      · rw [he]
        refine ⟨by omega, fun o1 ho1 => ?_⟩
        rw [show ((-o.price, o.sequence) : Entry).2 = o.sequence from rfl,
          lookupA_insertA_self] at ho1
        cases ho1
        exact ⟨rfl, hside⟩
      · exact hEBnew en he
    · intro pr hpr
      rw [h1] at hpr
      rw [h7, h6]
      rcases mem_insertA_nodup hndS hpr with hp | ⟨hp, hp2⟩
      · rw [hp]
        exact ⟨fun hns => absurd hside hns,
          fun _ => mem_heapPush.mpr (Or.inl rfl)⟩
      · obtain ⟨c1, c2⟩ := hC pr hp
        exact ⟨c1, fun hb => mem_heapPush.mpr (Or.inr (c2 hb))⟩
    · intro t ht
      rw [h5] at ht
      rw [h4]
      exact hT t ht
    · rw [h4]
      exact hN
  · have h6 : E4.asks = heapPush (o.price, o.sequence) E2.asks := by
      rw [hE4, push_nonbuy _ hside]
    have h7 : E4.bids = E2.bids := by
      rw [hE4, push_bids_of_nonbuy _ hside]
    refine ⟨?_, ?_, ?_, ?_, ?_, ?_, ?_, ?_, ?_, ?_, ?_⟩
    · rw [h1, h3, h4, h2]
      exact hSnew
    · rw [h2, h1]
      exact hInew
    · rw [h1]
      exact keys_insertA_nodup _ _ hndS
    · rw [h2]
      exact keys_insertA_nodup _ _ hndI
    · rw [h6]
      exact heapPush_sorted hPA
    · rw [h7]
      exact hPB
    · intro en hen
      rw [h6] at hen
      rw [h3, h1]
      rcases mem_heapPush.mp hen with he | he
      · rw [he]
        refine ⟨by omega, fun o1 ho1 => ?_⟩
        rw [show ((o.price, o.sequence) : Entry).2 = o.sequence from rfl,
          lookupA_insertA_self] at ho1
        cases ho1
        exact ⟨rfl, hside⟩
      · exact hEAnew en he
    · intro en hen
      rw [h7] at hen
      rw [h3, h1]
      exact hEBnew en hen
    · intro pr hpr
      rw [h1] at hpr
      rw [h7, h6]
      rcases mem_insertA_nodup hndS hpr with hp | ⟨hp, hp2⟩
      · rw [hp]
        exact ⟨fun _ => mem_heapPush.mpr (Or.inl rfl),
          fun hb => absurd hb hside⟩
      · obtain ⟨c1, c2⟩ := hC pr hp
        exact ⟨fun hns => mem_heapPush.mpr (Or.inr (c1 hns)), c2⟩
    · intro t ht
      rw [h5] at ht
      rw [h4]
      exact hT t ht
    · rw [h4]
      exact hN

theorem fillsOf_taker {new : List Trade} {i : Nat}
    (h : ∀ t ∈ new, t.taker_order_id = i) : fillsOf new i = sumQ new := by
  induction new with
  | nil => rfl
  | cons t tl ih =>
    rw [fillsOf_cons, sumQ_cons,
      if_pos (Or.inr (h t (List.mem_cons_self t tl))),
      ih fun t1 h1 => h t1 (List.mem_cons_of_mem _ h1)]

/-- Invariant preservation and accounting through the matching phase of
`add_order`, both sides combined. -/
theorem addRes_inv (eng : Engine) (side : String) (price q : Int)
    (hinv : Inv eng) :
    ∃ new,
      Inv (addRes eng side price q).2 ∧
      (addRes eng side price q).2.trades = eng.trades ++ new ∧
      (∀ t ∈ new, t.taker_order_id = eng.nextOrderId) ∧
      (∀ j, lookupA eng.bySeq j = none →
        lookupA (addRes eng side price q).2.bySeq j = none) ∧
      (∀ i, lookupA eng.byId i = none →
        lookupA (addRes eng side price q).2.byId i = none) ∧
      (∀ i, i ≠ eng.nextOrderId →
        fillsOf new i + restingQty (addRes eng side price q).2 i =
          restingQty eng i) ∧
      (∀ en ∈ (addRes eng side price q).2.asks, en.2 ≠ eng.seqCounter) ∧
      (∀ en ∈ (addRes eng side price q).2.bids, en.2 ≠ eng.seqCounter) := by
  have hinv0 : Inv (addAlloc eng) := inv_addAlloc hinv
  have hfseq : lookupA eng.bySeq eng.seqCounter = none := inv_fresh_seq hinv
  have hbidbound : ∀ en, en ∈ eng.bids → en.2 ≠ eng.seqCounter := by
    intro en hen he
    have h1 := (hinv.2.2.2.2.2.2.2.1 en hen).1
    omega
  have haskbound : ∀ en, en ∈ eng.asks → en.2 ≠ eng.seqCounter := by
    intro en hen he
    have h1 := (hinv.2.2.2.2.2.2.1 en hen).1
    omega
  by_cases hs : side = "buy"
  · rw [show addRes eng side price q =
        matchBuyF (addAlloc eng) (addTaker eng side price q) q.toNat by
      simp [addRes, hs]]
    obtain ⟨new, c_inv, c_bids, c_tr, c_tid, c_us, c_ui, c_acct, c_en⟩ :=
      matchBuyF_inv q.toNat (addAlloc eng) (addTaker eng side price q)
        hinv0 (Nat.lt_succ_self eng.nextOrderId)
    refine ⟨new, c_inv, c_tr, c_tid, c_us, c_ui, ?_, ?_, ?_⟩
    · intro i hi
      exact c_acct i hi
    · intro en hen
      rcases c_en en hen with h1 | h1
      · exact haskbound en h1
      · intro he
        rw [he] at h1
        exact h1 hfseq
    · intro en hen
      rw [c_bids] at hen
      exact hbidbound en hen
  · rw [show addRes eng side price q =
        matchSellF (addAlloc eng) (addTaker eng side price q) q.toNat by
      simp [addRes, hs]]
    obtain ⟨new, c_inv, c_asks, c_tr, c_tid, c_us, c_ui, c_acct, c_en⟩ :=
      matchSellF_inv q.toNat (addAlloc eng) (addTaker eng side price q)
        hinv0 (Nat.lt_succ_self eng.nextOrderId)
    refine ⟨new, c_inv, c_tr, c_tid, c_us, c_ui, ?_, ?_, ?_⟩
    · intro i hi
      exact c_acct i hi
    · intro en hen
      rw [c_asks] at hen
      exact haskbound en hen
    · intro en hen
      rcases c_en en hen with h1 | h1
      · exact hbidbound en h1
      · intro he
        rw [he] at h1
        exact h1 hfseq

/-- Invariant preservation and per-order accounting through a full
`add_order` call. -/
theorem add_order_inv (eng : Engine) (side : String) (price q : Int)
    (hinv : Inv eng) :
    Inv (eng.add_order side price q).1 ∧
    (∃ new, ((eng.add_order side price q).1).trades = eng.trades ++ new ∧
      (∀ t ∈ new, t.taker_order_id = eng.nextOrderId) ∧
      (∀ i, i ≠ eng.nextOrderId →
        fillsOf new i + restingQty (eng.add_order side price q).1 i =
          restingQty eng i) ∧
      (0 < q → fillsOf new eng.nextOrderId +
        restingQty (eng.add_order side price q).1 eng.nextOrderId = q)) ∧
    ((eng.add_order side price q).2 = 0 →
      lookupA ((eng.add_order side price q).1).byId eng.nextOrderId = none ∧
      lookupA ((eng.add_order side price q).1).bySeq eng.seqCounter = none) := by
  by_cases hq : q ≤ 0
  · rw [add_order_nonpos eng side price hq]
    refine ⟨hinv, ⟨[], by simp, by simp, ?_, fun h => absurd h (not_lt.mpr hq)⟩,
      fun _ => ⟨inv_fresh_id hinv, inv_fresh_seq hinv⟩⟩
    intro i _
    rw [fillsOf_nil]
    exact (zero_add _).trans rfl
  · have hq1 : 0 < q := not_le.mp hq
    obtain ⟨new, r_inv, r_tr, r_tid, r_us, r_ui, r_acct, r_ena, r_enb⟩ :=
      addRes_inv eng side price q hinv
    obtain ⟨new2, g_tr, g_cons, g_pos, _, g_id, _, _, g_seq, g_sc, g_ni, _⟩ :=
      addRes_general eng side price q
    have hnew : new2 = new := by
      have h1 : eng.trades ++ new2 = eng.trades ++ new := by
        rw [← g_tr, ← r_tr]
      exact List.append_cancel_left h1
    subst hnew
    have hfseq : lookupA eng.bySeq eng.seqCounter = none := inv_fresh_seq hinv
    have hfid : lookupA eng.byId eng.nextOrderId = none := inv_fresh_id hinv
    have hfs2 : lookupA (addRes eng side price q).2.bySeq
        (addRes eng side price q).1.sequence = none := by
      rw [g_seq]
      exact r_us _ hfseq
    have hfi2 : lookupA (addRes eng side price q).2.byId
        (addRes eng side price q).1.id = none := by
      rw [g_id]
      exact r_ui _ hfid
    by_cases hr : 0 < (addRes eng side price q).1.quantity
    · have hpost : (eng.add_order side price q).1 =
          ({ (addRes eng side price q).2 with
              bySeq := insertA eng.seqCounter (addRes eng side price q).1
                (addRes eng side price q).2.bySeq,
              byId := insertA eng.nextOrderId (addRes eng side price q).1
                (addRes eng side price q).2.byId } : Engine).push
            (addRes eng side price q).1 := by
        rw [add_order_eq eng side price hq1, if_pos hr]
      have hinv4 : Inv (eng.add_order side price q).1 := by
        refine register_inv r_inv hr ?_ ?_ hfs2 hfi2 ?_ ?_ ?_ ?_ _ hpost
        · rw [g_sc, g_seq]
        · rw [g_ni, g_id]
        · intro en hen
          rw [g_seq]
          exact r_ena en hen
        · intro en hen
          rw [g_seq]
          exact r_enb en hen
        · rw [g_seq]
        · rw [g_id]
      have hbyid : ((eng.add_order side price q).1).byId =
          insertA eng.nextOrderId (addRes eng side price q).1
            (addRes eng side price q).2.byId := by
        rw [add_order_byId eng side price hq1, if_pos hr]
      refine ⟨hinv4, ⟨new2, ?_, r_tid, ?_, ?_⟩, ?_⟩
      · rw [add_order_trades eng side price hq1]
        exact r_tr
      · intro i hi
        have h1 : restingQty (eng.add_order side price q).1 i =
            restingQty (addRes eng side price q).2 i := by
          rw [restingQty, restingQty, hbyid, lookupA_insertA_ne _ _ hi]
        rw [h1]
        exact r_acct i hi
      · intro _
        have h1 : lookupA ((eng.add_order side price q).1).byId
            eng.nextOrderId = some (addRes eng side price q).1 := by
          rw [hbyid]
          exact lookupA_insertA_self _ _ _
        have h2 := g_cons
        rw [fillsOf_taker r_tid]
        simp only [restingQty, h1]
        omega
      · intro h0
        rw [add_order_ret eng side price hq1, if_pos hr] at h0
        exfalso
        have hN1 := hinv.2.2.2.2.2.2.2.2.2.2
        omega
    · have hpost2 : eng.add_order side price q =
          ((addRes eng side price q).2, 0) := by
        rw [add_order_eq eng side price hq1, if_neg hr, if_neg hr]
      have hfi3 : lookupA (addRes eng side price q).2.byId eng.nextOrderId =
          none := by
        have h := hfi2
        rw [g_id] at h
        exact h
      refine ⟨by rw [hpost2]; exact r_inv, ⟨new2, ?_, r_tid, ?_, ?_⟩, ?_⟩
      · rw [hpost2]
        exact r_tr
      · intro i hi
        rw [hpost2]
        exact r_acct i hi
      · intro _
        have h2 := g_pos (le_of_lt hq1)
        have h3 : restingQty ((eng.add_order side price q).1) eng.nextOrderId =
            0 := by
          rw [hpost2]
          simp [restingQty, hfi3]
        rw [fillsOf_taker r_tid, h3]
        omega
      · intro _
        rw [hpost2]
        exact ⟨hfi3, r_us _ hfseq⟩

theorem foldl_inv (cs : List Call) : ∀ e : Engine, Inv e →
    Inv (cs.foldl applyCall e) := by
  induction cs with
  | nil => exact fun e h => h
  | cons c cs ih =>
    intro e h
    rw [List.foldl_cons]
    refine ih _ ?_
    cases c with
    | add side price quantity => exact (add_order_inv e side price quantity h).1
    | bid =>
      rw [show applyCall e .bid = e.best_bid.1 from rfl, best_bid_fst]
      exact inv_bids_shrink h rfl
    | ask =>
      rw [show applyCall e .ask = e.best_ask.1 from rfl, best_ask_fst]
      exact inv_asks_shrink h rfl

theorem runCalls_inv (cs : List Call) : Inv (runCalls cs) :=
  foldl_inv cs Engine.empty inv_empty

theorem reach_inv {eng : Engine} (h : Reach eng) : Inv eng := by
  obtain ⟨cs, hcs⟩ := h
  rw [← hcs]
  exact runCalls_inv cs

/-- C6: in any reachable state, an `add_order` call removes a previously
registered order from the registry exactly when its quantity reaches 0: every
previously registered order is afterwards either still registered in both
mappings (same sequence, positive remaining quantity), or it was fully
consumed as a maker by this call (the new trades fill exactly its previous
quantity) and it is gone from both mappings; no registered order ever has
non-positive quantity; and a call returning 0 leaves the taker's id and
sequence unregistered — a fully filled taker is never registered at all. -/
theorem C6_removed_exactly_at_zero (eng : Engine) (hR : Reach eng)
    (side : String) (price quantity : Int) :
    (∀ i o, lookupA eng.byId i = some o →
      (∃ o1, lookupA ((eng.add_order side price quantity).1).byId i = some o1 ∧
        lookupA ((eng.add_order side price quantity).1).bySeq o.sequence =
          some o1 ∧
        o1.sequence = o.sequence ∧ 0 < o1.quantity) ∨
      (lookupA ((eng.add_order side price quantity).1).byId i = none ∧
        lookupA ((eng.add_order side price quantity).1).bySeq o.sequence =
          none ∧
        ∃ new, ((eng.add_order side price quantity).1).trades =
          eng.trades ++ new ∧ fillsOf new i = o.quantity)) ∧
    (∀ i o, lookupA ((eng.add_order side price quantity).1).byId i = some o →
      0 < o.quantity) ∧
    ((eng.add_order side price quantity).2 = 0 →
      lookupA ((eng.add_order side price quantity).1).byId eng.nextOrderId =
        none ∧
      lookupA ((eng.add_order side price quantity).1).bySeq eng.seqCounter =
        none) := by
  have hinv := reach_inv hR
  obtain ⟨hinv1, ⟨new, htr, htid, hacct, hq0⟩, hret⟩ :=
    add_order_inv eng side price quantity hinv
  refine ⟨?_, ?_, hret⟩
  · intro i o ho
    have hmem : (i, o) ∈ eng.byId := lookupA_mem ho
    obtain ⟨hoid, hocross⟩ := hinv.2.1 (i, o) hmem
    have hoid1 : o.id = i := hoid
    have hocross1 : lookupA eng.bySeq o.sequence = some o := hocross
    have hmem2 : (o.sequence, o) ∈ eng.bySeq := lookupA_mem hocross1
    obtain ⟨_, hoq, hoslt0, hoilt0, _⟩ := hinv.1 (o.sequence, o) hmem2
    have hoslt : o.sequence < eng.seqCounter := hoslt0
    have hoilt : o.id < eng.nextOrderId := hoilt0
    have hine : i ≠ eng.nextOrderId := by omega
    have hstep := hacct i hine
    have hremo : restingQty eng i = o.quantity := by
      rw [restingQty, ho]
    by_cases hq : quantity ≤ 0
    · rw [add_order_nonpos eng side price hq]
      exact Or.inl ⟨o, ho, hocross1, rfl, hoq⟩
    · have hq1 : 0 < quantity := not_le.mp hq
      have hbyseq := add_order_bySeq eng side price hq1
      obtain ⟨_, _, _, _, _, g_id, _, _, g_seq, _, _, g_trace⟩ :=
        addRes_general eng side price quantity
      have htrace2 : ∀ pr, pr ∈ ((eng.add_order side price quantity).1).bySeq →
          pr = (eng.seqCounter, (addRes eng side price quantity).1) ∨
          ∃ pr0 ∈ eng.bySeq, pr0.2.id = pr.2.id ∧
            pr0.2.sequence = pr.2.sequence := by
        intro pr hpr
        rw [hbyseq] at hpr
        have hpr2 : pr = (eng.seqCounter, (addRes eng side price quantity).1) ∨
            pr ∈ (addRes eng side price quantity).2.bySeq := by
          by_cases hrq : 0 < (addRes eng side price quantity).1.quantity
          · rw [if_pos hrq] at hpr
            exact mem_insertA hpr
          · rw [if_neg hrq] at hpr
            exact Or.inr hpr
        rcases hpr2 with h1 | h1
        · exact Or.inl h1
        · obtain ⟨pr0, hpr0, e1, e2, _, e4, _⟩ := g_trace pr h1
          exact Or.inr ⟨pr0, hpr0, e1, e4⟩
      cases hpost : lookupA ((eng.add_order side price quantity).1).byId i with
      | some o1 =>
        left
        have hmem3 : (i, o1) ∈ ((eng.add_order side price quantity).1).byId :=
          lookupA_mem hpost
        obtain ⟨ho1id, ho1cross⟩ := hinv1.2.1 (i, o1) hmem3
        have ho1id1 : o1.id = i := ho1id
        have ho1cross1 : lookupA ((eng.add_order side price quantity).1).bySeq
            o1.sequence = some o1 := ho1cross
        have hmem4 : (o1.sequence, o1) ∈
            ((eng.add_order side price quantity).1).bySeq :=
          lookupA_mem ho1cross1
        have ho1q : 0 < o1.quantity := (hinv1.1 (o1.sequence, o1) hmem4).2.1
        have hseq_eq : o1.sequence = o.sequence := by
          rcases htrace2 (o1.sequence, o1) hmem4 with h1 | h1
          · exfalso
            have h2 : o1 = (addRes eng side price quantity).1 := by
              have := congrArg Prod.snd h1
              simpa using this
            apply hine
            rw [← ho1id1, h2]
            exact g_id
          · obtain ⟨pr0, hpr0, e1, e2⟩ := h1
            have e1a : pr0.2.id = o1.id := e1
            have e2a : pr0.2.sequence = o1.sequence := e2
            have hcr := (hinv.1 pr0 hpr0).2.2.2.2
            rw [e1a, ho1id1, ho] at hcr
            have h3 : o = pr0.2 := by
              injection hcr
            rw [← e2a, ← h3]
        refine ⟨o1, rfl, ?_, hseq_eq, ho1q⟩
        rw [← hseq_eq]
        exact ho1cross1
      | none =>
        right
        refine ⟨rfl, ?_, new, htr, ?_⟩
        · cases hlk : lookupA ((eng.add_order side price quantity).1).bySeq
              o.sequence with
          | none => rfl
          | some o2 =>
            exfalso
            have hmem5 : (o.sequence, o2) ∈
                ((eng.add_order side price quantity).1).bySeq :=
              lookupA_mem hlk
            obtain ⟨ho2seq, _, _, _, ho2cross⟩ :=
              hinv1.1 (o.sequence, o2) hmem5
            have ho2seq1 : o2.sequence = o.sequence := ho2seq
            have ho2cross1 : lookupA ((eng.add_order side price quantity).1).byId
                o2.id = some o2 := ho2cross
            rcases htrace2 (o.sequence, o2) hmem5 with h1 | h1
            · have h2 : o.sequence = eng.seqCounter := by
                have := congrArg Prod.fst h1
                simpa using this
              omega
            · obtain ⟨pr0, hpr0, e1, e2⟩ := h1
              have e1a : pr0.2.id = o2.id := e1
              have e2a : pr0.2.sequence = o2.sequence := e2
              have hpr0seq : pr0.2.sequence = pr0.1 := (hinv.1 pr0 hpr0).1
              have hpr0key : pr0.1 = o.sequence := by
                rw [← hpr0seq, e2a, ho2seq1]
              have hlk0 : lookupA eng.bySeq pr0.1 = some pr0.2 :=
                mem_lookupA hinv.2.2.1 hpr0
              rw [hpr0key, hocross1] at hlk0
              have h3 : o = pr0.2 := by
                injection hlk0
              have h4 : o2.id = i := by
                rw [← e1a, ← h3, hoid1]
              rw [h4] at ho2cross1
              rw [hpost] at ho2cross1
              exact Option.noConfusion ho2cross1
        · have h5 : restingQty ((eng.add_order side price quantity).1) i = 0 := by
            simp [restingQty, hpost]
          omega
  · intro i o ho
    have hmem := lookupA_mem ho
    obtain ⟨_, hcr⟩ := hinv1.2.1 (i, o) hmem
    have hcr1 : lookupA ((eng.add_order side price quantity).1).bySeq
        o.sequence = some o := hcr
    exact (hinv1.1 (o.sequence, o) (lookupA_mem hcr1)).2.1

theorem C6_witness :
    (∃ o1,
      lookupA (((runCalls [.add "sell" 50 10]).add_order "buy" 50 10).1).byId
        1 = some o1 ∧
      lookupA (((runCalls [.add "sell" 50 10]).add_order "buy" 50 10).1).bySeq
        0 = some o1 ∧
      o1.sequence = 0 ∧ 0 < o1.quantity) ∨
    (lookupA (((runCalls [.add "sell" 50 10]).add_order "buy" 50 10).1).byId
        1 = none ∧
      lookupA (((runCalls [.add "sell" 50 10]).add_order "buy" 50 10).1).bySeq
        0 = none ∧
      ∃ new,
        (((runCalls [.add "sell" 50 10]).add_order "buy" 50 10).1).trades =
          (runCalls [.add "sell" 50 10]).trades ++ new ∧
        fillsOf new 1 = 10) :=
  (C6_removed_exactly_at_zero (runCalls [.add "sell" 50 10])
    ⟨[.add "sell" 50 10], rfl⟩ "buy" 50 10).1 1 ⟨1, "sell", 50, 10, 0, 0⟩
    (by decide)

theorem createdList_append (cs : List Call) (c : Call) :
    createdList (cs ++ [c]) = createdList cs ++ createdList [c] := by
  simp [createdList]

theorem runCalls_append (cs : List Call) (c : Call) :
    runCalls (cs ++ [c]) = applyCall (runCalls cs) c := by
  simp [runCalls, List.foldl_append]

theorem runCalls_nid (cs : List Call) :
    (runCalls cs).nextOrderId = (createdList cs).length + 1 := by
  induction cs using List.reverseRecOn with
  | nil => rfl
  | append_singleton cs c ih =>
    rw [runCalls_append, createdList_append]
    cases c with
    | add side price q =>
      by_cases hq : 0 < q
      · rw [show applyCall (runCalls cs) (.add side price q) =
            ((runCalls cs).add_order side price q).1 from rfl,
          add_order_nextOrderId (runCalls cs) side price hq, ih]
        simp [createdList, hq]
      · rw [show applyCall (runCalls cs) (.add side price q) =
            ((runCalls cs).add_order side price q).1 from rfl,
          add_order_nonpos (runCalls cs) side price (not_lt.mp hq), ih]
        simp [createdList, hq]
    | bid =>
      rw [show applyCall (runCalls cs) .bid = (runCalls cs).best_bid.1 from rfl,
        best_bid_fst, ih]
      simp [createdList]
    | ask =>
      rw [show applyCall (runCalls cs) .ask = (runCalls cs).best_ask.1 from rfl,
        best_ask_fst, ih]
      simp [createdList]

theorem fillsOf_zero_of_bound {tl : List Trade} {n i : Nat}
    (h : ∀ t ∈ tl, t.maker_order_id < n ∧ t.taker_order_id < n) (hi : n ≤ i) :
    fillsOf tl i = 0 := by
  induction tl with
  | nil => rfl
  | cons t tl ih =>
    rw [fillsOf_cons, if_neg, ih fun t1 h1 => h t1 (List.mem_cons_of_mem _ h1)]
    · omega
    · intro hor
      obtain ⟨h1, h2⟩ := h t (List.mem_cons_self t tl)
      rcases hor with h3 | h3 <;> omega

theorem restingQty_zero_of_bound {eng : Engine} (hinv : Inv eng) {i : Nat}
    (hi : eng.nextOrderId ≤ i) : restingQty eng i = 0 := by
  cases hlk : lookupA eng.byId i with
  | none => simp [restingQty, hlk]
  | some o =>
    exfalso
    obtain ⟨h1, h2⟩ := hinv.2.1 (i, o) (lookupA_mem hlk)
    have h3 := (hinv.1 (o.sequence, o) (lookupA_mem h2)).2.2.2.1
    have h1a : o.id = i := h1
    have h3a : o.id < eng.nextOrderId := h3
    omega

/-- C4: quantity conservation.  After any sequence of calls, for every order
id ever created (by the call whose submitted quantity `createdQty` records),
the submitted quantity equals the total quantity of the trades that order
participated in (as maker or taker) plus its remaining registered quantity (0
if it is fully filled and gone). -/
theorem C4_quantity_conservation : ∀ (cs : List Call) (i : Nat) (q0 : Int),
    createdQty cs i = some q0 →
    q0 = fillsOf (runCalls cs).trades i + restingQty (runCalls cs) i := by
  intro cs
  induction cs using List.reverseRecOn with
  | nil =>
    intro i q0 h
    rw [createdQty] at h
    by_cases hi0 : i = 0
    · rw [if_pos hi0] at h
      exact Option.noConfusion h
    · rw [if_neg hi0] at h
      simp [createdList] at h
  | append_singleton cs c ih =>
    intro i q0 h
    rw [runCalls_append]
    cases c with
    | bid =>
      have h1 : createdQty (cs ++ [.bid]) i = createdQty cs i := by
        simp [createdQty, createdList_append, createdList]
      rw [h1] at h
      rw [show applyCall (runCalls cs) .bid = (runCalls cs).best_bid.1 from rfl,
        best_bid_fst]
      exact ih i q0 h
    | ask =>
      have h1 : createdQty (cs ++ [.ask]) i = createdQty cs i := by
        simp [createdQty, createdList_append, createdList]
      rw [h1] at h
      rw [show applyCall (runCalls cs) .ask = (runCalls cs).best_ask.1 from rfl,
        best_ask_fst]
      exact ih i q0 h
    | add side price q =>
      rw [show applyCall (runCalls cs) (.add side price q) =
        ((runCalls cs).add_order side price q).1 from rfl]
      by_cases hq : 0 < q
      · have hinvE := runCalls_inv cs
        have hlen := runCalls_nid cs
        rw [createdQty, createdList_append] at h
        by_cases hi0 : i = 0
        · rw [if_pos hi0] at h
          exact Option.noConfusion h
        · rw [if_neg hi0] at h
          rw [show createdList [Call.add side price q] = [q] by
            simp [createdList, hq]] at h
          obtain ⟨newE, htrE, htidE, hacctE, hqE⟩ :=
            (add_order_inv (runCalls cs) side price q hinvE).2.1
          by_cases hilt : i - 1 < (createdList cs).length
          · rw [List.getElem?_append, if_pos hilt] at h
            have hich : createdQty cs i = some q0 := by
              rw [createdQty, if_neg hi0]
              exact h
            have hold := ih i q0 hich
            have hine2 : i ≠ (runCalls cs).nextOrderId := by
              rw [hlen]
              omega
            have hstep := hacctE i hine2
            have h2 : fillsOf (((runCalls cs).add_order side price q).1).trades
                i = fillsOf (runCalls cs).trades i + fillsOf newE i := by
              rw [htrE, fillsOf_append]
            omega
          · by_cases hieq : i - 1 = (createdList cs).length
            · have h1 : ((createdList cs) ++ [q])[i - 1]? = some q := by
                rw [List.getElem?_append_right (by omega), hieq]
                simp
              rw [h1] at h
              have hq0 : q0 = q := by
                injection h.symm
              have hieq2 : i = (runCalls cs).nextOrderId := by
                rw [hlen]
                omega
              have hfz : fillsOf (runCalls cs).trades i = 0 := by
                refine fillsOf_zero_of_bound ?_ (le_of_eq hieq2.symm)
                exact hinvE.2.2.2.2.2.2.2.2.2.1
              have hnew := hqE hq
              rw [hieq2] at hfz ⊢
              have h2 : fillsOf (((runCalls cs).add_order side price q).1).trades
                  (runCalls cs).nextOrderId =
                  fillsOf (runCalls cs).trades (runCalls cs).nextOrderId +
                  fillsOf newE (runCalls cs).nextOrderId := by
                rw [htrE, fillsOf_append]
              omega
            · have h1 : ((createdList cs) ++ [q])[i - 1]? = none := by
                rw [List.getElem?_append_right (by omega)]
                have : 1 ≤ i - 1 - (createdList cs).length := by omega
                rw [List.getElem?_eq_none]
                simpa using this
              rw [h1] at h
              exact Option.noConfusion h
      · have h1 : createdQty (cs ++ [.add side price q]) i = createdQty cs i := by
          simp [createdQty, createdList_append, createdList, hq]
        rw [h1] at h
        rw [add_order_nonpos (runCalls cs) side price (not_lt.mp hq)]
        exact ih i q0 h

theorem C4_witness :
    createdQty [.add "sell" 50 10, .add "buy" 50 4] 1 = some 10 ∧
    (10 : Int) =
      fillsOf (runCalls [.add "sell" 50 10, .add "buy" 50 4]).trades 1 +
        restingQty (runCalls [.add "sell" 50 10, .add "buy" 50 4]) 1 :=
  ⟨by decide,
    C4_quantity_conservation [.add "sell" 50 10, .add "buy" 50 4] 1 10
      (by decide)⟩

/-- C5: a call with `quantity <= 0` returns the sentinel 0 and is a complete
no-op: the engine state (queues, counters, registry, trade log, clock) is
returned unchanged, so no sequence number, order id or OrderRecord is
allocated. -/
theorem C5_nonpositive_rejected (eng : Engine) (side : String) (price : Int)
    {quantity : Int} (h : quantity ≤ 0) :
    eng.add_order side price quantity = (eng, 0) := by
  simp [Engine.add_order, h]

theorem C5_witness :
    (0 : Int) ≤ 0 ∧ Engine.empty.add_order "buy" 100 0 = (Engine.empty, 0) :=
  ⟨le_refl 0, C5_nonpositive_rejected Engine.empty "buy" 100 (le_refl 0)⟩

/-- C7: `best_bid` and `best_ask` are idempotent: calling the read again on the
state it produced returns the same answer and the same state, so any number of
repeated calls with no intervening `add_order` agree (the state after the first
call is a fixpoint of the read). -/
theorem C7_idempotent_reads (eng : Engine) :
    (eng.best_bid.1).best_bid = eng.best_bid ∧
    (eng.best_ask.1).best_ask = eng.best_ask := by
  constructor
  · show ((eng.peek_top "buy").1).best_bid = eng.best_bid
    simp [Engine.best_bid, peek_top_idem]
  · show ((eng.peek_top "sell").1).best_ask = eng.best_ask
    simp [Engine.best_ask, peek_top_idem]

/-- C8: the reads `best_bid` / `best_ask` never change order quantities, the
registry mappings, the counters or the trade log; the only state they change is
their own queue, by dropping a (tombstoned) stale head segment. -/
theorem C8_reads_frame (eng : Engine) :
    (eng.best_bid.1.asks = eng.asks ∧ eng.best_bid.1.bySeq = eng.bySeq ∧
      eng.best_bid.1.byId = eng.byId ∧ eng.best_bid.1.trades = eng.trades ∧
      eng.best_bid.1.seqCounter = eng.seqCounter ∧
      eng.best_bid.1.nextOrderId = eng.nextOrderId ∧
      eng.best_bid.1.clock = eng.clock ∧
      ∃ dropped, eng.bids = dropped ++ eng.best_bid.1.bids ∧
        ∀ en ∈ dropped, staleE eng.bySeq en) ∧
    (eng.best_ask.1.bids = eng.bids ∧ eng.best_ask.1.bySeq = eng.bySeq ∧
      eng.best_ask.1.byId = eng.byId ∧ eng.best_ask.1.trades = eng.trades ∧
      eng.best_ask.1.seqCounter = eng.seqCounter ∧
      eng.best_ask.1.nextOrderId = eng.nextOrderId ∧
      eng.best_ask.1.clock = eng.clock ∧
      ∃ dropped, eng.asks = dropped ++ eng.best_ask.1.asks ∧
        ∀ en ∈ dropped, staleE eng.bySeq en) := by
  have hb : eng.best_bid.1 = { eng with bids := (peekLoop eng.bySeq eng.bids).1 } := by
    simp [Engine.best_bid, peek_top_buy]
  have ha : eng.best_ask.1 = { eng with asks := (peekLoop eng.bySeq eng.asks).1 } := by
    simp [Engine.best_ask, peek_top_sell]
  rw [hb, ha]
  exact ⟨⟨rfl, rfl, rfl, rfl, rfl, rfl, rfl, peekLoop_drop eng.bySeq eng.bids⟩,
    rfl, rfl, rfl, rfl, rfl, rfl, rfl, peekLoop_drop eng.bySeq eng.asks⟩


/-- C1: price-time priority.  (1) If two registered ask-side orders have the
same price and the first has the smaller sequence number, then in the trade
list appended by any buy `add_order` on a reachable state, every trade against
the second order is preceded by a trade against the first, and once the second
order trades the first has been fully consumed and deregistered.  (2) The
mirror statement for two bid-side orders against a non-buy taker (the bid
queue is keyed by negated price, so equal prices tie-break by sequence).
(3) Priority survives partial fills because `_cleanup` re-pushes a partially
filled maker with its original sequence number (under its original price key,
negated on the bid side). -/
theorem C1_price_time_priority :
    (∀ (eng : Engine), Reach eng → ∀ (s1 s2 i1 i2 : Nat) (P price q : Int),
      (∃ o1, lookupA eng.bySeq s1 = some o1 ∧ o1.id = i1 ∧ o1.price = P ∧
        ¬ o1.side = "buy") →
      (∃ o2, lookupA eng.bySeq s2 = some o2 ∧ o2.id = i2 ∧ o2.price = P ∧
        ¬ o2.side = "buy") →
      s1 < s2 →
      ∀ new, ((eng.add_order "buy" price q).1).trades = eng.trades ++ new →
      ∀ pre t2 post, new = pre ++ t2 :: post → t2.maker_order_id = i2 →
        (∀ t ∈ pre, ¬ t.maker_order_id = i2) →
        (∃ t1 ∈ pre, t1.maker_order_id = i1) ∧
        lookupA ((eng.add_order "buy" price q).1).bySeq s1 = none) ∧
    (∀ (eng : Engine), Reach eng → ∀ (side : String), ¬ side = "buy" →
      ∀ (s1 s2 i1 i2 : Nat) (P price q : Int),
      (∃ o1, lookupA eng.bySeq s1 = some o1 ∧ o1.id = i1 ∧ o1.price = P ∧
        o1.side = "buy") →
      (∃ o2, lookupA eng.bySeq s2 = some o2 ∧ o2.id = i2 ∧ o2.price = P ∧
        o2.side = "buy") →
      s1 < s2 →
      ∀ new, ((eng.add_order side price q).1).trades = eng.trades ++ new →
      ∀ pre t2 post, new = pre ++ t2 :: post → t2.maker_order_id = i2 →
        (∀ t ∈ pre, ¬ t.maker_order_id = i2) →
        (∃ t1 ∈ pre, t1.maker_order_id = i1) ∧
        lookupA ((eng.add_order side price q).1).bySeq s1 = none) ∧
    (∀ (e : Engine) (t m : Order) (f : Int), 0 < m.quantity - f →
      (¬ m.side = "buy" →
        ((e.cleanup t m f).2).asks = heapPush (m.price, m.sequence) e.asks) ∧
      (m.side = "buy" →
        ((e.cleanup t m f).2).bids = heapPush (-m.price, m.sequence) e.bids)) := by
  refine ⟨?_, ?_, ?_⟩
  · intro eng hR s1 s2 i1 i2 P price q ho1 ho2 hs12 new hnew pre t2 post
      hsplit ht2 hpre
    have hinv : Inv eng := reach_inv hR
    by_cases hq : q ≤ 0
    · rw [add_order_nonpos eng "buy" price hq] at hnew
      exact absurd (new_nil_of_trades_eq hnew) (split_ne_nil hsplit)
    · have hq1 : 0 < q := not_le.mp hq
      have hres : addRes eng "buy" price q =
          matchBuyF (addAlloc eng) (addTaker eng "buy" price q) q.toNat := by
        simp [addRes]
      rw [add_order_trades eng "buy" price hq1, hres] at hnew
      obtain ⟨o1, hlo1, ho1i, ho1p, ho1s⟩ := ho1
      obtain ⟨o2, hlo2, ho2i, ho2p, ho2s⟩ := ho2
      have hs1lt : s1 < eng.seqCounter :=
        (hinv.1 (s1, o1) (lookupA_mem hlo1)).2.2.1
      obtain ⟨hfst, hnone⟩ := matchBuyF_priority q.toNat (addAlloc eng)
        (addTaker eng "buy" price q) s1 s2 i1 i2 P (inv_addAlloc hinv)
        (Nat.lt_succ_self eng.nextOrderId)
        ⟨o1, hlo1, ho1i, ho1p, ho1s⟩ ⟨o2, hlo2, ho2i, ho2p, ho2s⟩
        hs12 new hnew pre t2 post hsplit ht2 hpre
      refine ⟨hfst, ?_⟩
      rw [add_order_bySeq eng "buy" price hq1]
      by_cases hr : 0 < (addRes eng "buy" price q).1.quantity
      · rw [if_pos hr,
          lookupA_insertA_ne _ _ (by omega : s1 ≠ eng.seqCounter), hres]
        exact hnone
      · rw [if_neg hr, hres]
        exact hnone
  · intro eng hR side hside s1 s2 i1 i2 P price q ho1 ho2 hs12 new hnew
      pre t2 post hsplit ht2 hpre
    have hinv : Inv eng := reach_inv hR
    by_cases hq : q ≤ 0
    · rw [add_order_nonpos eng side price hq] at hnew
      exact absurd (new_nil_of_trades_eq hnew) (split_ne_nil hsplit)
    · have hq1 : 0 < q := not_le.mp hq
      have hres : addRes eng side price q =
          matchSellF (addAlloc eng) (addTaker eng side price q) q.toNat := by
        simp [addRes, hside]
      rw [add_order_trades eng side price hq1, hres] at hnew
      obtain ⟨o1, hlo1, ho1i, ho1p, ho1s⟩ := ho1
      obtain ⟨o2, hlo2, ho2i, ho2p, ho2s⟩ := ho2
      have hs1lt : s1 < eng.seqCounter :=
        (hinv.1 (s1, o1) (lookupA_mem hlo1)).2.2.1
      obtain ⟨hfst, hnone⟩ := matchSellF_priority q.toNat (addAlloc eng)
        (addTaker eng side price q) s1 s2 i1 i2 P (inv_addAlloc hinv)
        (Nat.lt_succ_self eng.nextOrderId)
        ⟨o1, hlo1, ho1i, ho1p, ho1s⟩ ⟨o2, hlo2, ho2i, ho2p, ho2s⟩
        hs12 new hnew pre t2 post hsplit ht2 hpre
      refine ⟨hfst, ?_⟩
      rw [add_order_bySeq eng side price hq1]
      by_cases hr : 0 < (addRes eng side price q).1.quantity
      · rw [if_pos hr,
          lookupA_insertA_ne _ _ (by omega : s1 ≠ eng.seqCounter), hres]
        exact hnone
      · rw [if_neg hr, hres]
        exact hnone
  · intro e t m f hsurv
    constructor
    · intro hm
      unfold Engine.cleanup
      simp [hsurv, Engine.push, hm]
    · intro hm
      unfold Engine.cleanup
      simp [hsurv, Engine.push, hm]

theorem C1_witness :
    (∃ t1 ∈ [(⟨3, 100, 3, "buy", 1, 3⟩ : Trade)], t1.maker_order_id = 1) ∧
    lookupA (((runCalls [Call.add "sell" 100 3,
      Call.add "sell" 100 4]).add_order "buy" 100 5).1).bySeq 0 = none :=
  C1_price_time_priority.1
    (runCalls [Call.add "sell" 100 3, Call.add "sell" 100 4])
    ⟨[Call.add "sell" 100 3, Call.add "sell" 100 4], rfl⟩ 0 1 1 2 100 100 5
    ⟨⟨1, "sell", 100, 3, 0, 0⟩, by decide, rfl, rfl, by decide⟩
    ⟨⟨2, "sell", 100, 4, 1, 1⟩, by decide, rfl, rfl, by decide⟩
    (by decide)
    [⟨3, 100, 3, "buy", 1, 3⟩, ⟨4, 100, 2, "buy", 2, 3⟩] (by decide)
    [⟨3, 100, 3, "buy", 1, 3⟩] ⟨4, 100, 2, "buy", 2, 3⟩ [] (by decide)
    (by decide) (by decide)

end OrderMatcher
